import Mathlib

/-!
Verification of the elspeth orchestration engine core against its
natural-language specification.

The Lean definitions below are shallow embeddings of the Python source:

* `Security`       — `src/core/security/__init__.py`
* `Artifacts`      — `src/src/elspeth/core/artifacts.py` (identical copy in `src/core`)
* `Pipeline`       — `src/core/artifact_pipeline.py`
* `Merger`         — `src/src/elspeth/core/config_merger.py`
* `Executor`       — `src/src/elspeth/core/sda/llm_executor.py`
* `Checkpoint`     — `src/src/elspeth/core/sda/checkpoint.py` and the
                     sequential path of `src/src/elspeth/core/sda/runner.py`
* `Aggregator`     — `src/src/elspeth/core/sda/result_aggregator.py`
* `RowProc`        — `src/src/elspeth/core/sda/row_processor.py`
* `Suite`          — the baseline-comparison block of
                     `src/src/elspeth/core/sda/suite_runner.py`

Python numbers are modelled as `Rat`, Python dicts as association lists
with assignment semantics (replace first occurrence, else append), and
raised exceptions as `Except` errors.  Wall-clock durations and sleeps
are recorded symbolically (the model logs the requested sleep lengths).
-/

/-- Python `str.strip()` modelled on the character list (kernel-reducible,
unlike `String.trim`). -/

def pyStrip (s : String) : String :=
  String.mk (((s.data.dropWhile Char.isWhitespace).reverse.dropWhile
    Char.isWhitespace).reverse)

/-- Python `str.lower()` modelled on the character list. -/
def pyLower (s : String) : String := String.mk (s.data.map Char.toLower)

/-- `s.startswith(p)` on character lists. -/
def pyStartsWith (s p : String) : Bool := p.data.isPrefixOf s.data

/-- `s[n:]` on character lists. -/
def pyDrop (s : String) (n : Nat) : String := String.mk (s.data.drop n)

/-- Sequential effectful map in the `Except` monad: the meaning of a Python
loop or comprehension whose body may raise. -/
def seqMapE {ε α β : Type} (f : α → Except ε β) : List α → Except ε (List β)
  | [] => .ok []
  | a :: l => do
    let b ← f a
    let bs ← seqMapE f l
    return b :: bs

/-- Sequential effectful fold in the `Except` monad (a Python loop carrying
an accumulator whose body may raise). -/
def seqFoldE {ε σ α : Type} (f : σ → α → Except ε σ) : σ → List α → Except ε σ
  | acc, [] => .ok acc
  | acc, a :: l =>
    match f acc a with
    | .ok acc2 => seqFoldE f acc2 l
    | .error e => .error e

/-- Sequential effectful iteration in the `Except` monad. -/
def seqForE {ε α : Type} (f : α → Except ε Unit) : List α → Except ε Unit
  | [] => .ok ()
  | a :: l =>
    match f a with
    | .ok _ => seqForE f l
    | .error e => .error e

instance {ε α : Type} [DecidableEq ε] [DecidableEq α] : DecidableEq (Except ε α) :=
  fun a b =>
    match a, b with
    | .ok x, .ok y => decidable_of_iff (x = y) (by simp)
    | .error x, .error y => decidable_of_iff (x = y) (by simp)
    | .ok _, .error _ => isFalse (by simp)
    | .error _, .ok _ => isFalse (by simp)

namespace Security

/-- The five-level ordering, list order = ascending clearance.
Source: `SECURITY_LEVELS` in `src/core/security/__init__.py`. -/
def SECURITY_LEVELS : List String :=
  ["unofficial", "official", "official-sensitive", "secret", "top-secret"]

/-- `normalize_security_level` from `src/core/security/__init__.py`.
`none` models Python `None`; a raised `ValueError` is an `Except.error`. -/
def normalize_security_level (level : Option String) : Except String String :=
  match level with
  | none => .ok (SECURITY_LEVELS.headI)
  | some s =>
    if pyStrip s = "" then .ok (SECURITY_LEVELS.headI)
    else
      let normalized := pyLower (pyStrip s)
      if normalized ∈ SECURITY_LEVELS then .ok normalized
      else .error ("Unknown security level " ++ s)

/-- Index of a level in `SECURITY_LEVELS` (`list.index` in Python). -/
def levelIndex (s : String) : Nat := SECURITY_LEVELS.indexOf s

/-- `is_security_level_allowed` from `src/core/security/__init__.py`. -/
def is_security_level_allowed (data_level clearance_level : Option String) :
    Except String Bool := do
  let nd ← normalize_security_level data_level
  let nc ← normalize_security_level clearance_level
  return levelIndex nd ≤ levelIndex nc

end Security

namespace Artifacts

/-- `validate_artifact_type` from `elspeth/core/artifacts.py`: the type must
be `file/<subtype>` or `data/<subtype>` with a non-empty subtype. -/
def validate_artifact_type (type_name : String) : Except String Unit :=
  if pyStartsWith type_name "file/" then
    if pyDrop type_name 5 = "" then
      .error ("Artifact type " ++ type_name ++ " must include subtype")
    else .ok ()
  else if pyStartsWith type_name "data/" then
    if pyDrop type_name 5 = "" then
      .error ("Artifact type " ++ type_name ++ " must include subtype")
    else .ok ()
  else .error ("Unsupported artifact type " ++ type_name)

end Artifacts

namespace Pipeline

open Security Artifacts

/-- First-match lookup in an association list (Python `dict.get` given unique keys). -/
def lookupFW {α : Type} : List (String × α) → String → Option α
  | [], _ => none
  | (k2, v) :: rest, k => if k2 = k then some v else lookupFW rest k

/-- Python dict assignment `d[k] = v`: replace the first binding of `k`, else append. -/
def dictAssign {α : Type} : List (String × α) → String → α → List (String × α)
  | [], k, v => [(k, v)]
  | (k2, v2) :: rest, k, v =>
    if k2 = k then (k, v) :: rest else (k2, v2) :: dictAssign rest k v

/-- Raw `produces` declaration: a config-dict entry or a sink-declared descriptor
(`ArtifactDescriptor` before normalization). -/
structure ArtifactDescriptorCfg where
  name : String
  type : String
  schema_id : Option String := none
  persist : Bool := false
  «alias» : Option String := none
  security_level : Option String := none
deriving Repr, DecidableEq

/-- `ArtifactDescriptor` after `_prepare_binding`: security level normalized. -/
structure ArtifactDescriptor where
  name : String
  type : String
  schema_id : Option String
  persist : Bool
  «alias» : Option String
  security_level : String
deriving Repr, DecidableEq

/-- Runtime `Artifact` (from `interfaces.py`); `path`, `payload` and `metadata`
are opaque to the pipeline logic and elided. -/
structure Artifact where
  id : String
  type : String
  schema_id : Option String := none
  produced_by : Option String := none
  persist : Bool := false
  security_level : Option String := none
deriving Repr, DecidableEq

/-- `ArtifactRequest` from `artifact_pipeline.py`. -/
structure ArtifactRequest where
  token : String
  mode : String := "single"
deriving Repr, DecidableEq

/-- A raw `consumes` declaration handed to `ArtifactRequestParser.parse`:
either a bare token string or a mapping with token and mode. -/
inductive ConsumeEntry where
  | plain (token : String)
  | request (token : String) (mode : String)
deriving Repr, DecidableEq

def VALID_REQUEST_MODES : List String := ["single", "all"]

/-- `ArtifactRequestParser.parse`. -/
def parseConsume : ConsumeEntry → Except String ArtifactRequest
  | .plain t => .ok ⟨t, "single"⟩
  | .request t m =>
    if t = "" then .error "Artifact consume entry requires token"
    else if m ∈ VALID_REQUEST_MODES then .ok ⟨t, m⟩
    else .error ("Unsupported artifact request mode " ++ m)

/-- A sink binding as configured, before `_prepare_binding`.  `producesCfg` /
`consumesCfg` model `artifact_config["produces"/"consumes"]`; `producesSink` /
`consumesSink` model the optional `produces()` / `consumes()` methods of the
sink; `collected` models the map returned by `collect_artifacts()`. -/
structure SinkBindingCfg where
  id : String
  original_index : Nat
  producesCfg : List ArtifactDescriptorCfg := []
  producesSink : List ArtifactDescriptorCfg := []
  consumesCfg : List ConsumeEntry := []
  consumesSink : List String := []
  security_level : Option String := none
  collected : List (String × Artifact) := []
deriving Repr, DecidableEq

/-- `SinkBinding` after `_prepare_binding`. -/
structure SinkBinding where
  id : String
  original_index : Nat
  produces : List ArtifactDescriptor
  consumes : List ArtifactRequest
  security_level : String
  collected : List (String × Artifact)
deriving Repr, DecidableEq

/-- Config-dict `produces` entries build the descriptor (normalizing the
security level) and then validate the artifact type. -/
def prepareDescriptorCfg (e : ArtifactDescriptorCfg) : Except String ArtifactDescriptor := do
  let lvl ← normalize_security_level e.security_level
  let d : ArtifactDescriptor := ⟨e.name, e.type, e.schema_id, e.persist, e.«alias», lvl⟩
  validate_artifact_type d.type
  return d

/-- Sink-declared descriptors are type-validated first, then their security
level is normalized in place. -/
def prepareDescriptorSink (e : ArtifactDescriptorCfg) : Except String ArtifactDescriptor := do
  validate_artifact_type e.type
  let lvl ← normalize_security_level e.security_level
  return ⟨e.name, e.type, e.schema_id, e.persist, e.«alias», lvl⟩

/-- `ArtifactPipeline._prepare_binding`. -/
def prepare_binding (b : SinkBindingCfg) : Except String SinkBinding := do
  let lvl ← normalize_security_level b.security_level
  let ds1 ← seqMapE prepareDescriptorCfg b.producesCfg
  let ds2 ← seqMapE prepareDescriptorSink b.producesSink
  let reqs ← seqMapE parseConsume (b.consumesCfg ++ b.consumesSink.map ConsumeEntry.plain)
  return ⟨b.id, b.original_index, ds1 ++ ds2, reqs, lvl, b.collected⟩

/-- Pipeline errors.  `permission` carries the consumer and producer binding
ids of a dependency-clearance violation; `handoff` carries the binding id, its
clearance, the artifact id, and the artifact's (normalized) level. -/
inductive PipeError where
  | valueError (msg : String)
  | permission (consumer producer : String)
  | handoff (binding clearance artifact level : String)
  | cycle
deriving Repr, DecidableEq

/-- `descriptor.alias or descriptor.name` (Python truthiness on strings). -/
def descriptorKey (d : ArtifactDescriptor) : String :=
  match d.«alias» with
  | some a => if a = "" then d.name else a
  | none => d.name

/-- `producers_by_name`: first binding to declare each alias/name key. -/
def producersByName (bs : List SinkBinding) : List (String × SinkBinding) :=
  bs.foldl
    (fun acc b =>
      b.produces.foldl
        (fun acc d =>
          let key := descriptorKey d
          if key = "" then acc
          else if (lookupFW acc key).isSome then acc
          else acc ++ [(key, b)])
        acc)
    []

/-- `producers_by_type[ty]`: every binding, once per matching descriptor, in
declaration order. -/
def producersByType (bs : List SinkBinding) (ty : String) : List SinkBinding :=
  (bs.map (fun b => (b.produces.filter (fun d => d.type = ty)).map (fun _ => b))).flatten

/-- The producer bindings a consume request resolves to during
`_resolve_order` (alias lookup for `@` tokens, type lookup otherwise;
invalid type tokens are skipped). -/
def requestMatches (bs : List SinkBinding) (r : ArtifactRequest) : List SinkBinding :=
  if r.token = "" then []
  else if pyStartsWith r.token "@" then
    match lookupFW (producersByName bs) (pyDrop r.token 1) with
    | some p => [p]
    | none => []
  else
    match validate_artifact_type r.token with
    | .ok _ => producersByType bs r.token
    | .error _ => []

/-- `ArtifactPipeline._enforce_dependency_security`. -/
def enforceDependencySecurity (consumer producer : SinkBinding) : Except PipeError Unit :=
  if consumer.security_level = "" then .ok ()
  else
    match is_security_level_allowed (some producer.security_level)
        (some consumer.security_level) with
    | .ok true => .ok ()
    | .ok false => .error (.permission consumer.id producer.id)
    | .error e => .error (.valueError e)

/-- The declared dependency edge: `c` consumes something `p` produces
(self-edges excluded), exactly as `_resolve_order` matches requests. -/
def dependsOn (bs : List SinkBinding) (c p : SinkBinding) : Prop :=
  p.id ≠ c.id ∧ ∃ r ∈ c.consumes, p ∈ requestMatches bs r

instance (bs : List SinkBinding) (c p : SinkBinding) : Decidable (dependsOn bs c p) := by
  unfold dependsOn; infer_instance

def insertIfAbsent (x : String) (l : List String) : List String :=
  if x ∈ l then l else l ++ [x]

def eraseStr : List String → String → List String
  | [], _ => []
  | x :: rest, y => if x = y then rest else x :: eraseStr rest y

/-- Dependency graph state: per-binding remaining dependency ids and the
reverse (dependents) index, both as functions keyed by binding id. -/
structure Graph where
  deps : String → List String
  dependents : String → List String

def Graph.empty : Graph := ⟨fun _ => [], fun _ => []⟩

def addEdge (g : Graph) (cid pid : String) : Graph :=
  ⟨fun x => if x = cid then insertIfAbsent pid (g.deps x) else g.deps x,
   fun x => if x = pid then insertIfAbsent cid (g.dependents x) else g.dependents x⟩

/-- Process one consume request of binding `c`: enforce dependency clearance
against every matched producer, then add the (non-self) edges. -/
def addRequestEdges (bs : List SinkBinding) (c : SinkBinding) (g : Graph)
    (r : ArtifactRequest) : Except PipeError Graph := do
  let ms := requestMatches bs r
  seqForE (fun p => enforceDependencySecurity c p) ms
  return ms.foldl (fun g p => if p.id = c.id then g else addEdge g c.id p.id) g

/-- Build the dependency/dependents indexes for `_resolve_order`, raising the
first clearance violation encountered. -/
def buildGraph (bs : List SinkBinding) : Except PipeError Graph :=
  seqFoldE (fun g c => seqFoldE (addRequestEdges bs c) g c.consumes) Graph.empty bs

def bindingLe (a b : SinkBinding) : Prop := a.original_index ≤ b.original_index

instance : DecidableRel bindingLe := fun a b => Nat.decLe a.original_index b.original_index

instance : IsTotal SinkBinding bindingLe :=
  ⟨fun a b => Nat.le_total a.original_index b.original_index⟩

instance : IsTrans SinkBinding bindingLe :=
  ⟨fun _ _ _ h1 h2 => Nat.le_trans h1 h2⟩

/-- Python `sorted(..., key=lambda b: b.original_index)` (stable). -/
def sortReady (l : List SinkBinding) : List SinkBinding := List.insertionSort bindingLe l

def byId : List SinkBinding → String → Option SinkBinding
  | [], _ => none
  | b :: rest, i => if b.id = i then some b else byId rest i

/-- One dependent update inside the Kahn loop: remove `cid` from the
dependent's remaining deps; if they become empty, append the dependent to the
ready queue and re-sort it by original index. -/
def processDependent (bs : List SinkBinding) (cid : String)
    (st : (String → List String) × List SinkBinding) (d : String) :
    (String → List String) × List SinkBinding :=
  let deps := st.1
  let ready := st.2
  let ds := deps d
  if cid ∈ ds then
    let ds2 := eraseStr ds cid
    let deps2 := fun x => if x = d then ds2 else deps x
    if ds2.isEmpty then
      match byId bs d with
      | some b => (deps2, sortReady (ready ++ [b]))
      | none => (deps2, ready)
    else (deps2, ready)
  else (deps, ready)

/-- The Kahn loop of `_resolve_order`.  The fuel bounds the number of pops;
for duplicate-free binding ids `bs.length` pops always suffice (each binding
enters the ready queue at most once), which the theorems below establish. -/
def kahnLoop (bs : List SinkBinding) (dependents : String → List String) :
    Nat → (String → List String) → List SinkBinding → List SinkBinding →
    List SinkBinding
  | 0, _, _, ordered => ordered
  | _ + 1, _, [], ordered => ordered
  | fuel + 1, deps, current :: rest, ordered =>
    let st := (dependents current.id).foldl (processDependent bs current.id) (deps, rest)
    kahnLoop bs dependents fuel st.1 st.2 (ordered ++ [current])

/-- `ArtifactPipeline._resolve_order`. -/
def resolveOrder (bs : List SinkBinding) : Except PipeError (List SinkBinding) :=
  if bs.isEmpty then .ok []
  else do
    let g ← buildGraph bs
    let ready0 := sortReady (bs.filter (fun b => (g.deps b.id).isEmpty))
    let ordered := kahnLoop bs g.dependents bs.length g.deps ready0 []
    if ordered.length ≠ bs.length then .error .cycle
    else .ok ordered

/-- The artifact store: `_by_id`, `_by_alias`, `_by_type`. -/
structure ArtifactStore where
  by_id : List (String × Artifact) := []
  by_alias : List (String × Artifact) := []
  by_type : List (String × List Artifact) := []
deriving Repr, DecidableEq

def typeAppend (l : List (String × List Artifact)) (k : String) (a : Artifact) :
    List (String × List Artifact) :=
  match lookupFW l k with
  | some cur => dictAssign l k (cur ++ [a])
  | none => l ++ [(k, [a])]

/-- The artifact as mutated by `ArtifactStore.register` before storing:
id defaulted, `produced_by` stamped, persist/schema_id merged with the
descriptor, security level resolved artifact → descriptor → binding and
normalized. -/
def registeredArtifact (binding : SinkBinding) (descriptor : ArtifactDescriptor)
    (artifact : Artifact) : Except String Artifact := do
  let aid := if artifact.id = "" then binding.id ++ ":" ++ descriptor.name else artifact.id
  let lvl0 : Option String :=
    match artifact.security_level with
    | some s => if s = "" then none else some s
    | none => none
  let lvlIn : Option String :=
    match lvl0 with
    | some s => some s
    | none =>
      if descriptor.security_level = "" then
        if binding.security_level = "" then none else some binding.security_level
      else some descriptor.security_level
  let lvl ← normalize_security_level lvlIn
  let sid : Option String :=
    match artifact.schema_id with
    | some s => if s = "" then descriptor.schema_id else some s
    | none => descriptor.schema_id
  return { artifact with
    id := aid
    produced_by := some binding.id
    persist := descriptor.persist || artifact.persist
    schema_id := sid
    security_level := some lvl }

/-- `ArtifactStore.register`. -/
def ArtifactStore.register (store : ArtifactStore) (binding : SinkBinding)
    (descriptor : ArtifactDescriptor) (artifact : Artifact) :
    Except String ArtifactStore := do
  let a ← registeredArtifact binding descriptor artifact
  let s1 := { store with by_id := dictAssign store.by_id a.id a }
  let aliasKey := descriptorKey descriptor
  let s2 :=
    if aliasKey = "" then s1
    else { s1 with by_alias := dictAssign s1.by_alias aliasKey a }
  return { s2 with by_type := typeAppend s2.by_type descriptor.type a }

def ArtifactStore.get_by_alias (s : ArtifactStore) (k : String) : Option Artifact :=
  lookupFW s.by_alias k

def ArtifactStore.get_by_type (s : ArtifactStore) (ty : String) : List Artifact :=
  (lookupFW s.by_type ty).getD []

/-- `ArtifactStore.resolve_requests`. -/
def ArtifactStore.resolve_requests (s : ArtifactStore) (requests : List ArtifactRequest) :
    List (String × List Artifact) :=
  requests.foldl
    (fun resolved r =>
      if r.token = "" then resolved
      else if pyStartsWith r.token "@" then
        let selected : List Artifact :=
          match s.get_by_alias (pyDrop r.token 1) with
          | some a => [a]
          | none => []
        let selected := if r.mode = "single" ∧ selected.isEmpty = false then selected.take 1 else selected
        dictAssign (dictAssign resolved r.token selected) (pyDrop r.token 1) selected
      else
        match validate_artifact_type r.token with
        | .error _ => resolved
        | .ok _ =>
          let selected := s.get_by_type r.token
          let selected := if r.mode = "single" ∧ selected.isEmpty = false then selected.take 1 else selected
          dictAssign resolved r.token selected)
    []

/-- The per-binding clearance check at handoff in `ArtifactPipeline.execute`. -/
def checkClearance (binding : SinkBinding) (consumed : List (String × List Artifact)) :
    Except PipeError Unit :=
  if binding.security_level = "" then .ok ()
  else
    seqForE (fun kv =>
      seqForE (fun a =>
        match is_security_level_allowed a.security_level (some binding.security_level) with
        | .ok true => .ok ()
        | .ok false =>
          .error (.handoff binding.id binding.security_level a.id
            (((normalize_security_level a.security_level).toOption).getD ""))
        | .error e => .error (.valueError e)) kv.2) consumed

/-- Execution trace entry: binding id, its clearance, and the consumed map it
was handed. -/
structure HandoffRec where
  binding : String
  clearance : String
  consumed : List (String × List Artifact)
deriving Repr, DecidableEq

/-- `ArtifactPipeline.execute` over the already-ordered bindings.  `write`,
`prepare_artifacts` and `finalize` have no effect on the store and are
elided; the returned trace logs each binding's resolved handoff. -/
def executeStep (acc : ArtifactStore × List HandoffRec) (binding : SinkBinding) :
    Except PipeError (ArtifactStore × List HandoffRec) := do
  let store := acc.1
  let consumed := store.resolve_requests binding.consumes
  checkClearance binding consumed
  let produced := binding.collected
  let store2 ← seqFoldE
    (fun st descriptor => do
      let candidate0 := lookupFW produced descriptor.name
      let candidate :=
        match candidate0 with
        | some a => some a
        | none =>
          match descriptor.«alias» with
          | some al => if al = "" then none else lookupFW produced al
          | none => none
      match candidate with
      | some a => (st.register binding descriptor a).mapError PipeError.valueError
      | none => return st)
    store binding.produces
  return (store2, acc.2 ++ [⟨binding.id, binding.security_level, consumed⟩])

def executeBindings (ordered : List SinkBinding) :
    Except PipeError (ArtifactStore × List HandoffRec) :=
  seqFoldE executeStep (⟨[], [], []⟩, []) ordered

/-- `ArtifactPipeline.__init__`: prepare every binding, then resolve order. -/
def pipelineInit (cfgs : List SinkBindingCfg) :
    Except PipeError (List SinkBinding) := do
  let bs ← seqMapE (fun c => (prepare_binding c).mapError PipeError.valueError) cfgs
  resolveOrder bs

end Pipeline

namespace Merger

open Pipeline (lookupFW dictAssign)

/-- Configuration values: scalars, lists, and nested dicts. -/
inductive Value where
  | s (v : String)
  | n (v : Rat)
  | b (v : Bool)
  | list (items : List Value)
  | dict (entries : List (String × Value))
deriving Repr

/-- `MergeStrategy` from `config_merger.py`. -/
inductive MergeStrategy where
  | override
  | append
  | deep_merge
deriving Repr, DecidableEq

/-- The APPEND rows of `ConfigurationMerger.MERGE_STRATEGIES`. -/
def APPEND_KEYS : List String :=
  ["row_plugins", "row_plugin_defs", "transform_plugin_defs", "transform_plugins",
   "aggregator_plugins", "aggregator_plugin_defs", "aggregation_transform_defs",
   "baseline_plugins", "baseline_plugin_defs", "llm_middlewares", "llm_middleware_defs",
   "sinks", "sink_defs", "early_stop_plugins", "early_stop_plugin_defs",
   "halt_condition_plugins", "halt_condition_plugin_defs"]

/-- The DEEP_MERGE rows of `ConfigurationMerger.MERGE_STRATEGIES`. -/
def DEEP_KEYS : List String :=
  ["llm", "datasource", "orchestrator", "concurrency", "retry", "checkpoint",
   "early_stop", "prompts"]

/-- `MERGE_STRATEGIES.get(key, OVERRIDE)`. -/
def mergeStrategy (k : String) : MergeStrategy :=
  if k ∈ APPEND_KEYS then .append
  else if k ∈ DEEP_KEYS then .deep_merge
  else .override

/-- `ConfigSource`. -/
structure ConfigSource where
  name : String
  data : List (String × Value)
  precedence : Int

/-- `ConfigurationMerger._deep_merge_dict`. -/
def deepMergeDict (base : List (String × Value)) :
    List (String × Value) → List (String × Value)
  | [] => base
  | (k, v) :: rest =>
    let base2 :=
      match lookupFW base k, v with
      | some (Value.dict bd), Value.dict vd =>
        dictAssign base k (Value.dict (deepMergeDict bd vd))
      | _, _ => dictAssign base k v
    deepMergeDict base2 rest
termination_by l => sizeOf l
decreasing_by all_goals simp_wf <;> omega

/-- Merging one `(key, value)` pair of a source into the accumulated result
(the body of the `for key, value in source.data.items()` loop of
`_merge_source`).  The `.error` branches correspond to Python type errors on
malformed inputs (appending to a non-list, deep-merging a non-dict). -/
def mergeEntry (result : List (String × Value)) (entry : String × Value) :
    Except String (List (String × Value)) :=
  let key := entry.1
  let value := entry.2
  match mergeStrategy key with
  | .override => .ok (dictAssign result key value)
  | .append =>
    let cur := match lookupFW result key with
      | some c => c
      | none => Value.list []
    match cur with
    | Value.list cs =>
      match value with
      | Value.list vs => .ok (dictAssign result key (Value.list (cs ++ vs)))
      | v => .ok (dictAssign result key (Value.list (cs ++ [v])))
    | _ => .error "TypeError: cannot concatenate non-list"
  | .deep_merge =>
    let cur := match lookupFW result key with
      | some c => c
      | none => Value.dict []
    match cur, value with
    | Value.dict cd, Value.dict vd => .ok (dictAssign result key (Value.dict (deepMergeDict cd vd)))
    | _, _ => .error "AttributeError: deep merge expects mappings"

/-- `ConfigurationMerger._merge_source`. -/
def mergeSource (base : List (String × Value)) (source : ConfigSource) :
    Except String (List (String × Value)) :=
  seqFoldE mergeEntry base source.data

def srcLe (a b : ConfigSource) : Prop := a.precedence ≤ b.precedence

instance : DecidableRel srcLe := fun a b => Int.decLe a.precedence b.precedence

instance : IsTotal ConfigSource srcLe := ⟨fun a b => Int.le_total a.precedence b.precedence⟩

instance : IsTrans ConfigSource srcLe := ⟨fun _ _ _ h1 h2 => Int.le_trans h1 h2⟩

/-- `sorted(sources, key=lambda s: s.precedence)` (stable). -/
def sortSources (ss : List ConfigSource) : List ConfigSource := List.insertionSort srcLe ss

/-- `ConfigurationMerger.merge`. -/
def merge (ss : List ConfigSource) : Except String (List (String × Value)) :=
  seqFoldE mergeSource [] (sortSources ss)

end Merger

namespace Executor

open Pipeline (lookupFW dictAssign)

/-- One entry of the attempt history.  Wall-clock durations are not modelled;
`next_delay` records the sleep requested before the following attempt. -/
structure RetryEntry where
  attempt : Nat
  status : String
  error : Option String := none
  error_type : Option String := none
  next_delay : Option Rat := none
deriving Repr, DecidableEq

/-- The `retry` payload attached to responses and exhausted errors. -/
structure RetryInfo where
  attempts : Nat
  max_attempts : Nat
  history : List RetryEntry
deriving Repr, DecidableEq

/-- An LLM response dict: `content`, numeric `metrics`, optional `retry`. -/
structure LLMResponse where
  content : Option String := none
  metrics : List (String × Rat) := []
  retry : Option RetryInfo := none
deriving Repr, DecidableEq

/-- A raised exception: message and class name. -/
structure LLMError where
  message : String
  error_type : String
deriving Repr, DecidableEq

/-- Result of `LLMExecutor.execute`: a response, or the re-raised last error
with retry metadata attached (`_dmp_retry_*`).  `sleeps` logs the positive
sleeps actually performed, in order.  `assertionFailure` models the
`assert last_error is not None` hit when `max_attempts < 1`. -/
inductive ExecResult where
  | ok (response : LLMResponse) (sleeps : List Rat)
  | exhausted (error : LLMError) (info : RetryInfo) (sleeps : List Rat)
  | assertionFailure
deriving Repr, DecidableEq

/-- The retry loop of `LLMExecutor.execute`.  `oracle k` is the outcome of the
`k`-th LLM call (middleware, rate limiting and cost tracking folded into it);
`remaining = max_attempts - attempt` counts loop iterations left. -/
def executeGo (oracle : Nat → Except LLMError LLMResponse) (max_attempts : Nat)
    (backoff : Rat) :
    Nat → Nat → Rat → List RetryEntry → List Rat → ExecResult
  | 0, _, _, _, _ => .assertionFailure
  | remaining + 1, attempt, delay, history, sleeps =>
    let attempt2 := attempt + 1
    match oracle attempt2 with
    | .ok response =>
      let history2 := history ++ [{ attempt := attempt2, status := "success" }]
      let response2 : LLMResponse :=
        { response with
          metrics := dictAssign response.metrics "attempts_used" (attempt2 : Rat)
          retry := some (response.retry.getD ⟨attempt2, max_attempts, history2⟩) }
      .ok response2 sleeps
    | .error exc =>
      if remaining = 0 then
        let history2 := history ++
          [{ attempt := attempt2, status := "error", error := some exc.message,
             error_type := some exc.error_type }]
        .exhausted exc ⟨attempt2, max_attempts, history2⟩ sleeps
      else
        let sleep_for : Rat := if 0 < delay then delay else 0
        let history2 := history ++
          [{ attempt := attempt2, status := "error", error := some exc.message,
             error_type := some exc.error_type, next_delay := some sleep_for }]
        let sleeps2 := if 0 < sleep_for then sleeps ++ [sleep_for] else sleeps
        let delay2 := if 0 < backoff then (if delay ≠ 0 then delay * backoff else backoff)
          else delay
        executeGo oracle max_attempts backoff remaining attempt2 delay2 history2 sleeps2

/-- `LLMExecutor.execute` with retry config
`{max_attempts, initial_delay, backoff_multiplier}`. -/
def execute (max_attempts : Nat) (initial_delay backoff_multiplier : Rat)
    (oracle : Nat → Except LLMError LLMResponse) : ExecResult :=
  executeGo oracle max_attempts backoff_multiplier max_attempts 0 initial_delay [] []

end Executor

namespace Checkpoint

open Pipeline (lookupFW)

/-- The checkpoint file is modelled as its list of text lines plus the
in-memory processed-id set of `CheckpointManager`. -/
structure Manager where
  lines : List String
  processed : List String
deriving Repr, DecidableEq

/-- `CheckpointManager._load_checkpoint`: strip each line, ignore empties. -/
def loadIds (lines : List String) : List String :=
  (lines.map pyStrip).filter (fun s => s ≠ "")

/-- Open a checkpoint file with the given contents. -/
def Manager.load (lines : List String) : Manager := ⟨lines, loadIds lines⟩

/-- The file lines contributed by one `f.write(f"{row_id}\n")` on a
newline-terminated file: the written chunk splits at every embedded `'\n'`
when the file is later read line by line. -/
def splitNLGo : List Char → List Char → List String
  | [], cur => [String.mk cur.reverse]
  | c :: rest, cur =>
    if c = '\n' then String.mk cur.reverse :: splitNLGo rest []
    else splitNLGo rest (c :: cur)

def splitNL (s : String) : List String := splitNLGo s.data []

/-- `CheckpointManager.mark_processed`: no-op when the raw id is already in
the in-memory set, else add the raw id to the set and append
`f"{row_id}\n"` to the file (so an id with embedded newlines occupies
several lines on a later reload). -/
def Manager.mark_processed (m : Manager) (row_id : String) : Manager :=
  if row_id ∈ m.processed then m
  else ⟨m.lines ++ splitNL row_id, m.processed ++ [row_id]⟩

/-- A row context: ordered field map (`prepare_prompt_context` output). -/
abbrev RowCtx := List (String × String)

/-- Python truthiness of `row_id` (`None` and `""` are falsy). -/
def truthy : Option String → Prop
  | none => False
  | some s => s ≠ ""

instance (o : Option String) : Decidable (truthy o) := by
  cases o <;> simp [truthy] <;> infer_instance

/-- The backlog loop of `SDARunner.run` (checkpointing enabled, no halt
conditions, so the early-stop break never fires): enumerate rows, skip those
whose truthy id is already processed.  Each element is
`(original_index, context, row_id)`. -/
def backlogGo (m : Manager) (field : String) :
    Nat → List RowCtx → List (Nat × RowCtx × Option String)
  | _, [] => []
  | i, ctx :: rest =>
    let rid := Pipeline.lookupFW ctx field
    if ∃ s, rid = some s ∧ s ≠ "" ∧ s ∈ m.processed then backlogGo m field (i + 1) rest
    else (i, ctx, rid) :: backlogGo m field (i + 1) rest

def buildBacklog (m : Manager) (field : String) (rows : List RowCtx) :
    List (Nat × RowCtx × Option String) :=
  backlogGo m field 0 rows

/-- Outcome of one cycle run: indexed results, failures, the final
checkpoint manager, and the indices of rows actually handed to the row
processor (each of which makes LLM calls). -/
structure RunOutcome (Rec Fail : Type) where
  results : List (Nat × Rec)
  failures : List Fail
  manager : Manager
  attempted : List Nat

/-- One iteration of the sequential row loop of `SDARunner.run`: process the
backlog tuple; on success register the record and mark the checkpoint, on
failure record the failure. -/
def runStep {Rec Fail : Type} (proc : Nat → Sum Rec Fail)
    (acc : RunOutcome Rec Fail) (t : Nat × RowCtx × Option String) :
    RunOutcome Rec Fail :=
  let idx := t.1
  let rid := t.2.2
  match proc idx with
  | .inl rec =>
    let m2 := if truthy rid then acc.manager.mark_processed (rid.getD "") else acc.manager
    { acc with results := acc.results ++ [(idx, rec)], manager := m2,
               attempted := acc.attempted ++ [idx] }
  | .inr fl =>
    { acc with failures := acc.failures ++ [fl],
               attempted := acc.attempted ++ [idx] }

/-- The sequential path of `SDARunner.run` with checkpointing enabled.
`proc` is the row processor's outcome per original index. -/
def runCycle {Rec Fail : Type} (m0 : Manager) (field : String) (rows : List RowCtx)
    (proc : Nat → Sum Rec Fail) : RunOutcome Rec Fail :=
  (buildBacklog m0 field rows).foldl (runStep proc) ⟨[], [], m0, []⟩

end Checkpoint

namespace Aggregator

/-- Comparison key of `self._results_with_index.sort(key=lambda item: item[0])`. -/
def rowLe {α : Type} (a b : Nat × α) : Prop := a.1 ≤ b.1

instance {α : Type} : DecidableRel (rowLe (α := α)) := fun a b => Nat.decLe a.1 b.1

instance {α : Type} : IsTotal (Nat × α) rowLe := ⟨fun a b => Nat.le_total a.1 b.1⟩

instance {α : Type} : IsTrans (Nat × α) rowLe := ⟨fun _ _ _ h1 h2 => Nat.le_trans h1 h2⟩

/-- Python's stable `list.sort` by original index. -/
def sortResults {α : Type} (l : List (Nat × α)) : List (Nat × α) :=
  List.insertionSort rowLe l

/-- The parts of the `ResultAggregator.build_payload` output the ordering
claim concerns: `results` (sorted by index), `failures` (as accumulated) and
`metadata.rows`. -/
structure Payload (Rec Fail : Type) where
  results : List Rec
  failures : List Fail
  rows : Nat

/-- `ResultAggregator.build_payload` (aggregation plugins, cost and retry
summaries elided — they do not touch the ordering of `results`). -/
def build_payload {Rec Fail : Type} (resultsWithIndex : List (Nat × Rec))
    (failures : List Fail) : Payload Rec Fail :=
  let sorted := sortResults resultsWithIndex
  ⟨sorted.map (fun p => p.2), failures, (sorted.map (fun p => p.2)).length⟩

end Aggregator

namespace RowProc

/-- A Failure dict as built by `RowProcessor.process_row`.  Optional fields
model keys that may be absent. -/
structure Failure where
  row : List (String × String)
  error : String
  error_type : Option String := none
  timestamp : Option Rat := none
  retry : Option Executor.RetryInfo := none
deriving Repr, DecidableEq

/-- Outcome of the `try` body of `process_row` for one row: success, a
template error (`PromptRenderingError` / `PromptValidationError` with its
class name), or any other exception (optionally carrying the
`_dmp_retry_*` side-channel attributes set by the LLM executor). -/
inductive TryOutcome (Rec : Type) where
  | ok (record : Rec)
  | promptError (message : String) (etype : String)
  | otherError (message : String) (history : Option (List Executor.RetryEntry))
      (attempts max_attempts : Option Nat)

/-- The exception-handling tail of `RowProcessor.process_row`: turn the try
outcome into `(record, failure)`.  `now` is the wall-clock timestamp. -/
def process_row {Rec : Type} (outcome : TryOutcome Rec)
    (ctx : List (String × String)) (now : Rat) : Option Rec × Option Failure :=
  match outcome with
  | .ok r => (some r, none)
  | .promptError msg ty => (none, some ⟨ctx, msg, some ty, none, none⟩)
  | .otherError msg hist att maxAtt =>
    let base : Failure := ⟨ctx, msg, none, some now, none⟩
    match hist with
    | some h =>
      if h.isEmpty then (none, some base)
      else (none, some { base with
        retry := some ⟨att.getD h.length, maxAtt.getD h.length, h⟩ })
    | none => (none, some base)

end RowProc

namespace Suite

open Pipeline (lookupFW dictAssign)

/-- A diff map returned by a comparison plugin; Python truthiness of the
returned dict decides attachment. -/
abbrev Diff := List (String × Rat)

/-- A comparison plugin (`create_baseline_plugin` output): a name and a
`compare(baseline_payload, payload)` function. -/
structure ComparisonPlugin (P : Type) where
  name : String
  compare : P → P → Diff

/-- The gathering of comparison plugin defs in `SDASuiteRunner.run`
(lines 317-321): defaults, with a non-empty pack list *prepended*, and the
cycle-metadata list appended. -/
def gatherCompDefs {P : Type} (defaults pack meta : List (ComparisonPlugin P)) :
    List (ComparisonPlugin P) :=
  let comp := defaults
  let comp := if pack.isEmpty then comp else pack ++ comp
  if meta.isEmpty then comp else comp ++ meta

/-- The comparison loop: run each plugin on `(baseline, variant)` and keep
non-empty diffs keyed by plugin name. -/
def runComparisons {P : Type} (defs : List (ComparisonPlugin P)) (base variant : P) :
    List (String × Diff) :=
  defs.foldl
    (fun comps plugin =>
      let diff := plugin.compare base variant
      if diff ≠ [] then dictAssign comps plugin.name diff else comps)
    []

/-- The value attached to the variant payload under `baseline_comparison`
(`None` when no plugin produced a non-empty diff, in which case the key is
not set). -/
def attachedComparisons {P : Type} (defaults pack meta : List (ComparisonPlugin P))
    (base variant : P) : Option (List (String × Diff)) :=
  let comps := runComparisons (gatherCompDefs defaults pack meta) base variant
  if comps ≠ [] then some comps else none

end Suite

namespace Pipeline

open Security Artifacts

/-- An option that holds an unrecognized (non-blank, unknown after
strip/lower) security-level string. -/
def badLevel (o : Option String) : Prop :=
  ∃ s, o = some s ∧ pyStrip s ≠ "" ∧ pyLower (pyStrip s) ∉ Security.SECURITY_LEVELS

end Pipeline

/-- C9 counterexample data: one binding registering two artifacts under the
same alias key `"x"`. -/
def c9binding : Pipeline.SinkBinding := ⟨"S:0", 0, [], [], "unofficial", []⟩

def c9desc : Pipeline.ArtifactDescriptor := ⟨"x", "data/x", none, false, none, "unofficial"⟩

def c9art1 : Pipeline.Artifact := { id := "a1", type := "data/x" }

def c9art2 : Pipeline.Artifact := { id := "a2", type := "data/x" }

/-- The first registration's stored artifact and resulting store, concretely. -/
def c9r1 : Pipeline.Artifact :=
  { id := "a1", type := "data/x", produced_by := some "S:0",
    security_level := some "unofficial" }

def c9r2 : Pipeline.Artifact :=
  { id := "a2", type := "data/x", produced_by := some "S:0",
    security_level := some "unofficial" }

def c9s1 : Pipeline.ArtifactStore :=
  ⟨[("a1", c9r1)], [("x", c9r1)], [("data/x", [c9r1])]⟩

def c9s2 : Pipeline.ArtifactStore :=
  ⟨[("a1", c9r1), ("a2", c9r2)], [("x", c9r2)], [("data/x", [c9r1, c9r2])]⟩

/-- C7 counterexample data: one defaults plugin `A`, one pack plugin `B`,
both returning non-empty diffs. -/
def c7pA : Suite.ComparisonPlugin Unit := ⟨"A", fun _ _ => [("d", 1)]⟩

def c7pB : Suite.ComparisonPlugin Unit := ⟨"B", fun _ _ => [("d", 1)]⟩

/-- Concrete sources for the C5 witness. -/
def c5s1 : Merger.ConfigSource :=
  ⟨"defaults", [("sinks", .list [.s "a"]), ("x", .n 1)], 1⟩

def c5s2 : Merger.ConfigSource :=
  ⟨"experiment", [("sinks", .list [.s "b"]), ("x", .n 2)], 3⟩

def c5m : List (String × Merger.Value) :=
  [("sinks", .list [.s "a", .s "b"]), ("x", .n 2)]

namespace Executor

open Pipeline (lookupFW dictAssign)

/-- `sleep_for` as a function of the current `delay` variable. -/
def sleepOf (x : Rat) : Rat := if 0 < x then x else 0

/-- The evolution of the `delay` variable across error iterations: one
backoff update per completed non-final error attempt. -/
def delayIter (b : Rat) : Rat → Nat → Rat
  | d, 0 => d
  | d, i + 1 => delayIter b (if 0 < b then (if d ≠ 0 then d * b else b) else d) i

/-- The claim's closed-form delay before attempt `i + 2`: successive delays
`d, d*b, d*b^2, ...`, the delay becoming `b` itself when `d = 0`. -/
def sleepClosed (d b : Rat) (i : Nat) : Rat :=
  if 0 < d then d * b ^ i else (if i = 0 then 0 else b ^ i)

/-- The history produced by an all-errors run, relative to the loop state
(`r` attempts left, `a` attempts done, current `delay`). -/
def failHist (e : Nat → LLMError) (b : Rat) : Nat → Nat → Rat → List RetryEntry
  | 0, _, _ => []
  | 1, a, _ =>
    [⟨a + 1, "error", some (e (a + 1)).message, some (e (a + 1)).error_type, none⟩]
  | r + 2, a, d =>
    ⟨a + 1, "error", some (e (a + 1)).message, some (e (a + 1)).error_type,
      some (sleepOf d)⟩ ::
      failHist e b (r + 1) (a + 1) (if 0 < b then (if d ≠ 0 then d * b else b) else d)

/-- The sleeps performed by an all-errors run, relative to the loop state. -/
def failSleeps (b : Rat) : Nat → Rat → List Rat
  | 0, _ => []
  | 1, _ => []
  | r + 2, d =>
    (if 0 < sleepOf d then [sleepOf d] else []) ++
      failSleeps b (r + 1) (if 0 < b then (if d ≠ 0 then d * b else b) else d)

end Executor

/-- A concrete always-raising LLM call for C3. -/
def c3err : Executor.LLMError := ⟨"boom", "E"⟩

def c3oracle : Nat → Except Executor.LLMError Executor.LLMResponse := fun _ => .error c3err

/-- A concrete always-succeeding LLM call for the C3 witness. -/
def c3resp : Executor.LLMResponse := { content := some "ok" }

def c3oracle2 : Nat → Except Executor.LLMError Executor.LLMResponse := fun _ => .ok c3resp

/-- C4 counterexample data: one row with no value under the checkpoint field
`APPID`, and a row processor that always succeeds. -/
def c4rows : List Checkpoint.RowCtx := [[("text", "a")]]

def c4rows2 : List Checkpoint.RowCtx := [[("APPID", " x ")]]

def c4proc : Nat → Sum Nat Unit := fun _ => Sum.inl 7

def c4wrows : List Checkpoint.RowCtx := [[("id", "r1")]]

def c1cfgsA : List Pipeline.SinkBindingCfg :=
  [{ id := "producer"
     original_index := 0
     producesCfg := [{ name := "report"
                       type := "data/json"
                       «alias» := some "report"
                       security_level := some "secret" }]
     security_level := some "secret"
     collected := [("report", { id := "", type := "data/json" })] },
   { id := "consumer"
     original_index := 1
     consumesCfg := [.plain "@report"]
     security_level := some "secret" }]

def c1cfgsB : List Pipeline.SinkBindingCfg :=
  [{ id := "producer2"
     original_index := 0
     producesCfg := [{ name := "report2"
                       type := "data/json"
                       «alias» := some "report2"
                       security_level := some "secret" }]
     security_level := some "secret" },
   { id := "consumer2"
     original_index := 1
     consumesCfg := [.plain "@report2"]
     security_level := some "official" }]

def c1bsA : List Pipeline.SinkBinding :=
  ((Pipeline.pipelineInit c1cfgsA).toOption).getD []

def c1outA : Pipeline.ArtifactStore × List Pipeline.HandoffRec :=
  ((Pipeline.executeBindings c1bsA).toOption).getD (⟨[], [], []⟩, [])

def c1bsB : List Pipeline.SinkBinding :=
  ((seqMapE
    (fun c => (Pipeline.prepare_binding c).mapError Pipeline.PipeError.valueError)
    c1cfgsB).toOption).getD []

namespace Pipeline

open Security Artifacts

/-- The bindings ready ("available") just before step `i` of the execution
order: not yet emitted, with every declared dependency already emitted. -/
def availableAt (bs ordered : List SinkBinding) (i : Nat) : List SinkBinding :=
  bs.filter (fun b => decide (b ∉ ordered.take i ∧
    ∀ p ∈ bs, dependsOn bs b p → p ∈ ordered.take i))

end Pipeline

def c2pA : Pipeline.SinkBinding :=
  { id := "A"
    original_index := 0
    produces := []
    consumes := [{ token := "@x" }]
    security_level := "unofficial"
    collected := [] }

def c2pB : Pipeline.SinkBinding :=
  { id := "B"
    original_index := 1
    produces := [{ name := "x"
                   type := "data/json"
                   schema_id := none
                   persist := false
                   «alias» := some "x"
                   security_level := "unofficial" }]
    consumes := []
    security_level := "unofficial"
    collected := [] }

def c2pC : Pipeline.SinkBinding :=
  { id := "C"
    original_index := 2
    produces := []
    consumes := []
    security_level := "unofficial"
    collected := [] }

def c2bs : List Pipeline.SinkBinding := [c2pA, c2pB, c2pC]

def c2ordW : List Pipeline.SinkBinding :=
  ((Pipeline.resolveOrder c2bs).toOption).getD []

def c2q1 : Pipeline.SinkBinding :=
  { id := "P"
    original_index := 0
    produces := [{ name := "a1"
                   type := "data/json"
                   schema_id := none
                   persist := false
                   «alias» := some "a1"
                   security_level := "unofficial" }]
    consumes := [{ token := "@a2" }]
    security_level := "unofficial"
    collected := [] }

def c2q2 : Pipeline.SinkBinding :=
  { id := "Q"
    original_index := 1
    produces := [{ name := "a2"
                   type := "data/json"
                   schema_id := none
                   persist := false
                   «alias» := some "a2"
                   security_level := "unofficial" }]
    consumes := [{ token := "@a1" }]
    security_level := "unofficial"
    collected := [] }

def c2bs2 : List Pipeline.SinkBinding := [c2q1, c2q2]


@[simp] theorem exceptBind_error {ε α β : Type} (f : α → Except ε β) (m : ε) :
    (Except.error m >>= f) = .error m := rfl

@[simp] theorem exceptBind_ok {ε α β : Type} (f : α → Except ε β) (v : α) :
    (Except.ok v >>= f) = f v := rfl

namespace Pipeline

open Security Artifacts

theorem normalize_badLevel {o : Option String} (h : badLevel o) :
    ∃ e, Security.normalize_security_level o = .error e := by
  obtain ⟨s, rfl, hne, hnm⟩ := h
  refine ⟨"Unknown security level " ++ s, ?_⟩
  simp only [Security.normalize_security_level, if_neg hne, if_neg hnm]

theorem seqMapE_mem_error {ε α β : Type} {f : α → Except ε β} {l : List α} {x : α}
    (hx : x ∈ l) (he : ∃ m, f x = .error m) : ∃ m, seqMapE f l = .error m := by
  induction l with
  | nil => cases hx
  | cons hd tl ih =>
    rcases List.mem_cons.mp hx with rfl | hmem
    · obtain ⟨m, hm⟩ := he
      exact ⟨m, by simp [seqMapE, hm]⟩
    · cases hf : f hd with
      | error m => exact ⟨m, by simp [seqMapE, hf]⟩
      | ok v =>
        obtain ⟨m, hm⟩ := ih hmem
        exact ⟨m, by simp [seqMapE, hf, hm, exceptBind_ok]⟩

theorem prepareDescriptorCfg_badLevel {d : ArtifactDescriptorCfg}
    (h : badLevel d.security_level) : ∃ m, prepareDescriptorCfg d = .error m := by
  obtain ⟨m, hm⟩ := normalize_badLevel h
  exact ⟨m, by simp [prepareDescriptorCfg, hm]⟩

theorem prepareDescriptorSink_badLevel {d : ArtifactDescriptorCfg}
    (h : badLevel d.security_level) : ∃ m, prepareDescriptorSink d = .error m := by
  obtain ⟨m, hm⟩ := normalize_badLevel h
  cases hv : Artifacts.validate_artifact_type d.type with
  | error m2 => exact ⟨m2, by simp [prepareDescriptorSink, hv]⟩
  | ok u => exact ⟨m, by simp [prepareDescriptorSink, hv, hm]⟩

theorem prepare_binding_badLevel {b : SinkBindingCfg}
    (h : badLevel b.security_level ∨ (∃ d ∈ b.producesCfg, badLevel d.security_level) ∨
      (∃ d ∈ b.producesSink, badLevel d.security_level)) :
    ∃ m, prepare_binding b = .error m := by
  rcases h with h | ⟨d, hd, h⟩ | ⟨d, hd, h⟩
  · obtain ⟨m, hm⟩ := normalize_badLevel h
    exact ⟨m, by simp [prepare_binding, hm]⟩
  · obtain ⟨m, hm⟩ := seqMapE_mem_error hd (prepareDescriptorCfg_badLevel h)
    cases hl : Security.normalize_security_level b.security_level with
    | error m2 => exact ⟨m2, by simp [prepare_binding, hl]⟩
    | ok lvl => exact ⟨m, by simp [prepare_binding, hl, hm]⟩
  · obtain ⟨m, hm⟩ := seqMapE_mem_error hd (prepareDescriptorSink_badLevel h)
    cases hl : Security.normalize_security_level b.security_level with
    | error m2 => exact ⟨m2, by simp [prepare_binding, hl]⟩
    | ok lvl =>
      cases h1 : seqMapE prepareDescriptorCfg b.producesCfg with
      | error m2 => exact ⟨m2, by simp [prepare_binding, hl, h1]⟩
      | ok ds1 => exact ⟨m, by simp [prepare_binding, hl, h1, hm]⟩

theorem pipelineInit_badLevel {cfgs : List SinkBindingCfg} {b : SinkBindingCfg}
    (hb : b ∈ cfgs)
    (h : badLevel b.security_level ∨ (∃ d ∈ b.producesCfg, badLevel d.security_level) ∨
      (∃ d ∈ b.producesSink, badLevel d.security_level)) :
    ∃ e, pipelineInit cfgs = .error e := by
  obtain ⟨m, hm⟩ := prepare_binding_badLevel h
  have hm2 : ∃ m2, (prepare_binding b).mapError PipeError.valueError = .error m2 :=
    ⟨.valueError m, by simp [hm, Except.mapError]⟩
  obtain ⟨e, he⟩ := seqMapE_mem_error (f := fun c => (prepare_binding c).mapError PipeError.valueError) hb hm2
  exact ⟨e, by simp [pipelineInit, he]⟩

end Pipeline

/-- C10: `normalize_security_level` never silently defaults an unrecognized
value: `None`/blank inputs return `"unofficial"`, inputs whose trimmed
lowercased form is a known level return that canonical form, and any other
input raises; and a single unrecognized security-level string on any binding
or produces descriptor (config-declared or sink-declared) makes
artifact-pipeline construction fail before any sink executes. -/
theorem c10_normalize_never_defaults :
    (∀ o : Option String, (o = none ∨ ∃ s, o = some s ∧ pyStrip s = "") →
      Security.normalize_security_level o = .ok "unofficial") ∧
    (∀ s : String, pyLower (pyStrip s) ∈ Security.SECURITY_LEVELS →
      Security.normalize_security_level (some s) = .ok (pyLower (pyStrip s))) ∧
    (∀ s : String, pyStrip s ≠ "" → pyLower (pyStrip s) ∉ Security.SECURITY_LEVELS →
      ∃ e, Security.normalize_security_level (some s) = .error e) ∧
    (∀ (cfgs : List Pipeline.SinkBindingCfg) (b : Pipeline.SinkBindingCfg), b ∈ cfgs →
      (Pipeline.badLevel b.security_level ∨
        (∃ d ∈ b.producesCfg, Pipeline.badLevel d.security_level) ∨
        (∃ d ∈ b.producesSink, Pipeline.badLevel d.security_level)) →
      ∃ e, Pipeline.pipelineInit cfgs = .error e) := by
  refine ⟨?_, ?_, ?_, ?_⟩
  · rintro o (rfl | ⟨s, rfl, hs⟩)
    · rfl
    · simp [Security.normalize_security_level, hs, Security.SECURITY_LEVELS]
  · intro s hmem
    have hne : pyStrip s ≠ "" := by
      intro h
      rw [h] at hmem
      revert hmem
      decide
    simp only [Security.normalize_security_level, if_neg hne, if_pos hmem]
  · intro s hne hnm
    exact Pipeline.normalize_badLevel ⟨s, rfl, hne, hnm⟩
  · intro cfgs b hb h
    exact Pipeline.pipelineInit_badLevel hb h

/-- Witness for C10: concrete evaluations obtained through the theorem. -/
theorem c10_normalize_never_defaults_witness :
    Security.normalize_security_level (some "  ") = .ok "unofficial" ∧
    Security.normalize_security_level (some " Secret ") = .ok (pyLower (pyStrip " Secret ")) ∧
    (∃ e, Security.normalize_security_level (some "sekrit") = .error e) ∧
    (∃ e, Pipeline.pipelineInit
      [{ id := "X:0", original_index := 0, security_level := some "sekrit" }] = .error e) := by
  refine ⟨?_, ?_, ?_, ?_⟩
  · exact c10_normalize_never_defaults.1 (some "  ") (Or.inr ⟨"  ", rfl, by decide⟩)
  · exact c10_normalize_never_defaults.2.1 " Secret " (by decide)
  · exact c10_normalize_never_defaults.2.2.1 "sekrit" (by decide) (by decide)
  · exact c10_normalize_never_defaults.2.2.2 _ _ (List.mem_singleton.mpr rfl)
      (Or.inl ⟨"sekrit", rfl, by decide, by decide⟩)

namespace Pipeline

open Security Artifacts

theorem lookupFW_dictAssign_self {α : Type} (l : List (String × α)) (k : String) (v : α) :
    lookupFW (dictAssign l k v) k = some v := by
  induction l with
  | nil => simp [dictAssign, lookupFW]
  | cons hd tl ih =>
    by_cases h : hd.1 = k
    · simp [dictAssign, h, lookupFW]
    · simp [dictAssign, h, lookupFW, ih]

theorem lookupFW_dictAssign_ne {α : Type} (l : List (String × α)) (k : String) (v : α)
    (k' : String) (h : k' ≠ k) : lookupFW (dictAssign l k v) k' = lookupFW l k' := by
  induction l with
  | nil => simp [dictAssign, lookupFW, Ne.symm h]
  | cons hd tl ih =>
    simp only [dictAssign]
    by_cases h2 : hd.1 = k
    · have h3 : ¬ hd.1 = k' := by rw [h2]; exact Ne.symm h
      simp only [if_pos h2, lookupFW, if_neg (Ne.symm h), if_neg h3]
    · simp only [if_neg h2, lookupFW]
      by_cases h3 : hd.1 = k'
      · simp [h3]
      · simp [h3, ih]

theorem lookupFW_append {α : Type} (l1 l2 : List (String × α)) (k : String) :
    lookupFW (l1 ++ l2) k =
      match lookupFW l1 k with
      | some v => some v
      | none => lookupFW l2 k := by
  induction l1 with
  | nil => simp [lookupFW]
  | cons hd tl ih =>
    by_cases h : hd.1 = k
    · simp [lookupFW, h]
    · simp [lookupFW, h, ih]

theorem lookupFW_typeAppend_self (l : List (String × List Artifact)) (k : String)
    (a : Artifact) :
    lookupFW (typeAppend l k a) k = some ((lookupFW l k).getD [] ++ [a]) := by
  unfold typeAppend
  cases h : lookupFW l k with
  | some cur => simp [lookupFW_dictAssign_self]
  | none =>
    rw [lookupFW_append, h]
    simp [lookupFW]

theorem lookupFW_typeAppend_ne (l : List (String × List Artifact)) (k : String)
    (a : Artifact) (ty : String) (h : ty ≠ k) :
    lookupFW (typeAppend l k a) ty = lookupFW l ty := by
  unfold typeAppend
  cases h2 : lookupFW l k with
  | some cur => exact lookupFW_dictAssign_ne _ _ _ _ h
  | none =>
    rw [lookupFW_append]
    cases h3 : lookupFW l ty with
    | some v => rfl
    | none => simp [lookupFW, Ne.symm h]

/-- Register unfolded: the stored artifact and the three index updates. -/
theorem register_ok_elim {s : ArtifactStore} {b : SinkBinding} {d : ArtifactDescriptor}
    {a : Artifact} {s2 : ArtifactStore} (h : s.register b d a = .ok s2) :
    ∃ r, registeredArtifact b d a = .ok r ∧
      s2 = { by_id := dictAssign s.by_id r.id r
             by_alias := if descriptorKey d = "" then s.by_alias
               else dictAssign s.by_alias (descriptorKey d) r
             by_type := typeAppend s.by_type d.type r } := by
  cases hr : registeredArtifact b d a with
  | error m => rw [ArtifactStore.register] at h; simp [hr] at h
  | ok r =>
    refine ⟨r, rfl, ?_⟩
    rw [ArtifactStore.register] at h
    simp only [hr, exceptBind_ok] at h
    by_cases hk : descriptorKey d = ""
    · simp only [if_pos hk] at h ⊢
      cases h
      rfl
    · simp only [if_neg hk] at h ⊢
      cases h
      rfl

theorem get_by_alias_register_self {s : ArtifactStore} {b : SinkBinding}
    {d : ArtifactDescriptor} {a : Artifact} {s2 : ArtifactStore} {r : Artifact}
    (h : s.register b d a = .ok s2) (hr : registeredArtifact b d a = .ok r)
    (hk : descriptorKey d ≠ "") : s2.get_by_alias (descriptorKey d) = some r := by
  obtain ⟨r2, hr2, rfl⟩ := register_ok_elim h
  rw [hr] at hr2
  cases hr2
  simp only [ArtifactStore.get_by_alias, if_neg hk]
  exact lookupFW_dictAssign_self _ _ _

theorem get_by_alias_register_other {s : ArtifactStore} {b : SinkBinding}
    {d : ArtifactDescriptor} {a : Artifact} {s2 : ArtifactStore}
    (h : s.register b d a = .ok s2) (k : String) (hk : k ≠ descriptorKey d) :
    s2.get_by_alias k = s.get_by_alias k := by
  obtain ⟨r, _, rfl⟩ := register_ok_elim h
  simp only [ArtifactStore.get_by_alias]
  by_cases he : descriptorKey d = ""
  · simp [he]
  · simp only [if_neg he]
    exact lookupFW_dictAssign_ne _ _ _ _ hk

theorem get_by_type_register {s : ArtifactStore} {b : SinkBinding}
    {d : ArtifactDescriptor} {a : Artifact} {s2 : ArtifactStore} {r : Artifact}
    (h : s.register b d a = .ok s2) (hr : registeredArtifact b d a = .ok r) (ty : String) :
    s2.get_by_type ty =
      if d.type = ty then s.get_by_type ty ++ [r] else s.get_by_type ty := by
  obtain ⟨r2, hr2, rfl⟩ := register_ok_elim h
  rw [hr] at hr2
  cases hr2
  simp only [ArtifactStore.get_by_type]
  by_cases hty : d.type = ty
  · subst hty
    rw [lookupFW_typeAppend_self]
    simp
  · rw [lookupFW_typeAppend_ne _ _ _ _ (Ne.symm hty), if_neg hty]

end Pipeline

/-- C9 counterexample: after registering `a1` then `a2` under the same alias
key, `get_by_alias` returns the artifact registered *second* (`"a2"`), not
the first (`"a1"`): `_by_alias[alias_key] = artifact` overwrites. -/
theorem c9_alias_first_write_counterexample :
    ((Pipeline.ArtifactStore.register ⟨[], [], []⟩ c9binding c9desc c9art1).bind
        (fun s => s.register c9binding c9desc c9art2)).map
        (fun s => (s.get_by_alias "x").map Pipeline.Artifact.id) = .ok (some "a2") ∧
    (Pipeline.registeredArtifact c9binding c9desc c9art1).map Pipeline.Artifact.id =
      .ok "a1" ∧
    some "a2" ≠ some "a1" := by
  refine ⟨by decide, by decide, by decide⟩

/-- C9 (amended): aliases are *last*-write-wins — after two registrations
under the same alias key a lookup returns the artifact registered last, a
registration under a different key leaves a lookup unchanged — and lookup by
type returns all artifacts of that type in insertion order (each registration
appends to its type's list). -/
theorem c9_store_alias_last_write_type_order :
    (∀ (s : Pipeline.ArtifactStore) (b1 b2 : Pipeline.SinkBinding)
       (d1 d2 : Pipeline.ArtifactDescriptor) (a1 a2 : Pipeline.Artifact)
       (s1 s2 : Pipeline.ArtifactStore),
      s.register b1 d1 a1 = .ok s1 → s1.register b2 d2 a2 = .ok s2 →
      Pipeline.descriptorKey d1 = Pipeline.descriptorKey d2 →
      Pipeline.descriptorKey d2 ≠ "" →
      ∃ r2, Pipeline.registeredArtifact b2 d2 a2 = .ok r2 ∧
        s2.get_by_alias (Pipeline.descriptorKey d2) = some r2) ∧
    (∀ (s : Pipeline.ArtifactStore) (b : Pipeline.SinkBinding)
       (d : Pipeline.ArtifactDescriptor) (a : Pipeline.Artifact)
       (s2 : Pipeline.ArtifactStore) (k : String),
      s.register b d a = .ok s2 → k ≠ Pipeline.descriptorKey d →
      s2.get_by_alias k = s.get_by_alias k) ∧
    (∀ (s : Pipeline.ArtifactStore) (b : Pipeline.SinkBinding)
       (d : Pipeline.ArtifactDescriptor) (a : Pipeline.Artifact)
       (s2 : Pipeline.ArtifactStore) (ty : String),
      s.register b d a = .ok s2 →
      ∃ r, Pipeline.registeredArtifact b d a = .ok r ∧
        s2.get_by_type ty =
          if d.type = ty then s.get_by_type ty ++ [r] else s.get_by_type ty) := by
  refine ⟨?_, ?_, ?_⟩
  · intro s b1 b2 d1 d2 a1 a2 s1 s2 h1 h2 _ hk
    cases hr : Pipeline.registeredArtifact b2 d2 a2 with
    | error m =>
      rw [Pipeline.ArtifactStore.register] at h2
      simp [hr] at h2
    | ok r2 => exact ⟨r2, rfl, Pipeline.get_by_alias_register_self h2 hr hk⟩
  · intro s b d a s2 k h hk
    exact Pipeline.get_by_alias_register_other h k hk
  · intro s b d a s2 ty h
    cases hr : Pipeline.registeredArtifact b d a with
    | error m =>
      rw [Pipeline.ArtifactStore.register] at h
      simp [hr] at h
    | ok r => exact ⟨r, rfl, Pipeline.get_by_type_register h hr ty⟩

/-- Witness for C9: the amended theorem applied at the concrete two-register
sequence. -/
theorem c9_store_alias_last_write_type_order_witness :
    (∃ r2, Pipeline.registeredArtifact c9binding c9desc c9art2 = .ok r2 ∧
      c9s2.get_by_alias (Pipeline.descriptorKey c9desc) = some r2) ∧
    c9s1.get_by_alias "other" = Pipeline.ArtifactStore.get_by_alias ⟨[], [], []⟩ "other" ∧
    (∃ r, Pipeline.registeredArtifact c9binding c9desc c9art1 = .ok r ∧
      c9s1.get_by_type "data/x" =
        if c9desc.type = "data/x" then
          Pipeline.ArtifactStore.get_by_type ⟨[], [], []⟩ "data/x" ++ [r]
        else Pipeline.ArtifactStore.get_by_type ⟨[], [], []⟩ "data/x") := by
  refine ⟨?_, ?_, ?_⟩
  · exact c9_store_alias_last_write_type_order.1 ⟨[], [], []⟩ c9binding c9binding c9desc
      c9desc c9art1 c9art2 c9s1 c9s2 (by decide) (by decide) rfl (by decide)
  · exact c9_store_alias_last_write_type_order.2.1 ⟨[], [], []⟩ c9binding c9desc c9art1
      c9s1 "other" (by decide) (by decide)
  · exact c9_store_alias_last_write_type_order.2.2 ⟨[], [], []⟩ c9binding c9desc c9art1
      c9s1 "data/x" (by decide)

/-- C8 counterexample: a non-template exception produces a Failure with
`row`, `error`, `timestamp` (and no retry history here) but *no*
`error_type` key, contradicting the claim that every Failure carries one. -/
theorem c8_error_type_counterexample :
    (RowProc.process_row (@RowProc.TryOutcome.otherError Unit "boom" none none none)
        [] 0) = (none, some ⟨[], "boom", none, some 0, none⟩) ∧
    ((⟨[], "boom", none, some 0, none⟩ : RowProc.Failure).error_type = none) := ⟨rfl, rfl⟩

/-- C8 (amended): template errors yield a Failure with exactly `row`,
`error`, `error_type`; every other exception yields a Failure with `row`,
`error` and a `timestamp` — *without* an `error_type` — plus the attached
retry info when the exception carries a non-empty retry history. -/
theorem c8_failure_shapes (Rec : Type) (ctx : List (String × String)) (now : Rat) :
    (∀ msg ty,
      RowProc.process_row (@RowProc.TryOutcome.promptError Rec msg ty) ctx now
        = (none, some ⟨ctx, msg, some ty, none, none⟩)) ∧
    (∀ msg att matt,
      RowProc.process_row (@RowProc.TryOutcome.otherError Rec msg none att matt)
        ctx now = (none, some ⟨ctx, msg, none, some now, none⟩)) ∧
    (∀ msg att matt,
      RowProc.process_row (@RowProc.TryOutcome.otherError Rec msg (some []) att matt)
        ctx now = (none, some ⟨ctx, msg, none, some now, none⟩)) ∧
    (∀ msg h att matt, h ≠ [] →
      RowProc.process_row (@RowProc.TryOutcome.otherError Rec msg (some h) att matt)
        ctx now
        = (none, some ⟨ctx, msg, none, some now,
            some ⟨att.getD h.length, matt.getD h.length, h⟩⟩)) := by
  refine ⟨fun msg ty => rfl, fun msg att matt => rfl, fun msg att matt => rfl, ?_⟩
  intro msg h att matt hne
  simp only [RowProc.process_row]
  rw [if_neg (by simpa [List.isEmpty_iff] using hne)]

/-- Witness for C8: the amended theorem applied at a concrete exception
carrying a two-entry retry history. -/
theorem c8_failure_shapes_witness :
    RowProc.process_row
        (@RowProc.TryOutcome.otherError Unit "boom"
          (some [⟨1, "error", some "boom", some "E", some 0⟩,
                 ⟨2, "error", some "boom", some "E", none⟩]) (some 2) (some 2)) [] 7
      = (none, some ⟨[], "boom", none, some 7,
          some ⟨2, 2, [⟨1, "error", some "boom", some "E", some 0⟩,
                       ⟨2, "error", some "boom", some "E", none⟩]⟩⟩) :=
  (c8_failure_shapes Unit [] 7).2.2.2 "boom"
    [⟨1, "error", some "boom", some "E", some 0⟩,
     ⟨2, "error", some "boom", some "E", none⟩] (some 2) (some 2) (by decide)

/-- C7 counterexample: with a defaults plugin `A` and a pack plugin `B`, the
code gathers and runs `[B, A]` (pack list *prepended* to defaults), not the
claimed defaults-first order `[A, B]`; the attached `baseline_comparison`
map is keyed in that order. -/
theorem c7_gather_order_counterexample :
    (Suite.gatherCompDefs [c7pA] [c7pB] []).map Suite.ComparisonPlugin.name = ["B", "A"] ∧
    (["B", "A"] ≠ ["A", "B"]) ∧
    Suite.attachedComparisons [c7pA] [c7pB] [] () ()
      = some [("B", [("d", 1)]), ("A", [("d", 1)])] := by
  refine ⟨rfl, by decide, rfl⟩

namespace Suite

open Pipeline (lookupFW dictAssign)

theorem dictAssign_of_lookup_none {α : Type} {l : List (String × α)} {k : String} (v : α)
    (h : Pipeline.lookupFW l k = none) : Pipeline.dictAssign l k v = l ++ [(k, v)] := by
  induction l with
  | nil => rfl
  | cons hd tl ih =>
    simp only [Pipeline.lookupFW] at h
    by_cases h2 : hd.1 = k
    · simp [h2] at h
    · simp only [Pipeline.dictAssign, if_neg h2, List.cons_append, List.cons.injEq, true_and]
      exact ih (by simpa [h2] using h)

theorem runComparisons_go {P : Type} (defs : List (ComparisonPlugin P)) (b v : P)
    (comps : List (String × Diff))
    (hnodup : (defs.map ComparisonPlugin.name).Nodup)
    (hfresh : ∀ p ∈ defs, Pipeline.lookupFW comps p.name = none) :
    defs.foldl
      (fun comps plugin =>
        let diff := plugin.compare b v
        if diff ≠ [] then Pipeline.dictAssign comps plugin.name diff else comps)
      comps
    = comps ++ (defs.filter (fun p => !(p.compare b v).isEmpty)).map
        (fun p => (p.name, p.compare b v)) := by
  induction defs generalizing comps with
  | nil => simp
  | cons hd tl ih =>
    simp only [List.map_cons, List.nodup_cons] at hnodup
    simp only [List.foldl_cons, List.filter_cons]
    by_cases hdiff : hd.compare b v ≠ []
    · have hne : (hd.compare b v).isEmpty = false := by
        simpa [List.isEmpty_iff] using hdiff
      have hfresh2 : ∀ p ∈ tl,
          Pipeline.lookupFW (comps ++ [(hd.name, hd.compare b v)]) p.name = none := by
        intro p hp
        rw [Pipeline.lookupFW_append, hfresh p (List.mem_cons_of_mem hd hp)]
        have hne2 : ¬ hd.name = p.name := fun he =>
          hnodup.1 (he ▸ List.mem_map_of_mem ComparisonPlugin.name hp)
        simp [Pipeline.lookupFW, hne2]
      simp only [if_pos hdiff,
        dictAssign_of_lookup_none _ (hfresh hd (List.mem_cons_self hd tl))]
      rw [ih _ hnodup.2 hfresh2]
      simp [hne]
    · have hne : (hd.compare b v).isEmpty = true := by
        simp only [not_not] at hdiff
        simp [hdiff]
      simp only [if_neg hdiff]
      rw [ih _ hnodup.2 (fun p hp => hfresh p (List.mem_cons_of_mem hd hp))]
      simp [hne]

end Suite

/-- C7 (amended): the comparison defs actually executed for a non-baseline
cycle are gathered pack-first — `pack ++ defaults ++ cycle-metadata` — and,
for distinct plugin names, the attached `baseline_comparison` is exactly the
non-empty diffs keyed by plugin name in that execution order (absent when
every diff is empty). -/
theorem c7_comparisons_pack_first {P : Type}
    (defaults pack meta : List (Suite.ComparisonPlugin P)) (b v : P)
    (hnodup : ((pack ++ defaults ++ meta).map Suite.ComparisonPlugin.name).Nodup) :
    Suite.gatherCompDefs defaults pack meta = pack ++ defaults ++ meta ∧
    Suite.attachedComparisons defaults pack meta b v =
      (if ((pack ++ defaults ++ meta).filter
          (fun p => !(p.compare b v).isEmpty)).isEmpty then none
       else some (((pack ++ defaults ++ meta).filter
          (fun p => !(p.compare b v).isEmpty)).map (fun p => (p.name, p.compare b v)))) := by
  have hgather : Suite.gatherCompDefs defaults pack meta = pack ++ defaults ++ meta := by
    cases pack <;> cases meta <;> simp [Suite.gatherCompDefs]
  refine ⟨hgather, ?_⟩
  have hrun : Suite.runComparisons (Suite.gatherCompDefs defaults pack meta) b v =
      ((pack ++ defaults ++ meta).filter (fun p => !(p.compare b v).isEmpty)).map
        (fun p => (p.name, p.compare b v)) := by
    rw [hgather]
    have h2 := Suite.runComparisons_go (pack ++ defaults ++ meta) b v [] hnodup
      (fun p _ => rfl)
    rw [List.nil_append] at h2
    exact h2
  rw [Suite.attachedComparisons, hrun]
  by_cases he : ((pack ++ defaults ++ meta).filter
      (fun p => !(p.compare b v).isEmpty)).isEmpty
  · rw [if_pos he]
    rw [List.isEmpty_iff] at he
    rw [he]
    simp
  · rw [if_neg he]
    rw [List.isEmpty_iff] at he
    have hne : ((pack ++ defaults ++ meta).filter
        (fun p => !(p.compare b v).isEmpty)).map (fun p => (p.name, p.compare b v)) ≠ [] := by
      intro hmap
      exact he (List.map_eq_nil_iff.mp hmap)
    rw [if_pos hne]

/-- Witness for C7: the amended theorem applied to the concrete defaults
plugin `A` and pack plugin `B`. -/
theorem c7_comparisons_pack_first_witness :
    Suite.gatherCompDefs [c7pA] [c7pB] [] = [c7pB, c7pA] ∧
    Suite.attachedComparisons [c7pA] [c7pB] [] () () =
      some [("B", [("d", 1)]), ("A", [("d", 1)])] := by
  have h := c7_comparisons_pack_first [c7pA] [c7pB] [] () () (by decide)
  refine ⟨by simpa using h.1, ?_⟩
  rw [h.2]
  rfl

namespace Aggregator

theorem sortResults_perm {α : Type} (l : List (Nat × α)) : List.Perm (sortResults l) l :=
  List.perm_insertionSort rowLe l

theorem sortResults_sorted {α : Type} (l : List (Nat × α)) :
    (sortResults l).Pairwise rowLe :=
  List.sorted_insertionSort rowLe l

end Aggregator

/-- C6: for any insertion order of indexed records (sequential or parallel
collection) whose original indices are distinct, `build_payload` returns
`results` strictly sorted by original index — a permutation of the inserted
records reproducing input order; the failures list is passed through as
accumulated, with no reordering of its own. -/
theorem c6_results_sorted_by_index {Rec Fail : Type} (l : List (Nat × Rec))
    (failures : List Fail) (hnodup : (l.map Prod.fst).Nodup) :
    (Aggregator.build_payload l failures).results
        = (Aggregator.sortResults l).map (fun p => p.2) ∧
    List.Perm (Aggregator.sortResults l) l ∧
    ((Aggregator.sortResults l).map Prod.fst).Pairwise (· < ·) ∧
    (Aggregator.build_payload l failures).failures = failures ∧
    (Aggregator.build_payload l failures).rows = l.length := by
  refine ⟨rfl, Aggregator.sortResults_perm l, ?_, rfl, ?_⟩
  · have hperm : List.Perm ((Aggregator.sortResults l).map Prod.fst) (l.map Prod.fst) :=
      (Aggregator.sortResults_perm l).map Prod.fst
    have hnd : ((Aggregator.sortResults l).map Prod.fst).Nodup :=
      (hperm.nodup_iff).mpr hnodup
    have hle : ((Aggregator.sortResults l).map Prod.fst).Pairwise (· ≤ ·) := by
      have := Aggregator.sortResults_sorted l
      exact (List.pairwise_map).mpr this
    have := hle.and hnd
    exact this.imp (fun h => lt_of_le_of_ne h.1 h.2)
  · have : (Aggregator.build_payload l failures).rows
        = ((Aggregator.sortResults l).map (fun p => p.2)).length := rfl
    rw [this, List.length_map, (Aggregator.sortResults_perm l).length_eq]

/-- Witness for C6: the theorem applied to a concrete out-of-order insertion
sequence. -/
theorem c6_results_sorted_by_index_witness :
    (Aggregator.build_payload [(2, "c"), (0, "a"), (1, "b")] ["f"]).results
        = (Aggregator.sortResults [(2, "c"), (0, "a"), (1, "b")]).map (fun p => p.2) ∧
    List.Perm (Aggregator.sortResults [(2, "c"), (0, "a"), (1, "b")]) [(2, "c"), (0, "a"), (1, "b")] ∧
    ((Aggregator.sortResults [(2, "c"), (0, "a"), (1, "b")]).map Prod.fst).Pairwise (· < ·) ∧
    (Aggregator.build_payload [(2, "c"), (0, "a"), (1, "b")] ["f"]).failures = ["f"] ∧
    (Aggregator.build_payload [(2, "c"), (0, "a"), (1, "b")] ["f"]).rows = 3 :=
  c6_results_sorted_by_index [(2, "c"), (0, "a"), (1, "b")] ["f"] (by decide)

namespace Merger

open Pipeline (lookupFW dictAssign lookupFW_dictAssign_self lookupFW_dictAssign_ne)

theorem lookupFW_eq_none_iff {α : Type} {l : List (String × α)} {k : String} :
    lookupFW l k = none ↔ k ∉ l.map Prod.fst := by
  induction l with
  | nil => simp [lookupFW]
  | cons hd tl ih =>
    by_cases h : hd.1 = k
    · simp [lookupFW, h]
    · have h2 : ¬ k = hd.1 := fun he => h he.symm
      simp [lookupFW, h, h2, ih]

/-- Every successful `mergeEntry` writes exactly its own key. -/
theorem mergeEntry_ok_shape {res : List (String × Value)} {e : String × Value}
    {res2 : List (String × Value)} (h : mergeEntry res e = .ok res2) :
    ∃ w, res2 = dictAssign res e.1 w := by
  obtain ⟨k0, v0⟩ := e
  simp only [mergeEntry] at h
  split at h
  · exact ⟨v0, (Except.ok.inj h).symm⟩
  · split at h
    · split at h
      · exact ⟨_, (Except.ok.inj h).symm⟩
      · exact ⟨_, (Except.ok.inj h).symm⟩
    · simp at h
  · split at h
    · exact ⟨_, (Except.ok.inj h).symm⟩
    · simp at h

theorem mergeEntry_other_key {res : List (String × Value)} {e : String × Value}
    {res2 : List (String × Value)} (h : mergeEntry res e = .ok res2) (k : String)
    (hne : e.1 ≠ k) : lookupFW res2 k = lookupFW res k := by
  obtain ⟨w, rfl⟩ := mergeEntry_ok_shape h
  exact lookupFW_dictAssign_ne _ _ _ _ (fun he => hne he.symm)

theorem mergeEntry_append_none {res : List (String × Value)} {k : String}
    (vs : List Value) (hs : mergeStrategy k = .append) (hcur : lookupFW res k = none) :
    mergeEntry res (k, Value.list vs) = .ok (dictAssign res k (Value.list vs)) := by
  simp [mergeEntry, hs, hcur]

theorem mergeEntry_append_some {res : List (String × Value)} {k : String} {cs : List Value}
    (vs : List Value) (hs : mergeStrategy k = .append)
    (hcur : lookupFW res k = some (Value.list cs)) :
    mergeEntry res (k, Value.list vs) = .ok (dictAssign res k (Value.list (cs ++ vs))) := by
  simp [mergeEntry, hs, hcur]

theorem mergeEntry_override {res : List (String × Value)} {k : String} (v : Value)
    (hs : mergeStrategy k = .override) :
    mergeEntry res (k, v) = .ok (dictAssign res k v) := by
  simp [mergeEntry, hs]

/-- A fold over entries none of which carries key `k` leaves `k` unchanged. -/
theorem seqFoldE_entries_other {entries : List (String × Value)}
    {res res2 : List (String × Value)} (h : seqFoldE mergeEntry res entries = .ok res2)
    {k : String} (hk : k ∉ entries.map Prod.fst) :
    lookupFW res2 k = lookupFW res k := by
  induction entries generalizing res with
  | nil => cases h; rfl
  | cons e tl ih =>
    simp only [List.map_cons, List.mem_cons, not_or] at hk
    rw [seqFoldE] at h
    cases hstep : mergeEntry res e with
    | error m => rw [hstep] at h; cases h
    | ok res3 =>
      rw [hstep] at h
      rw [ih h hk.2, mergeEntry_other_key hstep k (fun he => hk.1 he.symm)]

/-- Folding the entries of one source that declares `k` as a list under
APPEND extends the accumulated list by the declared contribution. -/
theorem mergeEntries_append (k : String) (vs : List Value)
    (hs : mergeStrategy k = .append) :
    ∀ (entries : List (String × Value)) (res res2 : List (String × Value)) (cs : List Value),
      seqFoldE mergeEntry res entries = .ok res2 →
      (entries.map Prod.fst).Nodup →
      lookupFW entries k = some (Value.list vs) →
      (lookupFW res k = some (Value.list cs) ∨ (lookupFW res k = none ∧ cs = [])) →
      lookupFW res2 k = some (Value.list (cs ++ vs)) := by
  intro entries
  induction entries with
  | nil => intro res res2 cs h hnd hdef hcur; simp [lookupFW] at hdef
  | cons e tl ih =>
    intro res res2 cs h hnd hdef hcur
    simp only [List.map_cons, List.nodup_cons] at hnd
    rw [seqFoldE] at h
    by_cases hek : e.1 = k
    · have hv : e.2 = Value.list vs := by
        simp only [lookupFW, if_pos hek] at hdef
        exact Option.some.inj hdef
      have hentry : mergeEntry res e = .ok (dictAssign res k (Value.list (cs ++ vs))) := by
        have he : e = (k, Value.list vs) := by
          obtain ⟨e1, e2⟩ := e
          simp only at hek hv
          rw [hek, hv]
        rcases hcur with hcur | ⟨hcur, rfl⟩
        · rw [he]; exact mergeEntry_append_some vs hs hcur
        · rw [he]
          simpa using mergeEntry_append_none vs hs hcur
      rw [hentry] at h
      have hrest : k ∉ tl.map Prod.fst := by
        intro hmem
        exact hnd.1 (hek ▸ hmem)
      rw [seqFoldE_entries_other h hrest]
      exact lookupFW_dictAssign_self _ _ _
    · have hdef2 : lookupFW tl k = some (Value.list vs) := by
        simpa [lookupFW, hek] using hdef
      cases hstep : mergeEntry res e with
      | error m => rw [hstep] at h; cases h
      | ok res3 =>
        rw [hstep] at h
        refine ih res3 res2 cs h hnd.2 hdef2 ?_
        rw [mergeEntry_other_key hstep k hek]
        exact hcur

theorem mergeSource_append {s : ConfigSource} {res res2 : List (String × Value)}
    (h : mergeSource res s = .ok res2) {k : String} {vs cs : List Value}
    (hs : mergeStrategy k = .append)
    (hnd : (s.data.map Prod.fst).Nodup)
    (hdef : lookupFW s.data k = some (Value.list vs))
    (hcur : lookupFW res k = some (Value.list cs) ∨ (lookupFW res k = none ∧ cs = [])) :
    lookupFW res2 k = some (Value.list (cs ++ vs)) := by
  unfold mergeSource at h
  exact mergeEntries_append k vs hs s.data res res2 cs h hnd hdef hcur

/-- Folding the entries of one source that declares `k` under OVERRIDE sets
`k` to the declared value. -/
theorem mergeEntries_override (k : String) (v : Value)
    (hs : mergeStrategy k = .override) :
    ∀ (entries : List (String × Value)) (res res2 : List (String × Value)),
      seqFoldE mergeEntry res entries = .ok res2 →
      (entries.map Prod.fst).Nodup →
      lookupFW entries k = some v →
      lookupFW res2 k = some v := by
  intro entries
  induction entries with
  | nil => intro res res2 h hnd hdef; simp [lookupFW] at hdef
  | cons e tl ih =>
    intro res res2 h hnd hdef
    simp only [List.map_cons, List.nodup_cons] at hnd
    rw [seqFoldE] at h
    by_cases hek : e.1 = k
    · have hv : e.2 = v := by
        simp only [lookupFW, if_pos hek] at hdef
        exact Option.some.inj hdef
      have hentry : mergeEntry res e = .ok (dictAssign res k v) := by
        have he : e = (k, v) := by
          obtain ⟨e1, e2⟩ := e
          simp only at hek hv
          rw [hek, hv]
        rw [he]
        exact mergeEntry_override v hs
      rw [hentry] at h
      have hrest : k ∉ tl.map Prod.fst := fun hmem => hnd.1 (hek ▸ hmem)
      rw [seqFoldE_entries_other h hrest]
      exact lookupFW_dictAssign_self _ _ _
    · have hdef2 : lookupFW tl k = some v := by simpa [lookupFW, hek] using hdef
      cases hstep : mergeEntry res e with
      | error m => rw [hstep] at h; cases h
      | ok res3 => rw [hstep] at h; exact ih res3 res2 h hnd.2 hdef2

theorem mergeSource_override {s : ConfigSource} {res res2 : List (String × Value)}
    (h : mergeSource res s = .ok res2) {k : String} {v : Value}
    (hs : mergeStrategy k = .override)
    (hnd : (s.data.map Prod.fst).Nodup)
    (hdef : lookupFW s.data k = some v) :
    lookupFW res2 k = some v := by
  unfold mergeSource at h
  exact mergeEntries_override k v hs s.data res res2 h hnd hdef

/-- A source not declaring `k` leaves `k` unchanged. -/
theorem mergeSource_other {s : ConfigSource} {res res2 : List (String × Value)}
    (h : mergeSource res s = .ok res2) {k : String}
    (hdef : lookupFW s.data k = none) :
    lookupFW res2 k = lookupFW res k := by
  have := lookupFW_eq_none_iff.mp hdef
  unfold mergeSource at h
  exact seqFoldE_entries_other h this

theorem mergeList_append {k : String} {ls : ConfigSource → List Value}
    {srcs : List ConfigSource} {acc m : List (String × Value)} {cs : List Value}
    (hok : seqFoldE mergeSource acc srcs = .ok m)
    (hs : mergeStrategy k = .append)
    (hnd : ∀ s ∈ srcs, (s.data.map Prod.fst).Nodup)
    (hdef : ∀ s ∈ srcs, lookupFW s.data k = some (Value.list (ls s)))
    (hacc : lookupFW acc k = some (Value.list cs) ∨
      (lookupFW acc k = none ∧ cs = [] ∧ srcs ≠ [])) :
    lookupFW m k = some (Value.list (cs ++ (srcs.map ls).flatten)) := by
  induction srcs generalizing acc cs with
  | nil =>
    cases hok
    rcases hacc with hacc | ⟨_, _, hne⟩
    · simpa using hacc
    · exact absurd rfl hne
  | cons s tl ih =>
    rw [seqFoldE] at hok
    cases hstep : mergeSource acc s with
    | error e => rw [hstep] at hok; cases hok
    | ok acc2 =>
      rw [hstep] at hok
      have hcur : lookupFW acc k = some (Value.list cs) ∨
          (lookupFW acc k = none ∧ cs = []) := by
        rcases hacc with hacc | ⟨h1, h2, _⟩
        · exact Or.inl hacc
        · exact Or.inr ⟨h1, h2⟩
      have hstep2 := mergeSource_append hstep hs (hnd s (List.mem_cons_self s tl))
        (hdef s (List.mem_cons_self s tl)) hcur
      have := ih hok (fun t ht => hnd t (List.mem_cons_of_mem s ht))
        (fun t ht => hdef t (List.mem_cons_of_mem s ht)) (Or.inl hstep2)
      simpa [List.append_assoc] using this

theorem mergeList_override_after {k : String} {v : Value}
    {srcs : List ConfigSource} {acc m : List (String × Value)}
    (hok : seqFoldE mergeSource acc srcs = .ok m)
    (hnone : ∀ t ∈ srcs, lookupFW t.data k = none)
    (hacc : lookupFW acc k = some v) :
    lookupFW m k = some v := by
  induction srcs generalizing acc with
  | nil => cases hok; exact hacc
  | cons s tl ih =>
    rw [seqFoldE] at hok
    cases hstep : mergeSource acc s with
    | error e => rw [hstep] at hok; cases hok
    | ok acc2 =>
      rw [hstep] at hok
      refine ih hok (fun t ht => hnone t (List.mem_cons_of_mem s ht)) ?_
      rw [mergeSource_other hstep (hnone s (List.mem_cons_self s tl))]
      exact hacc

theorem mergeList_override {k : String} {v : Value} {l1 l2 : List ConfigSource}
    {s : ConfigSource} {acc m : List (String × Value)}
    (hok : seqFoldE mergeSource acc (l1 ++ s :: l2) = .ok m)
    (hs : mergeStrategy k = .override)
    (hnd : (s.data.map Prod.fst).Nodup)
    (hdef : lookupFW s.data k = some v)
    (hlater : ∀ t ∈ l2, lookupFW t.data k = none) :
    lookupFW m k = some v := by
  induction l1 generalizing acc with
  | nil =>
    rw [List.nil_append, seqFoldE] at hok
    cases hstep : mergeSource acc s with
    | error e => rw [hstep] at hok; cases hok
    | ok acc2 =>
      rw [hstep] at hok
      exact mergeList_override_after hok hlater (mergeSource_override hstep hs hnd hdef)
  | cons t tl ih =>
    rw [List.cons_append, seqFoldE] at hok
    cases hstep : mergeSource acc t with
    | error e => rw [hstep] at hok; cases hok
    | ok acc2 => rw [hstep] at hok; exact ih hok

theorem sortSources_of_sorted {ss : List ConfigSource}
    (h : ss.Pairwise (fun a b => a.precedence < b.precedence)) : sortSources ss = ss :=
  List.Sorted.insertionSort_eq (h.imp fun hlt => Int.le_of_lt hlt)

end Merger

/-- C5: over sources listed in strictly ascending precedence order with
duplicate-free keys, a successful merge gives: for an APPEND key declared as
a list by every source, the merged value is the concatenation of the
sources' lists in precedence order, of length the sum of the source list
lengths; for an OVERRIDE key, the merged value is the value of the
highest-precedence source that declares the key. -/
theorem c5_merge_append_and_override (ss : List Merger.ConfigSource)
    (m : List (String × Merger.Value))
    (hsorted : ss.Pairwise (fun a b => a.precedence < b.precedence))
    (hnd : ∀ s ∈ ss, (s.data.map Prod.fst).Nodup)
    (hm : Merger.merge ss = .ok m) :
    (∀ (k : String) (ls : Merger.ConfigSource → List Merger.Value), ss ≠ [] →
      Merger.mergeStrategy k = .append →
      (∀ s ∈ ss, Pipeline.lookupFW s.data k = some (Merger.Value.list (ls s))) →
      Pipeline.lookupFW m k = some (Merger.Value.list ((ss.map ls).flatten)) ∧
        ((ss.map ls).flatten).length = (ss.map (fun s => (ls s).length)).sum) ∧
    (∀ (k : String) (v : Merger.Value) (s : Merger.ConfigSource),
      Merger.mergeStrategy k = .override →
      s ∈ ss → Pipeline.lookupFW s.data k = some v →
      (∀ t ∈ ss, Pipeline.lookupFW t.data k ≠ none →
        t = s ∨ t.precedence < s.precedence) →
      Pipeline.lookupFW m k = some v) := by
  rw [Merger.merge, Merger.sortSources_of_sorted hsorted] at hm
  constructor
  · intro k ls hne hs hdef
    constructor
    · have := Merger.mergeList_append hm hs hnd hdef
        (Or.inr ⟨rfl, rfl, hne⟩)
      simpa using this
    · rw [List.length_flatten, List.map_map]
      rfl
  · intro k v s hs hmem hdef hmax
    obtain ⟨l1, l2, rfl⟩ := List.append_of_mem hmem
    have hpair := List.pairwise_append.mp hsorted
    have hcons := List.pairwise_cons.mp hpair.2.1
    have hlater : ∀ t ∈ l2, Pipeline.lookupFW t.data k = none := by
      intro t ht
      by_contra hne
      rcases hmax t (by simp [ht]) hne with rfl | hlt
      · exact lt_irrefl t.precedence (hcons.1 t ht)
      · exact absurd (hcons.1 t ht) (not_lt_of_gt hlt)
    exact Merger.mergeList_override hm hs (hnd s hmem) hdef hlater

/-- Witness for C5: the theorem applied to two concrete sources, one APPEND
key (`sinks`) and one OVERRIDE key (`x`). -/
theorem c5_merge_append_and_override_witness :
    Pipeline.lookupFW c5m "sinks"
        = some (Merger.Value.list (([c5s1, c5s2].map
            (fun s => if s.name = "defaults"
              then [Merger.Value.s "a"] else [Merger.Value.s "b"])).flatten)) ∧
    Pipeline.lookupFW c5m "x" = some (Merger.Value.n 2) := by
  have h := c5_merge_append_and_override [c5s1, c5s2] c5m
    (by constructor
        · intro b hb
          simp only [List.mem_cons, List.mem_singleton] at hb
          rcases hb with rfl | hb
          · decide
          · cases hb
        · constructor
          · intro b hb
            cases hb
          · constructor)
    (by intro s hs
        simp only [List.mem_cons, List.not_mem_nil] at hs
        rcases hs with rfl | rfl | h2
        · decide
        · decide
        · cases h2)
    rfl
  refine ⟨?_, ?_⟩
  · exact (h.1 "sinks"
      (fun s => if s.name = "defaults"
        then [Merger.Value.s "a"] else [Merger.Value.s "b"])
      (by simp) rfl
      (by intro s hs
          simp only [List.mem_cons, List.not_mem_nil] at hs
          rcases hs with rfl | rfl | h2
          · rfl
          · rfl
          · cases h2)).1
  · exact h.2 "x" (Merger.Value.n 2) c5s2 rfl (by simp) rfl
      (by intro t ht _
          simp only [List.mem_cons, List.not_mem_nil] at ht
          rcases ht with rfl | rfl | h2
          · right; decide
          · left; rfl
          · cases h2)

namespace Executor

open Pipeline (lookupFW dictAssign)

theorem delayIter_closed {b : Rat} (hb : 0 < b) :
    ∀ (i : Nat) (d : Rat), 0 ≤ d →
      delayIter b d i = if 0 < d then d * b ^ i else (if i = 0 then 0 else b ^ i) := by
  intro i
  induction i with
  | zero =>
    intro d hd
    by_cases h : 0 < d
    · simp [delayIter, h]
    · have hd0 : d = 0 := le_antisymm (not_lt.mp h) hd
      simp [delayIter, h, hd0]
  | succ i ih =>
    intro d hd
    by_cases h : 0 < d
    · have hne : d ≠ 0 := ne_of_gt h
      have hpos : 0 < d * b := mul_pos h hb
      rw [delayIter, if_pos hb, if_pos hne, ih (d * b) hpos.le, if_pos hpos, if_pos h]
      ring
    · have hd0 : d = 0 := le_antisymm (not_lt.mp h) hd
      subst hd0
      rw [delayIter, if_pos hb, if_neg (by simp), ih b hb.le, if_pos hb, if_neg h]
      simp [pow_succ, mul_comm]

theorem sleepOf_delayIter {d b : Rat} (hd : 0 ≤ d) (hb : 0 < b) (i : Nat) :
    sleepOf (delayIter b d i) = sleepClosed d b i := by
  rw [delayIter_closed hb i d hd, sleepClosed, sleepOf]
  by_cases h : 0 < d
  · simp [h, mul_pos h (pow_pos hb i)]
  · simp only [if_neg h]
    by_cases hi : i = 0
    · simp [hi]
    · simp [hi, pow_pos hb i]

theorem executeGo_fail (oracle : Nat → Except LLMError LLMResponse)
    (e : Nat → LLMError) (hfail : ∀ j, oracle j = .error (e j)) (n : Nat) (b : Rat) :
    ∀ (r a : Nat) (delay : Rat) (hist : List RetryEntry) (sleeps : List Rat),
      1 ≤ r → a + r = n →
      executeGo oracle n b r a delay hist sleeps = .exhausted (e n)
        ⟨n, n, hist ++ failHist e b r a delay⟩ (sleeps ++ failSleeps b r delay) := by
  intro r
  induction r with
  | zero => intro a delay hist sleeps hr; cases hr
  | succ r ih =>
    intro a delay hist sleeps _ hsum
    cases r with
    | zero =>
      have han : a + 1 = n := hsum
      rw [executeGo, hfail (a + 1)]
      simp [failHist, failSleeps, han]
    | succ r2 =>
      rw [executeGo, hfail (a + 1)]
      have hne : ¬ (r2 + 1 = 0) := Nat.succ_ne_zero r2
      simp only [if_neg hne]
      rw [ih (a + 1) _ _ _ (Nat.succ_le_succ (Nat.zero_le r2)) (by omega)]
      congr 1
      · congr 1
        show (hist ++ [_]) ++ _ = hist ++ failHist e b (r2 + 2) a delay
        rw [List.append_assoc, failHist]
        congr 1
      · show (if 0 < (if 0 < delay then delay else 0) then
            sleeps ++ [if 0 < delay then delay else 0] else sleeps) ++ _
          = sleeps ++ failSleeps b (r2 + 2) delay
        rw [failSleeps]
        by_cases hpos : 0 < sleepOf delay
        · rw [if_pos hpos, if_pos (show 0 < (if 0 < delay then delay else 0) from hpos)]
          simp [sleepOf, List.append_assoc]
        · rw [if_neg hpos, if_neg (show ¬ 0 < (if 0 < delay then delay else 0) from hpos)]
          simp

theorem failHist_closed (e : Nat → LLMError) (b : Rat) :
    ∀ (r a : Nat) (d : Rat),
      failHist e b r a d = (List.range r).map (fun i =>
        ⟨a + i + 1, "error", some (e (a + i + 1)).message,
          some (e (a + i + 1)).error_type,
          if i + 1 < r then some (sleepOf (delayIter b d i)) else none⟩) := by
  intro r
  induction r with
  | zero => intro a d; rfl
  | succ r ih =>
    intro a d
    cases r with
    | zero => simp [failHist, delayIter, show List.range 1 = [0] from rfl]
    | succ r2 =>
      rw [failHist, ih]
      conv_rhs => rw [List.range_succ_eq_map, List.map_cons, List.map_map]
      congr 1
      · have h1 : (0 : Nat) + 1 < r2 + 1 + 1 := by omega
        simp [delayIter, h1]
      · apply List.map_congr_left
        intro i _
        simp only [Function.comp_apply]
        have h1 : a + 1 + i + 1 = a + (i + 1) + 1 := by omega
        have h2 : (i + 1 < r2 + 1) ↔ (i + 1 + 1 < r2 + 1 + 1) := by omega
        rw [h1, if_congr h2 rfl rfl]
        rfl

theorem failSleeps_closed (b : Rat) :
    ∀ (r : Nat) (d : Rat),
      failSleeps b r d = ((List.range (r - 1)).map
        (fun i => sleepOf (delayIter b d i))).filter (fun x => decide (0 < x)) := by
  intro r
  induction r with
  | zero => intro d; rfl
  | succ r ih =>
    intro d
    cases r with
    | zero => rfl
    | succ r2 =>
      rw [failSleeps, ih]
      have hr : r2 + 1 + 1 - 1 = (r2 + 1 - 1) + 1 := by omega
      conv_rhs => rw [hr, List.range_succ_eq_map, List.map_cons, List.map_map,
        List.filter_cons]
      rw [show delayIter b d 0 = d from rfl]
      by_cases hpos : 0 < sleepOf d
      · rw [if_pos hpos, if_pos (decide_eq_true hpos), List.singleton_append]
        rfl
      · rw [if_neg hpos, if_neg (fun h => hpos (of_decide_eq_true h)), List.nil_append]
        rfl

theorem executeGo_success (oracle : Nat → Except LLMError LLMResponse)
    (e : Nat → LLMError) (resp : LLMResponse) (n k : Nat) (b : Rat)
    (hk : oracle k = .ok resp) (hretry : resp.retry = none)
    (hfail : ∀ j, 1 ≤ j → j < k → oracle j = .error (e j)) :
    ∀ (r a : Nat) (delay : Rat) (hist : List RetryEntry) (sleeps : List Rat),
      a < k → k ≤ a + r →
      ∃ errs sleeps2,
        executeGo oracle n b r a delay hist sleeps = .ok
          { resp with
            metrics := Pipeline.dictAssign resp.metrics "attempts_used" (k : Rat)
            retry := some ⟨k, n, (hist ++ errs) ++ [⟨k, "success", none, none, none⟩]⟩ }
          sleeps2 ∧
        errs.length = k - a - 1 ∧ (∀ en ∈ errs, en.status = "error") := by
  intro r
  induction r with
  | zero =>
    intro a delay hist sleeps ha hk2
    exact absurd (Nat.lt_of_lt_of_le ha (by simpa using hk2)) (Nat.lt_irrefl a)
  | succ r ih =>
    intro a delay hist sleeps ha hk2
    by_cases hak : a + 1 = k
    · refine ⟨[], sleeps, ?_, by simp; omega, by simp⟩
      rw [executeGo, show oracle (a + 1) = .ok resp from hak ▸ hk]
      simp only [hretry, Option.getD_none, Option.getD]
      rw [hak]
      simp
    · have hlt : a + 1 < k := by omega
      have hr : r ≠ 0 := by omega
      obtain ⟨r2, rfl⟩ := Nat.exists_eq_succ_of_ne_zero hr
      rw [executeGo, hfail (a + 1) (by omega) hlt]
      simp only [if_neg (Nat.succ_ne_zero r2)]
      obtain ⟨errs, sleeps2, hrun, hlen, hstat⟩ := ih (a + 1) _ _ _ hlt (by omega)
      refine ⟨⟨a + 1, "error", some (e (a + 1)).message, some (e (a + 1)).error_type,
        some (if 0 < delay then delay else 0)⟩ :: errs, sleeps2, ?_,
        by simp [hlen]; omega, ?_⟩
      · rw [hrun]
        congr 3
        simp
      · intro en hen
        rcases List.mem_cons.mp hen with rfl | hmem
        · rfl
        · exact hstat en hmem

end Executor

/-- C3 counterexample: with `max_attempts = 3`, `initial_delay = 1`,
`backoff_multiplier = 0`, the code never multiplies the delay (the update is
guarded by `backoff > 0`), so the second sleep is `1`, not the claimed
`d * b = 0`. -/
theorem c3_backoff_zero_counterexample :
    Executor.execute 3 1 0 c3oracle = .exhausted c3err
      ⟨3, 3, [⟨1, "error", some "boom", some "E", some 1⟩,
              ⟨2, "error", some "boom", some "E", some 1⟩,
              ⟨3, "error", some "boom", some "E", none⟩]⟩ [1, 1] ∧
    some (1 : Rat) ≠ some ((1 : Rat) * 0) := by
  refine ⟨rfl, by simp⟩

/-- C3 (amended): for `max_attempts = n ≥ 1`, `initial_delay = d ≥ 0` and
`backoff_multiplier = b > 0` (for `b ≤ 0` the delay simply stays `d`): if
every call raises, the executor makes exactly `n` attempts, records
`next_delay` values `d, d·b, d·b², ...` (with the delay becoming `b` itself
when `d = 0`), sleeps exactly the positive ones, and re-raises the last
error carrying attempts `n`, max_attempts `n` and an `n`-entry history; if
the first success is at attempt `k ≤ n` and the client response carries no
retry entry of its own, the returned response carries retry info with
attempts `k`, a `k`-entry history whose last entry is the success. -/
theorem c3_retry_attempts_and_backoff (n : Nat) (d b : Rat)
    (oracle : Nat → Except Executor.LLMError Executor.LLMResponse)
    (e : Nat → Executor.LLMError)
    (hn : 1 ≤ n) (hd : 0 ≤ d) (hb : 0 < b) :
    ((∀ j, oracle j = .error (e j)) →
      Executor.execute n d b oracle = .exhausted (e n)
        ⟨n, n, (List.range n).map (fun i =>
          ⟨i + 1, "error", some (e (i + 1)).message, some (e (i + 1)).error_type,
            if i + 1 < n then some (Executor.sleepClosed d b i) else none⟩)⟩
        (((List.range (n - 1)).map (Executor.sleepClosed d b)).filter
          (fun x => decide (0 < x)))) ∧
    (∀ k resp, 1 ≤ k → k ≤ n →
      (∀ j, 1 ≤ j → j < k → oracle j = .error (e j)) →
      oracle k = .ok resp → resp.retry = none →
      ∃ errs sleeps,
        Executor.execute n d b oracle = .ok
          { resp with
            metrics := Pipeline.dictAssign resp.metrics "attempts_used" (k : Rat)
            retry := some ⟨k, n, errs ++ [⟨k, "success", none, none, none⟩]⟩ } sleeps ∧
        (errs ++ [(⟨k, "success", none, none, none⟩ : Executor.RetryEntry)]).length = k ∧
        (errs ++ [(⟨k, "success", none, none, none⟩ : Executor.RetryEntry)]).getLast?
          = some ⟨k, "success", none, none, none⟩ ∧
        (∀ en ∈ errs, en.status = "error")) := by
  constructor
  · intro hfail
    have h := Executor.executeGo_fail oracle e hfail n b n 0 d [] [] hn (by omega)
    rw [Executor.failHist_closed, Executor.failSleeps_closed] at h
    simp only [List.nil_append, Nat.zero_add] at h
    rw [Executor.execute, h]
    congr 2
    · apply List.map_congr_left
      intro i _
      rw [Executor.sleepOf_delayIter hd hb i]
    · congr 1
      funext i
      exact Executor.sleepOf_delayIter hd hb i
  · intro k resp hk1 hkn hfailb hok hretry
    obtain ⟨errs, sleeps, hrun, hlen, hstat⟩ :=
      Executor.executeGo_success oracle e resp n k b hok hretry hfailb n 0 d [] []
        (by omega) (by omega)
    simp only [List.nil_append] at hrun
    refine ⟨errs, sleeps, ?_, ?_, ?_, hstat⟩
    · rw [Executor.execute]
      exact hrun
    · simp only [List.length_append, List.length_singleton, hlen]
      omega
    · exact List.getLast?_concat _

/-- Witness for C3: the amended theorem applied at `n = 2, d = 0, b = 1`
with an always-failing oracle, and at `n = 1` with an immediately-succeeding
oracle. -/
theorem c3_retry_attempts_and_backoff_witness :
    (Executor.execute 2 0 1 c3oracle = .exhausted c3err
      ⟨2, 2, (List.range 2).map (fun i =>
        ⟨i + 1, "error", some "boom", some "E",
          if i + 1 < 2 then some (Executor.sleepClosed 0 1 i) else none⟩)⟩
      (((List.range 1).map (Executor.sleepClosed 0 1)).filter
        (fun x => decide (0 < x)))) ∧
    (∃ errs sleeps,
      Executor.execute 1 0 1 c3oracle2 = .ok
        { c3resp with
          metrics := Pipeline.dictAssign c3resp.metrics "attempts_used" (1 : Rat)
          retry := some ⟨1, 1, errs ++ [⟨1, "success", none, none, none⟩]⟩ } sleeps ∧
      (errs ++ [(⟨1, "success", none, none, none⟩ : Executor.RetryEntry)]).length = 1 ∧
      (errs ++ [(⟨1, "success", none, none, none⟩ : Executor.RetryEntry)]).getLast?
        = some ⟨1, "success", none, none, none⟩ ∧
      (∀ en ∈ errs, en.status = "error")) := by
  constructor
  · exact (c3_retry_attempts_and_backoff 2 0 1 c3oracle (fun _ => c3err)
      (by decide) (by decide) (by decide)).1 (fun j => rfl)
  · exact (c3_retry_attempts_and_backoff 1 0 1 c3oracle2 (fun _ => c3err)
      (by decide) (by decide) (by decide)).2 1 c3resp (by decide) (by decide)
      (by intro j h1 h2; exact absurd h2 (by omega)) rfl rfl

namespace Checkpoint

open Pipeline (lookupFW)

theorem loadIds_append (l1 l2 : List String) :
    loadIds (l1 ++ l2) = loadIds l1 ++ loadIds l2 := by
  simp [loadIds]

theorem splitNLGo_no_newline :
    ∀ (l cur : List Char), '\n' ∉ l →
      splitNLGo l cur = [String.mk (cur.reverse ++ l)] := by
  intro l
  induction l with
  | nil =>
    intro cur _
    rw [splitNLGo, List.append_nil]
  | cons c rest ih =>
    intro cur hnl
    rw [List.mem_cons, not_or] at hnl
    rw [splitNLGo, if_neg (fun he => hnl.1 he.symm)]
    rw [ih (c :: cur) hnl.2, List.reverse_cons, List.append_assoc,
      List.singleton_append]

theorem splitNL_eq_self {s : String} (hnl : '\n' ∉ s.data) :
    splitNL s = [s] := by
  rw [splitNL, splitNLGo_no_newline s.data [] hnl]
  rfl

theorem mark_processed_inv {m : Manager} {s : String} (hs : s ≠ "")
    (hst : pyStrip s = s) (hnl : '\n' ∉ s.data)
    (hinv : m.processed = loadIds m.lines) :
    (m.mark_processed s).processed = loadIds (m.mark_processed s).lines ∧
    (∀ x ∈ m.processed, x ∈ (m.mark_processed s).processed) ∧
    s ∈ (m.mark_processed s).processed ∧
    (∃ t, (m.mark_processed s).lines = m.lines ++ t) := by
  by_cases hmem : s ∈ m.processed
  · refine ⟨?_, ?_, ?_, ⟨[], by simp [Manager.mark_processed, hmem]⟩⟩
    · have hmem2 : s ∈ loadIds m.lines := hinv ▸ hmem
      simp [Manager.mark_processed, hinv, hmem2]
    · intro x hx
      simpa [Manager.mark_processed, hmem] using hx
    · simp [Manager.mark_processed, hmem]
  · simp only [Manager.mark_processed, if_neg hmem, splitNL_eq_self hnl]
    refine ⟨?_, ?_, ?_, ⟨[s], rfl⟩⟩
    · show m.processed ++ [s] = loadIds (m.lines ++ [s])
      rw [loadIds_append, hinv]
      simp [loadIds, hst, hs]
    · intro x hx
      exact List.mem_append_left _ hx
    · exact List.mem_append_right _ (List.mem_singleton.mpr rfl)

theorem runFold_inv {Rec Fail : Type} (proc : Nat → Sum Rec Fail)
    (hsucc : ∀ i, ∃ rec, proc i = Sum.inl rec) :
    ∀ (backlog : List (Nat × RowCtx × Option String)) (acc : RunOutcome Rec Fail),
      acc.manager.processed = loadIds acc.manager.lines →
      (∀ t ∈ backlog, ∃ s, t.2.2 = some s ∧ s ≠ "" ∧ pyStrip s = s ∧
        '\n' ∉ s.data) →
      ((backlog.foldl (runStep proc) acc).manager.processed =
          loadIds (backlog.foldl (runStep proc) acc).manager.lines ∧
        (∀ x ∈ acc.manager.processed,
          x ∈ (backlog.foldl (runStep proc) acc).manager.processed) ∧
        (∀ t ∈ backlog, ∀ s, t.2.2 = some s →
          s ∈ (backlog.foldl (runStep proc) acc).manager.processed) ∧
        (∃ tail, (backlog.foldl (runStep proc) acc).manager.lines =
          acc.manager.lines ++ tail)) := by
  intro backlog
  induction backlog with
  | nil =>
    intro acc hinv _
    exact ⟨hinv, fun x hx => hx, by simp, ⟨[], by simp⟩⟩
  | cons t rest ih =>
    intro acc hinv hgood
    obtain ⟨s, hrid, hs, hst, hnl⟩ := hgood t (List.mem_cons_self t rest)
    obtain ⟨rec, hrec⟩ := hsucc t.1
    have htruthy : truthy t.2.2 := by rw [hrid]; exact hs
    have hstep : (runStep proc acc t).manager = acc.manager.mark_processed s := by
      simp only [runStep, hrec, hrid, Option.getD_some]
      rw [if_pos (show truthy (some s) from hs)]
    obtain ⟨hinv2, hsub2, hmem2, t2, hlines2⟩ := mark_processed_inv hs hst hnl hinv
    rw [← hstep] at hinv2 hsub2 hmem2 hlines2
    obtain ⟨hinv3, hsub3, hall3, t3, hlines3⟩ := ih (runStep proc acc t) hinv2
      (fun u hu => hgood u (List.mem_cons_of_mem t hu))
    rw [List.foldl_cons]
    refine ⟨hinv3, ?_, ?_, ⟨t2 ++ t3, ?_⟩⟩
    · intro x hx
      exact hsub3 x (hsub2 x hx)
    · intro u hu s2 hs2
      rcases List.mem_cons.mp hu with rfl | hmem
      · rw [hrid] at hs2
        cases hs2
        exact hsub3 s hmem2
      · exact hall3 u hmem s2 hs2
    · rw [hlines3, hlines2, List.append_assoc]

theorem backlogGo_nil {m : Manager} {field : String} :
    ∀ (rows : List RowCtx) (i : Nat),
      (∀ ctx ∈ rows, ∃ s, Pipeline.lookupFW ctx field = some s ∧ s ≠ "" ∧
        s ∈ m.processed) →
      backlogGo m field i rows = [] := by
  intro rows
  induction rows with
  | nil => intro i _; rfl
  | cons ctx rest ih =>
    intro i h
    obtain ⟨s, hl, hs, hmem⟩ := h ctx (List.mem_cons_self ctx rest)
    simp only [backlogGo]
    rw [if_pos ⟨s, hl, hs, hmem⟩]
    exact ih (i + 1) (fun ctx2 h2 => h ctx2 (List.mem_cons_of_mem _ h2))

theorem backlogGo_mem {m : Manager} {field : String} :
    ∀ (rows : List RowCtx) (i : Nat) (t : Nat × RowCtx × Option String),
      t ∈ backlogGo m field i rows →
      t.2.1 ∈ rows ∧ t.2.2 = Pipeline.lookupFW t.2.1 field := by
  intro rows
  induction rows with
  | nil => intro i t ht; cases ht
  | cons ctx rest ih =>
    intro i t ht
    simp only [backlogGo] at ht
    by_cases hskip : ∃ s, Pipeline.lookupFW ctx field = some s ∧ s ≠ "" ∧ s ∈ m.processed
    · rw [if_pos hskip] at ht
      obtain ⟨hmem, hrid⟩ := ih (i + 1) t ht
      exact ⟨List.mem_cons_of_mem _ hmem, hrid⟩
    · rw [if_neg hskip] at ht
      rcases List.mem_cons.mp ht with rfl | ht2
      · exact ⟨List.mem_cons_self _ _, rfl⟩
      · obtain ⟨hmem, hrid⟩ := ih (i + 1) t ht2
        exact ⟨List.mem_cons_of_mem _ hmem, hrid⟩

theorem backlogGo_mem_of_not_skip {m : Manager} {field : String} :
    ∀ (rows : List RowCtx) (j : Nat) (ctx : RowCtx), ctx ∈ rows →
      ¬ (∃ s, Pipeline.lookupFW ctx field = some s ∧ s ≠ "" ∧ s ∈ m.processed) →
      ∃ i, (i, ctx, Pipeline.lookupFW ctx field) ∈ backlogGo m field j rows := by
  intro rows
  induction rows with
  | nil => intro j ctx hmem; cases hmem
  | cons hd rest ih =>
    intro j ctx hmem hns
    simp only [backlogGo]
    rcases List.mem_cons.mp hmem with rfl | hmem2
    · rw [if_neg hns]
      exact ⟨j, List.mem_cons_self _ _⟩
    · by_cases hskip : ∃ s, Pipeline.lookupFW hd field = some s ∧ s ≠ "" ∧
          s ∈ m.processed
      · rw [if_pos hskip]
        exact ih (j + 1) ctx hmem2 hns
      · rw [if_neg hskip]
        obtain ⟨i, hi⟩ := ih (j + 1) ctx hmem2 hns
        exact ⟨i, List.mem_cons_of_mem _ hi⟩

end Checkpoint

/-- C4 counterexample: a successful run never checkpoints a row whose id is
missing (falsy), and an id with surrounding whitespace (" x ", non-blank
after strip) is checkpointed verbatim but stripped on reload, so in both
cases re-running with the resulting checkpoint file and the same input
deterministically produces one additional record, not zero. -/
theorem c4_rerun_counterexample :
    (Checkpoint.runCycle
      (Checkpoint.Manager.load
        (Checkpoint.runCycle (Checkpoint.Manager.load []) "APPID" c4rows
          c4proc).manager.lines)
      "APPID" c4rows c4proc).results.length = 1 ∧
    (Checkpoint.runCycle
      (Checkpoint.Manager.load
        (Checkpoint.runCycle (Checkpoint.Manager.load []) "APPID" c4rows2
          c4proc).manager.lines)
      "APPID" c4rows2 c4proc).results.length = 1 ∧
    pyStrip " x " ≠ "" ∧ (1 : Nat) ≠ 0 :=
  ⟨rfl, rfl, by decide, by decide⟩

/-- C4 (amended): when every input row carries, under the checkpoint field,
an id that is non-blank, contains no newline and is unchanged by strip (no
leading or trailing whitespace) — so that the line written for it re-loads
as itself — and the completed run produced a record for every attempted
row, re-running with the resulting checkpoint file and the same input
yields zero additional records and makes no row-processor (LLM) calls; the
checkpoint file grows append-only (the original lines are a prefix) and the
re-run appends nothing. -/
theorem c4_checkpoint_rerun {Rec Fail : Type} (lines0 : List String)
    (field : String) (rows : List Checkpoint.RowCtx) (proc : Nat → Sum Rec Fail)
    (hid : ∀ ctx ∈ rows, ∃ s, Pipeline.lookupFW ctx field = some s ∧ s ≠ "" ∧
      pyStrip s = s ∧ '\n' ∉ s.data)
    (hsucc : ∀ i, ∃ rec, proc i = Sum.inl rec) :
    (Checkpoint.runCycle
      (Checkpoint.Manager.load
        (Checkpoint.runCycle (Checkpoint.Manager.load lines0) field rows
          proc).manager.lines) field rows proc).results = [] ∧
    (Checkpoint.runCycle
      (Checkpoint.Manager.load
        (Checkpoint.runCycle (Checkpoint.Manager.load lines0) field rows
          proc).manager.lines) field rows proc).attempted = [] ∧
    (∃ t, (Checkpoint.runCycle (Checkpoint.Manager.load lines0) field rows
      proc).manager.lines = lines0 ++ t) ∧
    (Checkpoint.runCycle
      (Checkpoint.Manager.load
        (Checkpoint.runCycle (Checkpoint.Manager.load lines0) field rows
          proc).manager.lines) field rows proc).manager.lines =
      (Checkpoint.runCycle (Checkpoint.Manager.load lines0) field rows
        proc).manager.lines := by
  have hinv0 : (Checkpoint.Manager.load lines0).processed =
      Checkpoint.loadIds (Checkpoint.Manager.load lines0).lines := rfl
  have hgood1 : ∀ t ∈ Checkpoint.buildBacklog (Checkpoint.Manager.load lines0)
      field rows, ∃ s, t.2.2 = some s ∧ s ≠ "" ∧ pyStrip s = s ∧
        '\n' ∉ s.data := by
    intro t ht
    obtain ⟨hmem, hrid⟩ := Checkpoint.backlogGo_mem rows 0 t ht
    obtain ⟨s, hl, hs, hst, hnl⟩ := hid t.2.1 hmem
    exact ⟨s, by rw [hrid, hl], hs, hst, hnl⟩
  obtain ⟨hinv1, hsub1, hall1, hpre1⟩ := Checkpoint.runFold_inv proc hsucc
    (Checkpoint.buildBacklog (Checkpoint.Manager.load lines0) field rows)
    ⟨[], [], Checkpoint.Manager.load lines0, []⟩ hinv0 hgood1
  have hallrows : ∀ ctx ∈ rows, ∃ s, Pipeline.lookupFW ctx field = some s ∧ s ≠ "" ∧
      s ∈ (Checkpoint.runCycle (Checkpoint.Manager.load lines0) field rows
        proc).manager.processed := by
    intro ctx hctx
    obtain ⟨s, hl, hs, hst, hnl⟩ := hid ctx hctx
    refine ⟨s, hl, hs, ?_⟩
    by_cases hskip : ∃ s2, Pipeline.lookupFW ctx field = some s2 ∧ s2 ≠ "" ∧
        s2 ∈ (Checkpoint.Manager.load lines0).processed
    · obtain ⟨s2, hl2, _, hmem2⟩ := hskip
      have hss : s2 = s := Option.some.inj (hl2.symm.trans hl)
      exact hsub1 s (hss ▸ hmem2)
    · obtain ⟨i, hi⟩ := Checkpoint.backlogGo_mem_of_not_skip rows 0 ctx hctx hskip
      exact hall1 (i, ctx, Pipeline.lookupFW ctx field) hi s hl
  have hbl2 : Checkpoint.buildBacklog
      (Checkpoint.Manager.load
        (Checkpoint.runCycle (Checkpoint.Manager.load lines0) field rows
          proc).manager.lines) field rows = [] := by
    apply Checkpoint.backlogGo_nil rows 0
    intro ctx hctx
    obtain ⟨s, hl, hs, hmem⟩ := hallrows ctx hctx
    refine ⟨s, hl, hs, ?_⟩
    have hinv1' : (Checkpoint.runCycle (Checkpoint.Manager.load lines0) field rows
        proc).manager.processed = Checkpoint.loadIds
        (Checkpoint.runCycle (Checkpoint.Manager.load lines0) field rows
          proc).manager.lines := hinv1
    show s ∈ Checkpoint.loadIds _
    rw [← hinv1']
    exact hmem
  refine ⟨?_, ?_, hpre1, ?_⟩ <;>
    rw [Checkpoint.runCycle, hbl2] <;> rfl

theorem c4_checkpoint_rerun_witness :
    (Checkpoint.runCycle
      (Checkpoint.Manager.load
        (Checkpoint.runCycle (Checkpoint.Manager.load []) "id" c4wrows
          c4proc).manager.lines) "id" c4wrows c4proc).results = [] ∧
    (Checkpoint.runCycle
      (Checkpoint.Manager.load
        (Checkpoint.runCycle (Checkpoint.Manager.load []) "id" c4wrows
          c4proc).manager.lines) "id" c4wrows c4proc).attempted = [] ∧
    (∃ t, (Checkpoint.runCycle (Checkpoint.Manager.load []) "id" c4wrows
      c4proc).manager.lines = [] ++ t) ∧
    (Checkpoint.runCycle
      (Checkpoint.Manager.load
        (Checkpoint.runCycle (Checkpoint.Manager.load []) "id" c4wrows
          c4proc).manager.lines) "id" c4wrows c4proc).manager.lines =
      (Checkpoint.runCycle (Checkpoint.Manager.load []) "id" c4wrows
        c4proc).manager.lines :=
  c4_checkpoint_rerun [] "id" c4wrows c4proc
    (by
      intro ctx hctx
      have hc : ctx = [("id", "r1")] := by simpa [c4wrows] using hctx
      subst hc
      exact ⟨"r1", rfl, by decide, rfl, by decide⟩)
    (fun _ => ⟨7, rfl⟩)

theorem seqForE_ok_mem {ε α : Type} {f : α → Except ε Unit} {l : List α}
    (h : seqForE f l = .ok ()) : ∀ x ∈ l, f x = .ok () := by
  induction l with
  | nil => intro x hx; cases hx
  | cons a l ih =>
    intro x hx
    rw [seqForE] at h
    cases hf : f a with
    | error e => rw [hf] at h; cases h
    | ok u =>
      rw [hf] at h
      cases hx with
      | head => cases u; exact hf
      | tail _ hmem => exact ih h x hmem

theorem seqForE_error_mem {ε α : Type} {f : α → Except ε Unit} {l : List α} {e : ε}
    (h : seqForE f l = .error e) : ∃ x ∈ l, f x = .error e := by
  induction l with
  | nil => cases h
  | cons a l ih =>
    rw [seqForE] at h
    cases hf : f a with
    | error e2 =>
      rw [hf] at h
      cases h
      exact ⟨a, List.mem_cons_self a l, hf⟩
    | ok u =>
      rw [hf] at h
      obtain ⟨x, hx, hfx⟩ := ih h
      exact ⟨x, List.mem_cons_of_mem a hx, hfx⟩

theorem seqFoldE_ok_mem {ε σ α : Type} {f : σ → α → Except ε σ} {s s' : σ}
    {l : List α} (h : seqFoldE f s l = .ok s') :
    ∀ x ∈ l, ∃ t t', f t x = .ok t' := by
  induction l generalizing s with
  | nil => intro x hx; cases hx
  | cons a l ih =>
    intro x hx
    rw [seqFoldE] at h
    cases hf : f s a with
    | error e => rw [hf] at h; cases h
    | ok s2 =>
      rw [hf] at h
      cases hx with
      | head => exact ⟨s, s2, hf⟩
      | tail _ hmem => exact ih h x hmem

theorem seqFoldE_error_mem {ε σ α : Type} {f : σ → α → Except ε σ} {s : σ}
    {l : List α} {e : ε} (h : seqFoldE f s l = .error e) :
    ∃ x ∈ l, ∃ t, f t x = .error e := by
  induction l generalizing s with
  | nil => cases h
  | cons a l ih =>
    rw [seqFoldE] at h
    cases hf : f s a with
    | error e2 =>
      rw [hf] at h
      cases h
      exact ⟨a, List.mem_cons_self a l, s, hf⟩
    | ok s2 =>
      rw [hf] at h
      obtain ⟨x, hx, t, hfx⟩ := ih h
      exact ⟨x, List.mem_cons_of_mem a hx, t, hfx⟩

theorem seqMapE_ok_mem {ε α β : Type} {f : α → Except ε β} {l : List α}
    {ys : List β} (h : seqMapE f l = .ok ys) :
    ∀ y ∈ ys, ∃ x ∈ l, f x = .ok y := by
  induction l generalizing ys with
  | nil =>
    cases h
    intro y hy
    cases hy
  | cons a l ih =>
    intro y hy
    rw [seqMapE] at h
    cases hf : f a with
    | error e => rw [hf] at h; cases h
    | ok b =>
      rw [hf] at h
      simp only [exceptBind_ok] at h
      cases hrest : seqMapE f l with
      | error e => rw [hrest] at h; cases h
      | ok bs =>
        rw [hrest] at h
        simp only [exceptBind_ok] at h
        cases h
        cases hy with
        | head => exact ⟨a, List.mem_cons_self a l, hf⟩
        | tail _ hmem =>
          obtain ⟨x, hx, hfx⟩ := ih hrest y hmem
          exact ⟨x, List.mem_cons_of_mem a hx, hfx⟩

theorem exceptBind_pure_ok {ε σ β : Type} {m : Except ε σ} {g : σ → β} {v : β}
    (h : (m >>= fun s => pure (g s)) = .ok v) : ∃ s, m = .ok s ∧ v = g s := by
  cases m with
  | error e => cases h
  | ok s => exact ⟨s, rfl, (Except.ok.inj h).symm⟩

namespace Pipeline

open Security Artifacts

theorem normalize_ok_mem {o : Option String} {v : String}
    (h : Security.normalize_security_level o = .ok v) :
    v ∈ Security.SECURITY_LEVELS := by
  cases o with
  | none =>
    cases h
    decide
  | some s =>
    simp only [Security.normalize_security_level] at h
    split at h
    · cases h; decide
    · split at h
      · rename_i hmem
        cases h
        exact hmem
      · cases h

theorem normalize_ok_of_level {s : String} (hs : s ∈ Security.SECURITY_LEVELS) :
    Security.normalize_security_level (some s) = .ok s := by
  simp only [Security.SECURITY_LEVELS, List.mem_cons, List.mem_singleton,
    List.not_mem_nil, or_false] at hs
  rcases hs with rfl | rfl | rfl | rfl | rfl <;> decide

theorem prepare_binding_level {c : SinkBindingCfg} {b : SinkBinding}
    (h : prepare_binding c = .ok b) :
    Security.normalize_security_level c.security_level = .ok b.security_level := by
  rw [prepare_binding] at h
  cases hn : Security.normalize_security_level c.security_level with
  | error e => rw [hn] at h; cases h
  | ok lvl =>
    rw [hn] at h
    simp only [exceptBind_ok] at h
    cases h1 : seqMapE prepareDescriptorCfg c.producesCfg with
    | error e => rw [h1] at h; cases h
    | ok ds1 =>
      rw [h1] at h
      simp only [exceptBind_ok] at h
      cases h2 : seqMapE prepareDescriptorSink c.producesSink with
      | error e => rw [h2] at h; cases h
      | ok ds2 =>
        rw [h2] at h
        simp only [exceptBind_ok] at h
        cases h3 : seqMapE parseConsume
            (c.consumesCfg ++ c.consumesSink.map ConsumeEntry.plain) with
        | error e => rw [h3] at h; cases h
        | ok reqs =>
          rw [h3] at h
          simp only [exceptBind_ok] at h
          cases h
          rfl

theorem prepared_level_mem {cfgs : List SinkBindingCfg} {bs : List SinkBinding}
    (h : seqMapE (fun c => (prepare_binding c).mapError PipeError.valueError) cfgs
      = .ok bs) :
    ∀ b ∈ bs, b.security_level ∈ Security.SECURITY_LEVELS := by
  intro b hb
  obtain ⟨c, _, hc⟩ := seqMapE_ok_mem h b hb
  cases hp : prepare_binding c with
  | error e => rw [hp] at hc; cases hc
  | ok b2 =>
    rw [hp] at hc
    cases hc
    exact normalize_ok_mem (prepare_binding_level hp)

theorem lookupFW_mem {α : Type} {l : List (String × α)} {k : String} {v : α}
    (h : lookupFW l k = some v) : (k, v) ∈ l := by
  induction l with
  | nil => cases h
  | cons e tl ih =>
    obtain ⟨k2, v2⟩ := e
    rw [lookupFW] at h
    by_cases hk : k2 = k
    · rw [if_pos hk] at h
      cases h
      subst hk
      exact List.mem_cons_self _ _
    · rw [if_neg hk] at h
      exact List.mem_cons_of_mem _ (ih h)

theorem byId_mem {bs : List SinkBinding} {i : String} {b : SinkBinding}
    (h : byId bs i = some b) : b ∈ bs := by
  induction bs with
  | nil => cases h
  | cons x l ih =>
    rw [byId] at h
    by_cases hx : x.id = i
    · rw [if_pos hx] at h
      cases h
      exact List.mem_cons_self _ _
    · rw [if_neg hx] at h
      exact List.mem_cons_of_mem x (ih h)

theorem sortReady_mem {l : List SinkBinding} {b : SinkBinding} :
    b ∈ sortReady l ↔ b ∈ l :=
  (List.perm_insertionSort bindingLe l).mem_iff

theorem processDependent_queue_mem {bs : List SinkBinding} {cid : String}
    {st : (String → List String) × List SinkBinding} {d : String} {b : SinkBinding}
    (hst : ∀ q ∈ st.2, q ∈ bs) (hb : b ∈ (processDependent bs cid st d).2) :
    b ∈ bs := by
  simp only [processDependent] at hb
  split at hb
  · split at hb
    · split at hb
      · rename_i b2 heq
        replace hb : b ∈ sortReady (st.2 ++ [b2]) := hb
        rw [sortReady_mem] at hb
        rcases List.mem_append.mp hb with h1 | h1
        · exact hst b h1
        · rw [List.mem_singleton] at h1
          subst h1
          exact byId_mem heq
      · exact hst b hb
    · exact hst b hb
  · exact hst b hb

theorem foldDependents_queue_mem {bs : List SinkBinding} {cid : String}
    (ds : List String) :
    ∀ (st : (String → List String) × List SinkBinding),
      (∀ q ∈ st.2, q ∈ bs) →
      ∀ b ∈ (ds.foldl (processDependent bs cid) st).2, b ∈ bs := by
  induction ds with
  | nil => intro st hst b hb; exact hst b hb
  | cons d ds ih =>
    intro st hst b hb
    rw [List.foldl_cons] at hb
    exact ih _ (fun q hq => processDependent_queue_mem hst hq) b hb

theorem kahnLoop_mem {bs : List SinkBinding} {dependents : String → List String} :
    ∀ (fuel : Nat) (deps : String → List String) (queue acc : List SinkBinding),
      (∀ q ∈ queue, q ∈ bs) → (∀ o ∈ acc, o ∈ bs) →
      ∀ b ∈ kahnLoop bs dependents fuel deps queue acc, b ∈ bs := by
  intro fuel
  induction fuel with
  | zero =>
    intro deps queue acc hq ha b hb
    rw [kahnLoop] at hb
    exact ha b hb
  | succ n ih =>
    intro deps queue acc hq ha b hb
    cases queue with
    | nil =>
      rw [kahnLoop] at hb
      exact ha b hb
    | cons cur rest =>
      simp only [kahnLoop] at hb
      refine ih _ _ _ ?_ ?_ b hb
      · exact foldDependents_queue_mem _ _
          (fun q hq2 => hq q (List.mem_cons_of_mem _ hq2))
      · intro o ho
        rcases List.mem_append.mp ho with h1 | h1
        · exact ha o h1
        · rw [List.mem_singleton] at h1
          subst h1
          exact hq _ (List.mem_cons_self _ _)

theorem resolveOrder_ok_subset {bs ordered : List SinkBinding}
    (h : resolveOrder bs = .ok ordered) : ∀ b ∈ ordered, b ∈ bs := by
  simp only [resolveOrder] at h
  split at h
  · cases h
    intro b hb
    cases hb
  · cases hg : buildGraph bs with
    | error e => rw [hg] at h; cases h
    | ok g =>
      rw [hg] at h
      simp only [exceptBind_ok] at h
      split at h
      · cases h
      · cases h
        intro b hb
        refine kahnLoop_mem _ _ _ _ ?_ ?_ b hb
        · intro q hq
          rw [sortReady_mem] at hq
          exact (List.mem_filter.mp hq).1
        · intro o ho
          cases ho

theorem producersInner_mem {b : SinkBinding} :
    ∀ (ds : List ArtifactDescriptor) (acc : List (String × SinkBinding))
      (x : String × SinkBinding),
      x ∈ ds.foldl (fun acc d =>
        let key := descriptorKey d
        if key = "" then acc
        else if (lookupFW acc key).isSome then acc
        else acc ++ [(key, b)]) acc →
      x ∈ acc ∨ x.2 = b := by
  intro ds
  induction ds with
  | nil => intro acc x hx; exact Or.inl hx
  | cons d ds ih =>
    intro acc x hx
    rw [List.foldl_cons] at hx
    rcases ih _ x hx with h1 | h1
    · simp only [] at h1
      split at h1
      · exact Or.inl h1
      · split at h1
        · exact Or.inl h1
        · rcases List.mem_append.mp h1 with h2 | h2
          · exact Or.inl h2
          · rw [List.mem_singleton] at h2
            subst h2
            exact Or.inr rfl
    · exact Or.inr h1

theorem producersByName_core_mem :
    ∀ (l : List SinkBinding) (acc : List (String × SinkBinding))
      (x : String × SinkBinding),
      x ∈ l.foldl (fun acc b => b.produces.foldl (fun acc d =>
        let key := descriptorKey d
        if key = "" then acc
        else if (lookupFW acc key).isSome then acc
        else acc ++ [(key, b)]) acc) acc →
      x ∈ acc ∨ ∃ b ∈ l, x.2 = b := by
  intro l
  induction l with
  | nil => intro acc x hx; exact Or.inl hx
  | cons b l ih =>
    intro acc x hx
    rw [List.foldl_cons] at hx
    rcases ih _ x hx with h1 | h1
    · rcases producersInner_mem b.produces acc x h1 with h2 | h2
      · exact Or.inl h2
      · exact Or.inr ⟨b, List.mem_cons_self b l, h2⟩
    · obtain ⟨b2, hb2, hx2⟩ := h1
      exact Or.inr ⟨b2, List.mem_cons_of_mem b hb2, hx2⟩

theorem producersByName_snd_mem {bs : List SinkBinding} {x : String × SinkBinding}
    (hx : x ∈ producersByName bs) : x.2 ∈ bs := by
  rcases producersByName_core_mem bs [] x hx with h1 | ⟨b, hb, h2⟩
  · cases h1
  · rw [h2]
    exact hb

theorem producersByType_mem {bs : List SinkBinding} {ty : String} {p : SinkBinding}
    (hp : p ∈ producersByType bs ty) : p ∈ bs := by
  simp only [producersByType, List.mem_flatten, List.mem_map] at hp
  obtain ⟨l, ⟨b, hb, hl⟩, hpl⟩ := hp
  subst hl
  rw [List.mem_map] at hpl
  obtain ⟨d, _, hd⟩ := hpl
  rw [← hd]
  exact hb

theorem requestMatches_mem {bs : List SinkBinding} {r : ArtifactRequest}
    {p : SinkBinding} (hp : p ∈ requestMatches bs r) : p ∈ bs := by
  rw [requestMatches] at hp
  split at hp
  · cases hp
  · split at hp
    · split at hp
      · rename_i q hq
        rw [List.mem_singleton] at hp
        subst hp
        exact producersByName_snd_mem (lookupFW_mem hq)
      · cases hp
    · split at hp
      · exact producersByType_mem hp
      · cases hp

theorem enforce_ok_true {c p : SinkBinding}
    (h : enforceDependencySecurity c p = .ok ()) (hcl : c.security_level ≠ "") :
    Security.is_security_level_allowed (some p.security_level)
      (some c.security_level) = .ok true := by
  rw [enforceDependencySecurity, if_neg hcl] at h
  cases hx : Security.is_security_level_allowed (some p.security_level)
      (some c.security_level) with
  | error e => rw [hx] at h; cases h
  | ok v =>
    cases v with
    | true => rfl
    | false => rw [hx] at h; cases h

theorem enforce_error_shape {c p : SinkBinding} {e : PipeError}
    (h : enforceDependencySecurity c p = .error e)
    (hnc : ∃ v, Security.normalize_security_level (some c.security_level) = .ok v)
    (hnp : ∃ v, Security.normalize_security_level (some p.security_level) = .ok v) :
    c.security_level ≠ "" ∧
    Security.is_security_level_allowed (some p.security_level)
      (some c.security_level) = .ok false ∧
    e = .permission c.id p.id := by
  rw [enforceDependencySecurity] at h
  by_cases hcl : c.security_level = ""
  · rw [if_pos hcl] at h
    cases h
  · rw [if_neg hcl] at h
    cases hx : Security.is_security_level_allowed (some p.security_level)
        (some c.security_level) with
    | error m =>
      obtain ⟨vp, hp2⟩ := hnp
      obtain ⟨vc, hc2⟩ := hnc
      rw [Security.is_security_level_allowed, hp2] at hx
      simp only [exceptBind_ok] at hx
      rw [hc2] at hx
      simp only [exceptBind_ok] at hx
      cases hx
    | ok v =>
      cases v with
      | true => rw [hx] at h; cases h
      | false =>
        rw [hx] at h
        cases Except.error.inj h
        exact ⟨hcl, rfl, rfl⟩

theorem addRequestEdges_ok_enforce {bs : List SinkBinding} {c : SinkBinding}
    {g g2 : Graph} {r : ArtifactRequest} (h : addRequestEdges bs c g r = .ok g2) :
    ∀ p ∈ requestMatches bs r, enforceDependencySecurity c p = .ok () := by
  simp only [addRequestEdges] at h
  cases hs : seqForE (fun p => enforceDependencySecurity c p)
      (requestMatches bs r) with
  | error e => rw [hs] at h; cases h
  | ok u =>
    cases u
    intro p hp
    exact seqForE_ok_mem hs p hp

theorem addRequestEdges_error_enforce {bs : List SinkBinding} {c : SinkBinding}
    {g : Graph} {r : ArtifactRequest} {e : PipeError}
    (h : addRequestEdges bs c g r = .error e) :
    ∃ p ∈ requestMatches bs r, enforceDependencySecurity c p = .error e := by
  simp only [addRequestEdges] at h
  cases hs : seqForE (fun p => enforceDependencySecurity c p)
      (requestMatches bs r) with
  | ok u =>
    rw [hs] at h
    simp only [exceptBind_ok] at h
    cases h
  | error e2 =>
    rw [hs] at h
    simp only [exceptBind_error] at h
    cases Except.error.inj h
    exact seqForE_error_mem hs

theorem buildGraph_ok_enforce {bs : List SinkBinding} {g : Graph}
    (h : buildGraph bs = .ok g) :
    ∀ c ∈ bs, ∀ r ∈ c.consumes, ∀ p ∈ requestMatches bs r,
      enforceDependencySecurity c p = .ok () := by
  intro c hc r hr p hp
  obtain ⟨t, t', h1⟩ := seqFoldE_ok_mem h c hc
  obtain ⟨t2, t3, h2⟩ := seqFoldE_ok_mem h1 r hr
  exact addRequestEdges_ok_enforce h2 p hp

theorem buildGraph_error_shape {bs : List SinkBinding} {e : PipeError}
    (h : buildGraph bs = .error e)
    (hnorm : ∀ b ∈ bs, b.security_level ∈ Security.SECURITY_LEVELS) :
    ∃ c ∈ bs, ∃ r ∈ c.consumes, ∃ p ∈ requestMatches bs r,
      c.security_level ≠ "" ∧
      Security.is_security_level_allowed (some p.security_level)
        (some c.security_level) = .ok false ∧
      e = .permission c.id p.id := by
  obtain ⟨c, hc, t, h1⟩ := seqFoldE_error_mem h
  obtain ⟨r, hr, t2, h2⟩ := seqFoldE_error_mem h1
  obtain ⟨p, hp, h3⟩ := addRequestEdges_error_enforce h2
  obtain ⟨hcl, hfalse, he⟩ := enforce_error_shape h3
    ⟨_, normalize_ok_of_level (hnorm c hc)⟩
    ⟨_, normalize_ok_of_level (hnorm p (requestMatches_mem hp))⟩
  exact ⟨c, hc, r, hr, p, hp, hcl, hfalse, he⟩

theorem resolveOrder_error_of_buildGraph {bs : List SinkBinding} {e : PipeError}
    (hne : bs ≠ []) (hg : buildGraph bs = .error e) :
    resolveOrder bs = .error e := by
  rw [resolveOrder, if_neg (fun h2 => hne (List.isEmpty_iff.mp h2)), hg]
  rfl

theorem checkClearance_ok_mem {b : SinkBinding}
    {consumed : List (String × List Artifact)}
    (h : checkClearance b consumed = .ok ()) (hcl : b.security_level ≠ "")
    {kv : String × List Artifact} (hkv : kv ∈ consumed) {a : Artifact}
    (ha : a ∈ kv.2) :
    Security.is_security_level_allowed a.security_level (some b.security_level)
      = .ok true := by
  rw [checkClearance, if_neg hcl] at h
  have h1 := seqForE_ok_mem h kv hkv
  have h2 := seqForE_ok_mem h1 a ha
  cases hx : Security.is_security_level_allowed a.security_level
      (some b.security_level) with
  | error e => rw [hx] at h2; cases h2
  | ok v =>
    cases v with
    | true => rfl
    | false => rw [hx] at h2; cases h2

theorem executeStep_ok_shape {acc acc2 : ArtifactStore × List HandoffRec}
    {b : SinkBinding} (h : executeStep acc b = .ok acc2) :
    checkClearance b (acc.1.resolve_requests b.consumes) = .ok () ∧
    acc2.2 = acc.2 ++ [⟨b.id, b.security_level, acc.1.resolve_requests b.consumes⟩] := by
  simp only [executeStep] at h
  cases hc : checkClearance b (acc.1.resolve_requests b.consumes) with
  | error e => rw [hc] at h; cases h
  | ok u =>
    cases u
    rw [hc] at h
    simp only [exceptBind_ok] at h
    obtain ⟨s, _, hv⟩ := exceptBind_pure_ok h
    exact ⟨rfl, by rw [hv]⟩

theorem executeFold_clearance :
    ∀ (l : List SinkBinding) (acc out : ArtifactStore × List HandoffRec),
      seqFoldE executeStep acc l = .ok out →
      (∀ b ∈ l, b.security_level ≠ "") →
      (∀ h ∈ acc.2, ∀ kv ∈ h.consumed, ∀ a ∈ kv.2,
        Security.is_security_level_allowed a.security_level (some h.clearance)
          = .ok true) →
      ∀ h ∈ out.2, ∀ kv ∈ h.consumed, ∀ a ∈ kv.2,
        Security.is_security_level_allowed a.security_level (some h.clearance)
          = .ok true := by
  intro l
  induction l with
  | nil =>
    intro acc out h hl hacc
    cases h
    exact hacc
  | cons b l ih =>
    intro acc out h hl hacc
    rw [seqFoldE] at h
    cases hs : executeStep acc b with
    | error e => rw [hs] at h; cases h
    | ok acc2 =>
      rw [hs] at h
      refine ih acc2 out h (fun b2 hb2 => hl b2 (List.mem_cons_of_mem b hb2)) ?_
      obtain ⟨hck, htr⟩ := executeStep_ok_shape hs
      intro hh hmem kv hkv a ha
      rw [htr] at hmem
      rcases List.mem_append.mp hmem with h1 | h1
      · exact hacc hh h1 kv hkv a ha
      · rw [List.mem_singleton] at h1
        subst h1
        exact checkClearance_ok_mem hck (hl b (List.mem_cons_self b l)) hkv ha

theorem level_mem_ne_empty {s : String} (hs : s ∈ Security.SECURITY_LEVELS) :
    s ≠ "" := by
  simp only [Security.SECURITY_LEVELS, List.mem_cons, List.mem_singleton,
    List.not_mem_nil, or_false] at hs
  rcases hs with rfl | rfl | rfl | rfl | rfl <;> decide

end Pipeline

/-- C1: clearance is enforced at both ends of the artifact pipeline.  For a
pipeline constructed by `pipelineInit` (which normalizes every binding's
security level, so no prepared binding has an empty clearance), every
artifact handed to a consuming binding during a successful execution
satisfies `clearance(binding) ≥ level(artifact)` under the five-level
ordering; and whenever the prepared bindings contain a consumer matched by
dependency resolution to a producer whose level exceeds the consumer's
clearance, pipeline construction aborts with a permission error naming a
violating consumer/producer pair — before any sink executes. -/
theorem c1_clearance_enforced
    (cfgs1 cfgs2 : List Pipeline.SinkBindingCfg)
    (bs1 bs2 : List Pipeline.SinkBinding)
    (out : Pipeline.ArtifactStore × List Pipeline.HandoffRec)
    (hinit : Pipeline.pipelineInit cfgs1 = .ok bs1)
    (hex : Pipeline.executeBindings bs1 = .ok out)
    (hprep2 : seqMapE
      (fun c => (Pipeline.prepare_binding c).mapError Pipeline.PipeError.valueError)
      cfgs2 = .ok bs2)
    (hviol : ∃ c ∈ bs2, ∃ r ∈ c.consumes, ∃ p ∈ Pipeline.requestMatches bs2 r,
      Security.is_security_level_allowed (some p.security_level)
        (some c.security_level) = .ok false) :
    (∀ h ∈ out.2, ∀ kv ∈ h.consumed, ∀ a ∈ kv.2,
      Security.is_security_level_allowed a.security_level (some h.clearance)
        = .ok true) ∧
    (∃ c ∈ bs2, ∃ r ∈ c.consumes, ∃ p ∈ Pipeline.requestMatches bs2 r,
      Security.is_security_level_allowed (some p.security_level)
        (some c.security_level) = .ok false ∧
      Pipeline.pipelineInit cfgs2 = .error (.permission c.id p.id)) := by
  constructor
  · rw [Pipeline.pipelineInit] at hinit
    cases hp : seqMapE
        (fun c => (Pipeline.prepare_binding c).mapError Pipeline.PipeError.valueError)
        cfgs1 with
    | error e => rw [hp] at hinit; cases hinit
    | ok bs0 =>
      rw [hp] at hinit
      simp only [exceptBind_ok] at hinit
      have hsub := Pipeline.resolveOrder_ok_subset hinit
      have hlv : ∀ b ∈ bs1, b.security_level ≠ "" := fun b hb =>
        Pipeline.level_mem_ne_empty (Pipeline.prepared_level_mem hp b (hsub b hb))
      exact Pipeline.executeFold_clearance bs1 _ out hex hlv
        (fun h hmem => absurd hmem (List.not_mem_nil h))
  · obtain ⟨c, hc, r, hr, p, hp2, hfalse⟩ := hviol
    have hnorm := Pipeline.prepared_level_mem hprep2
    have hne : bs2 ≠ [] := fun h2 => by rw [h2] at hc; cases hc
    cases hg : Pipeline.buildGraph bs2 with
    | ok g =>
      exfalso
      have hcl : c.security_level ≠ "" :=
        Pipeline.level_mem_ne_empty (hnorm c hc)
      have htrue := Pipeline.enforce_ok_true
        (Pipeline.buildGraph_ok_enforce hg c hc r hr p hp2) hcl
      rw [htrue] at hfalse
      exact absurd (Except.ok.inj hfalse) (by decide)
    | error e =>
      obtain ⟨c2, hc2, r2, hr2, p2, hp3, _, hfalse2, he⟩ :=
        Pipeline.buildGraph_error_shape hg hnorm
      refine ⟨c2, hc2, r2, hr2, p2, hp3, hfalse2, ?_⟩
      rw [Pipeline.pipelineInit, hprep2]
      simp only [exceptBind_ok]
      rw [Pipeline.resolveOrder_error_of_buildGraph hne hg, he]

theorem c1_clearance_enforced_witness :
    (∀ h ∈ c1outA.2, ∀ kv ∈ h.consumed, ∀ a ∈ kv.2,
      Security.is_security_level_allowed a.security_level (some h.clearance)
        = .ok true) ∧
    (∃ c ∈ c1bsB, ∃ r ∈ c.consumes, ∃ p ∈ Pipeline.requestMatches c1bsB r,
      Security.is_security_level_allowed (some p.security_level)
        (some c.security_level) = .ok false ∧
      Pipeline.pipelineInit c1cfgsB = .error (.permission c.id p.id)) :=
  c1_clearance_enforced c1cfgsA c1cfgsB c1bsA c1bsB c1outA rfl rfl rfl (by decide)

namespace Pipeline

open Security Artifacts

theorem insertIfAbsent_mem {x y : String} {l : List String} :
    y ∈ insertIfAbsent x l ↔ y ∈ l ∨ y = x := by
  rw [insertIfAbsent]
  split
  · rename_i hx
    constructor
    · exact Or.inl
    · rintro (h | rfl)
      · exact h
      · exact hx
  · rw [List.mem_append, List.mem_singleton]

theorem insertIfAbsent_nodup {x : String} {l : List String} (h : l.Nodup) :
    (insertIfAbsent x l).Nodup := by
  rw [insertIfAbsent]
  split
  · exact h
  · rename_i hx
    exact List.Nodup.append h (List.nodup_singleton x)
      (by intro a ha hb; rw [List.mem_singleton] at hb; subst hb; exact hx ha)

theorem eraseStr_mem {l : List String} (hnd : l.Nodup) (x : String) :
    ∀ y, y ∈ eraseStr l x ↔ y ∈ l ∧ y ≠ x := by
  induction l with
  | nil => intro y; rw [eraseStr]; simp
  | cons a l ih =>
    intro y
    rw [List.nodup_cons] at hnd
    rw [eraseStr]
    split
    · rename_i hax
      subst hax
      constructor
      · intro hy
        exact ⟨List.mem_cons_of_mem a hy, fun he => hnd.1 (he ▸ hy)⟩
      · rintro ⟨hy, hne⟩
        cases hy with
        | head => exact absurd rfl hne
        | tail _ h2 => exact h2
    · rename_i hax
      rw [List.mem_cons, ih hnd.2 y, List.mem_cons]
      constructor
      · rintro (rfl | ⟨h1, h2⟩)
        · exact ⟨Or.inl rfl, hax⟩
        · exact ⟨Or.inr h1, h2⟩
      · rintro ⟨rfl | h1, h2⟩
        · exact Or.inl rfl
        · exact Or.inr ⟨h1, h2⟩

theorem eraseStr_nodup {l : List String} (hnd : l.Nodup) (x : String) :
    (eraseStr l x).Nodup := by
  induction l with
  | nil => exact List.nodup_nil
  | cons a l ih =>
    rw [List.nodup_cons] at hnd
    rw [eraseStr]
    split
    · exact hnd.2
    · rw [List.nodup_cons]
      refine ⟨fun hmem => hnd.1 ((eraseStr_mem hnd.2 x a).mp hmem).1, ih hnd.2⟩

theorem byId_id {bs : List SinkBinding} {i : String} {b : SinkBinding}
    (h : byId bs i = some b) : b.id = i := by
  induction bs with
  | nil => cases h
  | cons x l ih =>
    rw [byId] at h
    split at h
    · rename_i hx
      cases h
      exact hx
    · exact ih h

theorem id_inj_of_nodup {bs : List SinkBinding}
    (hnd : (bs.map SinkBinding.id).Nodup) {a b : SinkBinding}
    (ha : a ∈ bs) (hb : b ∈ bs) (hid : a.id = b.id) : a = b := by
  induction bs with
  | nil => cases ha
  | cons x l ih =>
    rw [List.map_cons, List.nodup_cons] at hnd
    cases ha with
    | head =>
      cases hb with
      | head => rfl
      | tail _ h2 => exact absurd (hid ▸ List.mem_map_of_mem SinkBinding.id h2) hnd.1
    | tail _ h1 =>
      cases hb with
      | head => exact absurd (hid ▸ List.mem_map_of_mem SinkBinding.id h1) hnd.1
      | tail _ h2 => exact ih hnd.2 h1 h2

theorem byId_of_mem_nodup {bs : List SinkBinding}
    (hnd : (bs.map SinkBinding.id).Nodup) {b : SinkBinding} (hb : b ∈ bs) :
    byId bs b.id = some b := by
  induction bs with
  | nil => cases hb
  | cons x l ih =>
    rw [List.map_cons, List.nodup_cons] at hnd
    rw [byId]
    split
    · rename_i hx
      cases hb with
      | head => rfl
      | tail _ h2 =>
        exact absurd (hx ▸ List.mem_map_of_mem SinkBinding.id h2) hnd.1
    · rename_i hx
      cases hb with
      | head => exact absurd rfl hx
      | tail _ h2 => exact ih hnd.2 h2

theorem addEdge_deps_mem (g : Graph) (cid pid x p2 : String) :
    p2 ∈ (addEdge g cid pid).deps x ↔ p2 ∈ g.deps x ∨ (x = cid ∧ p2 = pid) := by
  show p2 ∈ (if x = cid then insertIfAbsent pid (g.deps x) else g.deps x) ↔ _
  split
  · rename_i hx
    rw [insertIfAbsent_mem]
    constructor
    · rintro (h | rfl)
      · exact Or.inl h
      · exact Or.inr ⟨hx, rfl⟩
    · rintro (h | ⟨_, rfl⟩)
      · exact Or.inl h
      · exact Or.inr rfl
  · rename_i hx
    constructor
    · exact Or.inl
    · rintro (h | ⟨rfl, _⟩)
      · exact h
      · exact absurd rfl hx

theorem addEdge_dependents_mem (g : Graph) (cid pid x c2 : String) :
    c2 ∈ (addEdge g cid pid).dependents x ↔
      c2 ∈ g.dependents x ∨ (x = pid ∧ c2 = cid) := by
  show c2 ∈ (if x = pid then insertIfAbsent cid (g.dependents x) else g.dependents x) ↔ _
  split
  · rename_i hx
    rw [insertIfAbsent_mem]
    constructor
    · rintro (h | rfl)
      · exact Or.inl h
      · exact Or.inr ⟨hx, rfl⟩
    · rintro (h | ⟨_, rfl⟩)
      · exact Or.inl h
      · exact Or.inr rfl
  · rename_i hx
    constructor
    · exact Or.inl
    · rintro (h | ⟨rfl, _⟩)
      · exact h
      · exact absurd rfl hx

theorem addEdge_nodup {g : Graph}
    (h : ∀ x, (g.deps x).Nodup ∧ (g.dependents x).Nodup) (cid pid : String) :
    ∀ x, ((addEdge g cid pid).deps x).Nodup ∧
      ((addEdge g cid pid).dependents x).Nodup := by
  intro x
  constructor
  · show (if x = cid then insertIfAbsent pid (g.deps x) else g.deps x).Nodup
    split
    · exact insertIfAbsent_nodup (h x).1
    · exact (h x).1
  · show (if x = pid then insertIfAbsent cid (g.dependents x) else g.dependents x).Nodup
    split
    · exact insertIfAbsent_nodup (h x).2
    · exact (h x).2

theorem foldEdges_deps (c : SinkBinding) :
    ∀ (ms : List SinkBinding) (g : Graph) (x p2 : String),
      p2 ∈ (ms.foldl (fun g p => if p.id = c.id then g
          else addEdge g c.id p.id) g).deps x ↔
        p2 ∈ g.deps x ∨ (x = c.id ∧ ∃ p ∈ ms, p.id = p2 ∧ p.id ≠ c.id) := by
  intro ms
  induction ms with
  | nil =>
    intro g x p2
    rw [List.foldl_nil]
    constructor
    · exact Or.inl
    · rintro (h | ⟨_, p, hmem, _, _⟩)
      · exact h
      · cases hmem
  | cons p ms ih =>
    intro g x p2
    rw [List.foldl_cons, ih]
    split
    · rename_i hpc
      constructor
      · rintro (h | ⟨hx, q, hq, hqid, hqne⟩)
        · exact Or.inl h
        · exact Or.inr ⟨hx, q, List.mem_cons_of_mem p hq, hqid, hqne⟩
      · rintro (h | ⟨hx, q, hq, hqid, hqne⟩)
        · exact Or.inl h
        · cases hq with
          | head => exact absurd hpc hqne
          | tail _ h2 => exact Or.inr ⟨hx, q, h2, hqid, hqne⟩
    · rename_i hpc
      rw [addEdge_deps_mem]
      constructor
      · rintro ((h | ⟨rfl, rfl⟩) | ⟨hx, q, hq, hqid, hqne⟩)
        · exact Or.inl h
        · exact Or.inr ⟨rfl, p, List.mem_cons_self p ms, rfl, hpc⟩
        · exact Or.inr ⟨hx, q, List.mem_cons_of_mem p hq, hqid, hqne⟩
      · rintro (h | ⟨hx, q, hq, hqid, hqne⟩)
        · exact Or.inl (Or.inl h)
        · cases hq with
          | head => exact Or.inl (Or.inr ⟨hx, hqid.symm⟩)
          | tail _ h2 => exact Or.inr ⟨hx, q, h2, hqid, hqne⟩

theorem foldEdges_dependents (c : SinkBinding) :
    ∀ (ms : List SinkBinding) (g : Graph) (x c2 : String),
      c2 ∈ (ms.foldl (fun g p => if p.id = c.id then g
          else addEdge g c.id p.id) g).dependents x ↔
        c2 ∈ g.dependents x ∨ (c2 = c.id ∧ ∃ p ∈ ms, p.id = x ∧ p.id ≠ c.id) := by
  intro ms
  induction ms with
  | nil =>
    intro g x c2
    rw [List.foldl_nil]
    constructor
    · exact Or.inl
    · rintro (h | ⟨_, p, hmem, _, _⟩)
      · exact h
      · cases hmem
  | cons p ms ih =>
    intro g x c2
    rw [List.foldl_cons, ih]
    split
    · rename_i hpc
      constructor
      · rintro (h | ⟨hx, q, hq, hqid, hqne⟩)
        · exact Or.inl h
        · exact Or.inr ⟨hx, q, List.mem_cons_of_mem p hq, hqid, hqne⟩
      · rintro (h | ⟨hx, q, hq, hqid, hqne⟩)
        · exact Or.inl h
        · cases hq with
          | head => exact absurd hpc hqne
          | tail _ h2 => exact Or.inr ⟨hx, q, h2, hqid, hqne⟩
    · rename_i hpc
      rw [addEdge_dependents_mem]
      constructor
      · rintro ((h | ⟨rfl, rfl⟩) | ⟨hx, q, hq, hqid, hqne⟩)
        · exact Or.inl h
        · exact Or.inr ⟨rfl, p, List.mem_cons_self p ms, rfl, hpc⟩
        · exact Or.inr ⟨hx, q, List.mem_cons_of_mem p hq, hqid, hqne⟩
      · rintro (h | ⟨hx, q, hq, hqid, hqne⟩)
        · exact Or.inl (Or.inl h)
        · cases hq with
          | head => exact Or.inl (Or.inr ⟨hqid.symm, hx⟩)
          | tail _ h2 => exact Or.inr ⟨hx, q, h2, hqid, hqne⟩

theorem foldEdges_nodup (c : SinkBinding) :
    ∀ (ms : List SinkBinding) (g : Graph),
      (∀ x, (g.deps x).Nodup ∧ (g.dependents x).Nodup) →
      ∀ x, ((ms.foldl (fun g p => if p.id = c.id then g
          else addEdge g c.id p.id) g).deps x).Nodup ∧
        ((ms.foldl (fun g p => if p.id = c.id then g
          else addEdge g c.id p.id) g).dependents x).Nodup := by
  intro ms
  induction ms with
  | nil => intro g hg x; exact hg x
  | cons p ms ih =>
    intro g hg
    rw [List.foldl_cons]
    by_cases hpc : p.id = c.id
    · simp only [if_pos hpc]
      exact ih g hg
    · simp only [if_neg hpc]
      exact ih _ (addEdge_nodup hg c.id p.id)

theorem addRequestEdges_ok_graph {bs : List SinkBinding} {c : SinkBinding}
    {g g2 : Graph} {r : ArtifactRequest} (h : addRequestEdges bs c g r = .ok g2) :
    g2 = (requestMatches bs r).foldl
      (fun g p => if p.id = c.id then g else addEdge g c.id p.id) g := by
  simp only [addRequestEdges] at h
  cases hs : seqForE (fun p => enforceDependencySecurity c p)
      (requestMatches bs r) with
  | error e => rw [hs] at h; cases h
  | ok u =>
    rw [hs] at h
    simp only [exceptBind_ok] at h
    exact (Except.ok.inj h).symm

theorem consumeFold_deps {bs : List SinkBinding} (c : SinkBinding) :
    ∀ (rs : List ArtifactRequest) (g g' : Graph),
      seqFoldE (addRequestEdges bs c) g rs = .ok g' →
      ∀ x p2, p2 ∈ g'.deps x ↔ p2 ∈ g.deps x ∨
        (x = c.id ∧ ∃ r ∈ rs, ∃ p ∈ requestMatches bs r,
          p.id = p2 ∧ p.id ≠ c.id) := by
  intro rs
  induction rs with
  | nil =>
    intro g g' h x p2
    cases h
    constructor
    · exact Or.inl
    · rintro (h2 | ⟨_, r, hr, _⟩)
      · exact h2
      · cases hr
  | cons r rs ih =>
    intro g g' h x p2
    rw [seqFoldE] at h
    cases hs : addRequestEdges bs c g r with
    | error e => rw [hs] at h; cases h
    | ok g1 =>
      rw [hs] at h
      rw [ih g1 g' h, addRequestEdges_ok_graph hs, foldEdges_deps]
      constructor
      · rintro ((h2 | ⟨hx, p, hp, hpid, hpne⟩) | ⟨hx, r2, hr2, p, hp, hpid, hpne⟩)
        · exact Or.inl h2
        · exact Or.inr ⟨hx, r, List.mem_cons_self r rs, p, hp, hpid, hpne⟩
        · exact Or.inr ⟨hx, r2, List.mem_cons_of_mem r hr2, p, hp, hpid, hpne⟩
      · rintro (h2 | ⟨hx, r2, hr2, p, hp, hpid, hpne⟩)
        · exact Or.inl (Or.inl h2)
        · cases hr2 with
          | head => exact Or.inl (Or.inr ⟨hx, p, hp, hpid, hpne⟩)
          | tail _ h3 => exact Or.inr ⟨hx, r2, h3, p, hp, hpid, hpne⟩

theorem consumeFold_dependents {bs : List SinkBinding} (c : SinkBinding) :
    ∀ (rs : List ArtifactRequest) (g g' : Graph),
      seqFoldE (addRequestEdges bs c) g rs = .ok g' →
      ∀ x c2, c2 ∈ g'.dependents x ↔ c2 ∈ g.dependents x ∨
        (c2 = c.id ∧ ∃ r ∈ rs, ∃ p ∈ requestMatches bs r,
          p.id = x ∧ p.id ≠ c.id) := by
  intro rs
  induction rs with
  | nil =>
    intro g g' h x c2
    cases h
    constructor
    · exact Or.inl
    · rintro (h2 | ⟨_, r, hr, _⟩)
      · exact h2
      · cases hr
  | cons r rs ih =>
    intro g g' h x c2
    rw [seqFoldE] at h
    cases hs : addRequestEdges bs c g r with
    | error e => rw [hs] at h; cases h
    | ok g1 =>
      rw [hs] at h
      rw [ih g1 g' h, addRequestEdges_ok_graph hs, foldEdges_dependents]
      constructor
      · rintro ((h2 | ⟨hx, p, hp, hpid, hpne⟩) | ⟨hx, r2, hr2, p, hp, hpid, hpne⟩)
        · exact Or.inl h2
        · exact Or.inr ⟨hx, r, List.mem_cons_self r rs, p, hp, hpid, hpne⟩
        · exact Or.inr ⟨hx, r2, List.mem_cons_of_mem r hr2, p, hp, hpid, hpne⟩
      · rintro (h2 | ⟨hx, r2, hr2, p, hp, hpid, hpne⟩)
        · exact Or.inl (Or.inl h2)
        · cases hr2 with
          | head => exact Or.inl (Or.inr ⟨hx, p, hp, hpid, hpne⟩)
          | tail _ h3 => exact Or.inr ⟨hx, r2, h3, p, hp, hpid, hpne⟩

theorem consumeFold_nodup {bs : List SinkBinding} (c : SinkBinding) :
    ∀ (rs : List ArtifactRequest) (g g' : Graph),
      seqFoldE (addRequestEdges bs c) g rs = .ok g' →
      (∀ x, (g.deps x).Nodup ∧ (g.dependents x).Nodup) →
      ∀ x, (g'.deps x).Nodup ∧ (g'.dependents x).Nodup := by
  intro rs
  induction rs with
  | nil =>
    intro g g' h hg
    cases h
    exact hg
  | cons r rs ih =>
    intro g g' h hg
    rw [seqFoldE] at h
    cases hs : addRequestEdges bs c g r with
    | error e => rw [hs] at h; cases h
    | ok g1 =>
      rw [hs] at h
      refine ih g1 g' h ?_
      rw [addRequestEdges_ok_graph hs]
      exact foldEdges_nodup c _ g hg

theorem outerFold_deps (bs : List SinkBinding) :
    ∀ (l : List SinkBinding) (g g' : Graph),
      seqFoldE (fun g c => seqFoldE (addRequestEdges bs c) g c.consumes) g l
        = .ok g' →
      ∀ x p2, p2 ∈ g'.deps x ↔ p2 ∈ g.deps x ∨
        ∃ c ∈ l, x = c.id ∧ ∃ r ∈ c.consumes, ∃ p ∈ requestMatches bs r,
          p.id = p2 ∧ p.id ≠ c.id := by
  intro l
  induction l with
  | nil =>
    intro g g' h x p2
    cases h
    constructor
    · exact Or.inl
    · rintro (h2 | ⟨c, hc, _⟩)
      · exact h2
      · cases hc
  | cons c l ih =>
    intro g g' h x p2
    rw [seqFoldE] at h
    cases hs : seqFoldE (addRequestEdges bs c) g c.consumes with
    | error e => rw [hs] at h; cases h
    | ok g1 =>
      rw [hs] at h
      rw [ih g1 g' h, consumeFold_deps c c.consumes g g1 hs]
      constructor
      · rintro ((h2 | ⟨hx, r, hr, p, hp, hpid, hpne⟩) | ⟨c2, hc2, hx, rest⟩)
        · exact Or.inl h2
        · exact Or.inr ⟨c, List.mem_cons_self c l, hx, r, hr, p, hp, hpid, hpne⟩
        · exact Or.inr ⟨c2, List.mem_cons_of_mem c hc2, hx, rest⟩
      · rintro (h2 | ⟨c2, hc2, hx, rest⟩)
        · exact Or.inl (Or.inl h2)
        · cases hc2 with
          | head => exact Or.inl (Or.inr ⟨hx, rest⟩)
          | tail _ h3 => exact Or.inr ⟨c2, h3, hx, rest⟩

theorem outerFold_dependents (bs : List SinkBinding) :
    ∀ (l : List SinkBinding) (g g' : Graph),
      seqFoldE (fun g c => seqFoldE (addRequestEdges bs c) g c.consumes) g l
        = .ok g' →
      ∀ x c2, c2 ∈ g'.dependents x ↔ c2 ∈ g.dependents x ∨
        ∃ c ∈ l, c2 = c.id ∧ ∃ r ∈ c.consumes, ∃ p ∈ requestMatches bs r,
          p.id = x ∧ p.id ≠ c.id := by
  intro l
  induction l with
  | nil =>
    intro g g' h x c2
    cases h
    constructor
    · exact Or.inl
    · rintro (h2 | ⟨c, hc, _⟩)
      · exact h2
      · cases hc
  | cons c l ih =>
    intro g g' h x c2
    rw [seqFoldE] at h
    cases hs : seqFoldE (addRequestEdges bs c) g c.consumes with
    | error e => rw [hs] at h; cases h
    | ok g1 =>
      rw [hs] at h
      rw [ih g1 g' h, consumeFold_dependents c c.consumes g g1 hs]
      constructor
      · rintro ((h2 | ⟨hx, r, hr, p, hp, hpid, hpne⟩) | ⟨c2b, hc2, hx, rest⟩)
        · exact Or.inl h2
        · exact Or.inr ⟨c, List.mem_cons_self c l, hx, r, hr, p, hp, hpid, hpne⟩
        · exact Or.inr ⟨c2b, List.mem_cons_of_mem c hc2, hx, rest⟩
      · rintro (h2 | ⟨c2b, hc2, hx, rest⟩)
        · exact Or.inl (Or.inl h2)
        · cases hc2 with
          | head => exact Or.inl (Or.inr ⟨hx, rest⟩)
          | tail _ h3 => exact Or.inr ⟨c2b, h3, hx, rest⟩

theorem outerFold_nodup (bs : List SinkBinding) :
    ∀ (l : List SinkBinding) (g g' : Graph),
      seqFoldE (fun g c => seqFoldE (addRequestEdges bs c) g c.consumes) g l
        = .ok g' →
      (∀ x, (g.deps x).Nodup ∧ (g.dependents x).Nodup) →
      ∀ x, (g'.deps x).Nodup ∧ (g'.dependents x).Nodup := by
  intro l
  induction l with
  | nil =>
    intro g g' h hg
    cases h
    exact hg
  | cons c l ih =>
    intro g g' h hg
    rw [seqFoldE] at h
    cases hs : seqFoldE (addRequestEdges bs c) g c.consumes with
    | error e => rw [hs] at h; cases h
    | ok g1 =>
      rw [hs] at h
      exact ih g1 g' h (consumeFold_nodup c c.consumes g g1 hs hg)

theorem buildGraph_deps_mem {bs : List SinkBinding} {g : Graph}
    (h : buildGraph bs = .ok g) (x p2 : String) :
    p2 ∈ g.deps x ↔ ∃ c ∈ bs, x = c.id ∧ ∃ r ∈ c.consumes,
      ∃ p ∈ requestMatches bs r, p.id = p2 ∧ p.id ≠ c.id := by
  rw [outerFold_deps bs bs Graph.empty g h x p2]
  constructor
  · rintro (h2 | h2)
    · cases h2
    · exact h2
  · exact Or.inr

theorem buildGraph_dependents_mem {bs : List SinkBinding} {g : Graph}
    (h : buildGraph bs = .ok g) (x c2 : String) :
    c2 ∈ g.dependents x ↔ ∃ c ∈ bs, c2 = c.id ∧ ∃ r ∈ c.consumes,
      ∃ p ∈ requestMatches bs r, p.id = x ∧ p.id ≠ c.id := by
  rw [outerFold_dependents bs bs Graph.empty g h x c2]
  constructor
  · rintro (h2 | h2)
    · cases h2
    · exact h2
  · exact Or.inr

theorem buildGraph_nodup {bs : List SinkBinding} {g : Graph}
    (h : buildGraph bs = .ok g) :
    ∀ x, (g.deps x).Nodup ∧ (g.dependents x).Nodup :=
  outerFold_nodup bs bs Graph.empty g h
    (fun _ => ⟨List.nodup_nil, List.nodup_nil⟩)

theorem buildGraph_sync {bs : List SinkBinding} {g : Graph}
    (h : buildGraph bs = .ok g) (cid pid : String) :
    pid ∈ g.deps cid ↔ cid ∈ g.dependents pid := by
  rw [buildGraph_deps_mem h cid pid, buildGraph_dependents_mem h pid cid]

theorem processDependent_fst (bs : List SinkBinding) (cid : String)
    (st : (String → List String) × List SinkBinding) (d : String) :
    (processDependent bs cid st d).1 =
      if cid ∈ st.1 d
      then (fun x => if x = d then eraseStr (st.1 d) cid else st.1 x)
      else st.1 := by
  simp only [processDependent]
  split
  · split
    · split
      · rfl
      · rfl
    · rfl
  · rfl

theorem processDependent_snd (bs : List SinkBinding) (cid : String)
    (st : (String → List String) × List SinkBinding) (d : String) :
    (processDependent bs cid st d).2 =
      if cid ∈ st.1 d ∧ (eraseStr (st.1 d) cid).isEmpty = true
      then (match byId bs d with
            | some b => sortReady (st.2 ++ [b])
            | none => st.2)
      else st.2 := by
  simp only [processDependent]
  split
  · rename_i h1
    split
    · rename_i h2
      rw [if_pos ⟨h1, h2⟩]
      cases byId bs d <;> rfl
    · rename_i h2
      rw [if_neg (fun hc => h2 hc.2)]
  · rename_i h1
    rw [if_neg (fun hc => h1 hc.1)]

theorem sortReady_sorted (l : List SinkBinding) :
    (sortReady l).Sorted bindingLe :=
  List.sorted_insertionSort bindingLe l

theorem sortReady_nodup {l : List SinkBinding} (h : l.Nodup) :
    (sortReady l).Nodup :=
  ((List.perm_insertionSort bindingLe l).nodup_iff).mpr h

theorem passFold (bs : List SinkBinding) (cid : String) :
    ∀ (ds : List String), ds.Nodup →
    ∀ (st : (String → List String) × List SinkBinding),
      (∀ q ∈ st.2, st.1 q.id = []) →
      st.2.Nodup →
      st.2.Sorted bindingLe →
      (∀ x, (st.1 x).Nodup) →
      (∀ x, (ds.foldl (processDependent bs cid) st).1 x =
        if x ∈ ds ∧ cid ∈ st.1 x then eraseStr (st.1 x) cid else st.1 x) ∧
      (∀ b, b ∈ (ds.foldl (processDependent bs cid) st).2 ↔
        b ∈ st.2 ∨ (b.id ∈ ds ∧ cid ∈ st.1 b.id ∧
          eraseStr (st.1 b.id) cid = [] ∧ byId bs b.id = some b)) ∧
      (∀ q ∈ (ds.foldl (processDependent bs cid) st).2,
        (ds.foldl (processDependent bs cid) st).1 q.id = []) ∧
      (ds.foldl (processDependent bs cid) st).2.Nodup ∧
      (ds.foldl (processDependent bs cid) st).2.Sorted bindingLe ∧
      (∀ x, ((ds.foldl (processDependent bs cid) st).1 x).Nodup) := by
  intro ds
  induction ds with
  | nil =>
    intro _ st hq hnd hsort hdnd
    refine ⟨?_, ?_, hq, hnd, hsort, hdnd⟩
    · intro x
      rw [List.foldl_nil, if_neg (fun hc => by cases hc.1)]
    · intro b
      rw [List.foldl_nil]
      constructor
      · exact Or.inl
      · rintro (h | ⟨h, _⟩)
        · exact h
        · cases h
  | cons d ds ih =>
    intro hndds st hq hnd hsort hdnd
    rw [List.nodup_cons] at hndds
    rw [List.foldl_cons]
    have hfst := processDependent_fst bs cid st d
    have hsnd := processDependent_snd bs cid st d
    set st1 := processDependent bs cid st d with hst1
    have hq1 : ∀ q ∈ st1.2, st1.1 q.id = [] := by
      intro q hmem
      rw [hsnd] at hmem
      rw [hfst]
      split at hmem
      · rename_i hcond
        obtain ⟨hcd, hemp⟩ := hcond
        rw [if_pos hcd]
        cases hb : byId bs d with
        | none =>
          rw [hb] at hmem
          have hq2 := hq q hmem
          have hne : q.id ≠ d := fun he => by
            rw [he] at hq2; rw [hq2] at hcd; cases hcd
          simp only [if_neg hne]
          exact hq2
        | some b2 =>
          rw [hb] at hmem
          rw [sortReady_mem, List.mem_append, List.mem_singleton] at hmem
          rcases hmem with hmem | rfl
          · have hq2 := hq q hmem
            have hne : q.id ≠ d := fun he => by
              rw [he] at hq2; rw [hq2] at hcd; cases hcd
            simp only [if_neg hne]
            exact hq2
          · simp only [if_pos (byId_id hb)]
            exact List.isEmpty_iff.mp hemp
      · split
        · rename_i hcd
          have hq2 := hq q hmem
          have hne : q.id ≠ d := fun he => by
            rw [he] at hq2; rw [hq2] at hcd; cases hcd
          simp only [if_neg hne]
          exact hq2
        · exact hq q hmem
    have hnd1 : st1.2.Nodup := by
      rw [hsnd]
      split
      · rename_i hcond
        cases hb : byId bs d with
        | none => exact hnd
        | some b2 =>
          refine sortReady_nodup (List.Nodup.append hnd (List.nodup_singleton b2) ?_)
          intro a ha hb2
          rw [List.mem_singleton] at hb2
          subst hb2
          have h2 := hq a ha
          rw [byId_id hb] at h2
          rw [h2] at hcond
          cases hcond.1
      · exact hnd
    have hsort1 : st1.2.Sorted bindingLe := by
      rw [hsnd]
      split
      · cases hb : byId bs d with
        | none => exact hsort
        | some b2 => exact sortReady_sorted _
      · exact hsort
    have hdnd1 : ∀ x, (st1.1 x).Nodup := by
      intro x
      rw [hfst]
      split
      · by_cases hxd : x = d
        · simp only [if_pos hxd, hxd]
          exact eraseStr_nodup (hdnd d) cid
        · simp only [if_neg hxd]
          exact hdnd x
      · exact hdnd x
    have hfr : ∀ x, x ≠ d → st1.1 x = st.1 x := by
      intro x hxd
      rw [hfst]
      split
      · simp only [if_neg hxd]
      · rfl
    obtain ⟨ihP1, ihP2, ihQ, ihND, ihS, ihDND⟩ :=
      ih hndds.2 st1 hq1 hnd1 hsort1 hdnd1
    refine ⟨?_, ?_, ihQ, ihND, ihS, ihDND⟩
    · intro x
      rw [ihP1 x]
      by_cases hxds : x ∈ ds
      · have hxd : x ≠ d := fun he => hndds.1 (he ▸ hxds)
        rw [hfr x hxd]
        by_cases hcx : cid ∈ st.1 x
        · rw [if_pos ⟨hxds, hcx⟩, if_pos ⟨List.mem_cons_of_mem d hxds, hcx⟩]
        · rw [if_neg (fun hc => hcx hc.2), if_neg (fun hc => hcx hc.2)]
      · rw [if_neg (fun hc => hxds hc.1)]
        by_cases hxd : x = d
        · subst hxd
          rw [hfst]
          by_cases hcd : cid ∈ st.1 x
          · rw [if_pos hcd]
            simp only [if_pos rfl]
            have hcc : x ∈ x :: ds ∧ cid ∈ st.1 x :=
              ⟨List.mem_cons_self x ds, hcd⟩
            rw [if_pos hcc]
            simp
          · rw [if_neg hcd, if_neg (fun hc => hcd hc.2)]
        · rw [hfr x hxd, if_neg (fun hc => by
            rcases List.mem_cons.mp hc.1 with h | h
            · exact hxd h
            · exact hxds h)]
    · intro b
      rw [ihP2 b]
      have hmem1 : b ∈ st1.2 ↔ b ∈ st.2 ∨
          (b.id = d ∧ cid ∈ st.1 d ∧ eraseStr (st.1 d) cid = [] ∧
            byId bs b.id = some b) := by
        rw [hsnd]
        split
        · rename_i hcond
          obtain ⟨hcd, hemp⟩ := hcond
          cases hb : byId bs d with
          | none =>
            constructor
            · exact Or.inl
            · rintro (h | ⟨hbd, _, _, hbi⟩)
              · exact h
              · rw [hbd] at hbi
                rw [hbi] at hb
                cases hb
          | some b2 =>
            rw [sortReady_mem, List.mem_append, List.mem_singleton]
            constructor
            · rintro (h | rfl)
              · exact Or.inl h
              · exact Or.inr ⟨byId_id hb, hcd, List.isEmpty_iff.mp hemp,
                  (byId_id hb).symm ▸ hb⟩
            · rintro (h | ⟨hbd, _, _, hbi⟩)
              · exact Or.inl h
              · rw [hbd] at hbi
                rw [hbi] at hb
                cases hb
                exact Or.inr rfl
        · rename_i hcond
          constructor
          · exact Or.inl
          · rintro (h | ⟨hbd, hcd, hemp, _⟩)
            · exact h
            · exact absurd ⟨hbd ▸ hcd, List.isEmpty_iff.mpr (hbd ▸ hemp)⟩ hcond
      have hst1bid : b.id ∈ ds → st1.1 b.id = st.1 b.id := fun hbds =>
        hfr b.id (fun he => hndds.1 (he ▸ hbds))
      constructor
      · rintro (h | ⟨hbds, hcx, hemp, hbi⟩)
        · rcases hmem1.mp h with h2 | ⟨hbd, hcd, hemp, hbi⟩
          · exact Or.inl h2
          · exact Or.inr ⟨hbd ▸ List.mem_cons_self d ds, hbd ▸ hcd,
              hbd ▸ hemp, hbi⟩
        · rw [hst1bid hbds] at hcx hemp
          exact Or.inr ⟨List.mem_cons_of_mem d hbds, hcx, hemp, hbi⟩
      · rintro (h | ⟨hbds, hcx, hemp, hbi⟩)
        · exact Or.inl (hmem1.mpr (Or.inl h))
        · cases hbds with
          | head =>
            exact Or.inl (hmem1.mpr (Or.inr ⟨rfl, hcx, hemp, hbi⟩))
          | tail _ h3 =>
            refine Or.inr ⟨h3, ?_, ?_, hbi⟩
            · rw [hst1bid h3]; exact hcx
            · rw [hst1bid h3]; exact hemp

theorem get_append_left {α : Type} (l1 l2 : List α) (i : Nat) (hi : i < l1.length)
    (hi2 : i < (l1 ++ l2).length) :
    (l1 ++ l2).get ⟨i, hi2⟩ = l1.get ⟨i, hi⟩ := by
  induction l1 generalizing i with
  | nil => cases hi
  | cons a l ih =>
    cases i with
    | zero => rfl
    | succ n =>
      exact ih n (Nat.lt_of_succ_lt_succ hi) (Nat.lt_of_succ_lt_succ hi2)

theorem take_append_le {α : Type} (l1 l2 : List α) (i : Nat) (hi : i ≤ l1.length) :
    (l1 ++ l2).take i = l1.take i := by
  induction l1 generalizing i with
  | nil =>
    cases i with
    | zero => rfl
    | succ n => cases hi
  | cons a l ih =>
    cases i with
    | zero => rfl
    | succ n =>
      show a :: (l ++ l2).take n = a :: l.take n
      rw [ih n (Nat.le_of_succ_le_succ hi)]

theorem prefix_take_eq {α : Type} {l1 l2 : List α} (h : l1 <+: l2) :
    l2.take l1.length = l1 := by
  obtain ⟨t, rfl⟩ := h
  rw [take_append_le l1 t l1.length (Nat.le_refl _), List.take_length]

theorem prefix_get {α : Type} {l1 l2 : List α} (h : l1 <+: l2) (i : Nat)
    (hi : i < l1.length) (hi2 : i < l2.length) :
    l2.get ⟨i, hi2⟩ = l1.get ⟨i, hi⟩ := by
  obtain ⟨t, rfl⟩ := h
  exact get_append_left l1 t i hi hi2

theorem get_append_length {α : Type} (l : List α) (a : α)
    (h : l.length < (l ++ [a]).length) :
    (l ++ [a]).get ⟨l.length, h⟩ = a := by
  induction l with
  | nil => rfl
  | cons x l ih => exact ih (Nat.lt_of_succ_lt_succ h)

theorem kahnLoop_invariant {bs : List SinkBinding} {g : Graph}
    (hg : buildGraph bs = .ok g)
    (hnd : (bs.map SinkBinding.id).Nodup) :
    ∀ (fuel : Nat) (deps : String → List String) (queue acc : List SinkBinding),
      (∀ x pid, pid ∈ deps x ↔ pid ∈ g.deps x ∧ pid ∉ acc.map SinkBinding.id) →
      (∀ x, (deps x).Nodup) →
      queue.Sorted bindingLe →
      queue.Nodup →
      (∀ b, b ∈ queue ↔ b ∈ bs ∧ b ∉ acc ∧ deps b.id = []) →
      (∀ i (hi : i < acc.length), ∀ pid ∈ g.deps (acc.get ⟨i, hi⟩).id,
        pid ∈ (acc.take i).map SinkBinding.id) →
      (acc.map SinkBinding.id).Nodup →
      (∀ b ∈ acc, b ∈ bs) →
      acc <+: kahnLoop bs g.dependents fuel deps queue acc ∧
      ((kahnLoop bs g.dependents fuel deps queue acc).map SinkBinding.id).Nodup ∧
      (∀ b ∈ kahnLoop bs g.dependents fuel deps queue acc, b ∈ bs) ∧
      (∀ i (hi : i < (kahnLoop bs g.dependents fuel deps queue acc).length),
        ∀ pid ∈ g.deps ((kahnLoop bs g.dependents fuel deps queue acc).get
          ⟨i, hi⟩).id,
          pid ∈ ((kahnLoop bs g.dependents fuel deps queue acc).take i).map
            SinkBinding.id) ∧
      (∀ i, acc.length ≤ i →
        ∀ (hi : i < (kahnLoop bs g.dependents fuel deps queue acc).length),
        ∀ b ∈ bs, b ∉ (kahnLoop bs g.dependents fuel deps queue acc).take i →
          (∀ pid ∈ g.deps b.id,
            pid ∈ ((kahnLoop bs g.dependents fuel deps queue acc).take i).map
              SinkBinding.id) →
          ((kahnLoop bs g.dependents fuel deps queue acc).get
            ⟨i, hi⟩).original_index ≤ b.original_index) := by
  intro fuel
  induction fuel with
  | zero =>
    intro deps queue acc hA1 hA2 hSort hQnd hA4 hA6 hA7 hA7b
    rw [kahnLoop]
    refine ⟨List.prefix_rfl, hA7, hA7b, hA6, ?_⟩
    intro i hge hi
    exact absurd (Nat.lt_of_le_of_lt hge hi) (Nat.lt_irrefl _)
  | succ fuel ih =>
    intro deps queue acc hA1 hA2 hSort hQnd hA4 hA6 hA7 hA7b
    cases queue with
    | nil =>
      rw [kahnLoop]
      refine ⟨List.prefix_rfl, hA7, hA7b, hA6, ?_⟩
      intro i hge hi
      exact absurd (Nat.lt_of_le_of_lt hge hi) (Nat.lt_irrefl _)
    | cons current rest =>
      simp only [kahnLoop]
      obtain ⟨hcur_bs, hcur_nacc, hcur_deps⟩ :=
        (hA4 current).mp (List.mem_cons_self current rest)
      have hsc := List.sorted_cons.mp hSort
      have hndq := List.nodup_cons.mp hQnd
      have hA6set : ∀ c ∈ acc, ∀ pid ∈ g.deps c.id,
          pid ∈ acc.map SinkBinding.id := by
        intro c hc pid hpid
        obtain ⟨n, hn⟩ := List.mem_iff_get.mp hc
        subst hn
        exact List.map_subset SinkBinding.id (List.take_subset n.1 acc)
          (hA6 n.1 n.2 pid hpid)
      have hds_nd : (g.dependents current.id).Nodup :=
        (buildGraph_nodup hg current.id).2
      obtain ⟨hP1r, hP2r, hQ2, hND2, hS2, hDND2⟩ :=
        passFold bs current.id (g.dependents current.id) hds_nd (deps, rest)
          (fun q hq => ((hA4 q).mp (List.mem_cons_of_mem current hq)).2.2)
          hndq.2 hsc.2 hA2
      set st' := (g.dependents current.id).foldl
        (processDependent bs current.id) (deps, rest) with hst'
      have hP1 : ∀ x, st'.1 x =
          if x ∈ g.dependents current.id ∧ current.id ∈ deps x
          then eraseStr (deps x) current.id else deps x := hP1r
      have hP2 : ∀ b, b ∈ st'.2 ↔ b ∈ rest ∨
          (b.id ∈ g.dependents current.id ∧ current.id ∈ deps b.id ∧
            eraseStr (deps b.id) current.id = [] ∧ byId bs b.id = some b) := hP2r
      set acc2 := acc ++ [current] with hacc2
      have haccids2 : acc2.map SinkBinding.id
          = acc.map SinkBinding.id ++ [current.id] := by
        show (acc ++ [current]).map SinkBinding.id = _
        rw [List.map_append]
        rfl
      have hcurid_nacc : current.id ∉ acc.map SinkBinding.id := by
        intro hmem
        rw [List.mem_map] at hmem
        obtain ⟨c, hc, hcid⟩ := hmem
        exact hcur_nacc (id_inj_of_nodup hnd (hA7b c hc) hcur_bs hcid ▸ hc)
      have hnoself : ∀ x : String, current.id ∈ g.deps x → current.id ≠ x := by
        intro x hx
        obtain ⟨c, _, hxc, r, _, p, _, hpid, hpne⟩ :=
          (buildGraph_deps_mem hg x current.id).mp hx
        rw [hxc]
        rw [hpid] at hpne
        exact hpne
      have hA1' : ∀ x pid, pid ∈ st'.1 x ↔
          pid ∈ g.deps x ∧ pid ∉ acc2.map SinkBinding.id := by
        intro x pid
        rw [haccids2, hP1 x]
        split
        · rename_i hcond
          rw [eraseStr_mem (hA2 x) current.id pid, hA1 x pid,
            List.mem_append, List.mem_singleton]
          constructor
          · rintro ⟨⟨h1, h2⟩, h3⟩
            exact ⟨h1, fun hc => hc.elim h2 h3⟩
          · rintro ⟨h1, h2⟩
            exact ⟨⟨h1, fun hc => h2 (Or.inl hc)⟩, fun hc => h2 (Or.inr hc)⟩
        · rename_i hcond
          rw [hA1 x pid, List.mem_append, List.mem_singleton]
          constructor
          · rintro ⟨h1, h2⟩
            refine ⟨h1, fun hc => ?_⟩
            rcases hc with hc | he
            · exact h2 hc
            · exact hcond ⟨(buildGraph_sync hg x current.id).mp (he ▸ h1),
                (hA1 x current.id).mpr ⟨he ▸ h1, he ▸ h2⟩⟩
          · rintro ⟨h1, h2⟩
            exact ⟨h1, fun hc => h2 (Or.inl hc)⟩
      have hA4' : ∀ b, b ∈ st'.2 ↔ b ∈ bs ∧ b ∉ acc2 ∧ st'.1 b.id = [] := by
        intro b
        rw [hP2 b]
        constructor
        · rintro (h | ⟨hbds, hbcd, hberase, hbid⟩)
          · have hbq := (hA4 b).mp (List.mem_cons_of_mem current h)
            have hbne : b ≠ current := fun he => hndq.1 (he ▸ h)
            refine ⟨hbq.1, ?_, ?_⟩
            · show b ∉ acc ++ [current]
              rw [List.mem_append, List.mem_singleton]
              rintro (hc | he)
              · exact hbq.2.1 hc
              · exact hbne he
            · rw [hP1 b.id, if_neg (fun hc => by
                have hc2 := hc.2
                rw [hbq.2.2] at hc2
                cases hc2)]
              exact hbq.2.2
          · have hgdep : current.id ∈ g.deps b.id :=
              ((hA1 b.id current.id).mp hbcd).1
            refine ⟨byId_mem hbid, ?_, ?_⟩
            · show b ∉ acc ++ [current]
              rw [List.mem_append, List.mem_singleton]
              rintro (hc | he)
              · exact ((hA1 b.id current.id).mp hbcd).2
                  (hA6set b hc current.id hgdep)
              · exact hnoself current.id (he ▸ hgdep) rfl
            · rw [hP1 b.id, if_pos ⟨hbds, hbcd⟩]
              exact hberase
        · rintro ⟨hbbs, hbnacc2, hbdeps⟩
          have hbnacc : b ∉ acc := fun hc =>
            hbnacc2 (by
              show b ∈ acc ++ [current]
              rw [List.mem_append]
              exact Or.inl hc)
          have hbnecur : b ≠ current := fun he =>
            hbnacc2 (by
              show b ∈ acc ++ [current]
              rw [List.mem_append, List.mem_singleton]
              exact Or.inr he)
          by_cases hdb : deps b.id = []
          · have hbq := (hA4 b).mpr ⟨hbbs, hbnacc, hdb⟩
            cases hbq with
            | head => exact absurd rfl hbnecur
            | tail _ h2 => exact Or.inl h2
          · rw [hP1 b.id] at hbdeps
            split at hbdeps
            · rename_i hcond
              exact Or.inr ⟨hcond.1, hcond.2, hbdeps,
                byId_of_mem_nodup hnd hbbs⟩
            · exact absurd hbdeps hdb
      have hlen2 : acc2.length = acc.length + 1 := by
        show (acc ++ [current]).length = _
        rw [List.length_append, List.length_singleton]
      have hA6' : ∀ i (hi : i < acc2.length),
          ∀ pid ∈ g.deps (acc2.get ⟨i, hi⟩).id,
            pid ∈ (acc2.take i).map SinkBinding.id := by
        intro i hi pid hpid
        by_cases hilt : i < acc.length
        · have hget : acc2.get ⟨i, hi⟩ = acc.get ⟨i, hilt⟩ :=
            get_append_left acc [current] i hilt hi
          rw [hget] at hpid
          show pid ∈ ((acc ++ [current]).take i).map SinkBinding.id
          rw [take_append_le acc [current] i (Nat.le_of_lt hilt)]
          exact hA6 i hilt pid hpid
        · have hieq : i = acc.length := by omega
          subst hieq
          have hget : acc2.get ⟨acc.length, hi⟩ = current :=
            get_append_length acc current hi
          rw [hget] at hpid
          show pid ∈ ((acc ++ [current]).take acc.length).map SinkBinding.id
          rw [take_append_le acc [current] acc.length (Nat.le_refl _),
            List.take_length]
          by_cases hmem : pid ∈ acc.map SinkBinding.id
          · exact hmem
          · exact absurd ((hA1 current.id pid).mpr ⟨hpid, hmem⟩)
              (by rw [hcur_deps]; exact List.not_mem_nil pid)
      have hA7' : (acc2.map SinkBinding.id).Nodup := by
        rw [haccids2]
        refine List.Nodup.append hA7 (List.nodup_singleton current.id) ?_
        intro a ha hb
        rw [List.mem_singleton] at hb
        subst hb
        exact hcurid_nacc ha
      have hA7b' : ∀ b ∈ acc2, b ∈ bs := by
        intro b hb
        have hb2 : b ∈ acc ++ [current] := hb
        rw [List.mem_append, List.mem_singleton] at hb2
        rcases hb2 with hb2 | he
        · exact hA7b b hb2
        · exact he.symm ▸ hcur_bs
      obtain ⟨ihPre, ihNd, ihBs, ihA6, ihMin⟩ :=
        ih st'.1 st'.2 acc2 hA1' hDND2 hS2 hND2 hA4' hA6' hA7' hA7b'
      refine ⟨(List.prefix_append acc [current]).trans ihPre, ihNd, ihBs,
        ihA6, ?_⟩
      intro i hge hi b hb hbtake hbdep
      by_cases hge2 : acc2.length ≤ i
      · exact ihMin i hge2 hi b hb hbtake hbdep
      · have hieq : i = acc.length := by omega
        subst hieq
        have hpre : acc <+: kahnLoop bs g.dependents fuel st'.1 st'.2 acc2 :=
          (List.prefix_append acc [current]).trans ihPre
        have htake : (kahnLoop bs g.dependents fuel st'.1 st'.2 acc2).take
            acc.length = acc := prefix_take_eq hpre
        rw [htake] at hbtake hbdep
        have hget : (kahnLoop bs g.dependents fuel st'.1 st'.2 acc2).get
            ⟨acc.length, hi⟩ = current := by
          rw [prefix_get ihPre acc.length (by omega) hi]
          exact get_append_length acc current (by
            rw [List.length_append, List.length_singleton]
            omega)
        rw [hget]
        have hdb : deps b.id = [] := by
          rw [List.eq_nil_iff_forall_not_mem]
          intro pid hpid
          exact ((hA1 b.id pid).mp hpid).2 (hbdep pid ((hA1 b.id pid).mp hpid).1)
        have hbq := (hA4 b).mpr ⟨hb, hbtake, hdb⟩
        cases hbq with
        | head => exact Nat.le_refl _
        | tail _ h2 => exact hsc.1 b h2

theorem resolveOrder_spec {bs ordered : List SinkBinding}
    (hnd : (bs.map SinkBinding.id).Nodup)
    (hok : resolveOrder bs = .ok ordered) :
    ordered.Perm bs ∧
    (∀ (i j : Nat) (hi : i < ordered.length) (hj : j < ordered.length),
      dependsOn bs (ordered.get ⟨i, hi⟩) (ordered.get ⟨j, hj⟩) → j < i) ∧
    (∀ (i : Nat) (hi : i < ordered.length), ∀ b ∈ availableAt bs ordered i,
      (ordered.get ⟨i, hi⟩).original_index ≤ b.original_index) ∧
    (∀ c, ¬ Relation.TransGen (fun x y => dependsOn bs x y ∧ x ∈ bs) c c) := by
  simp only [resolveOrder] at hok
  split at hok
  · rename_i hbs
    cases hok
    have hbs2 : bs = [] := List.isEmpty_iff.mp hbs
    refine ⟨by rw [hbs2], ?_, ?_, ?_⟩
    · intro i j hi hj
      cases hi
    · intro i hi
      cases hi
    · intro c hc
      cases hc with
      | single h1 => rw [hbs2] at h1; cases h1.2
      | tail h1 h2 => rw [hbs2] at h2; cases h2.2
  · rename_i hbs
    cases hg : buildGraph bs with
    | error e => rw [hg] at hok; cases hok
    | ok g =>
      rw [hg] at hok
      simp only [exceptBind_ok] at hok
      split at hok
      · cases hok
      · rename_i hlen
        rw [ne_eq, not_not] at hlen
        cases hok
        have hbsnd : bs.Nodup := List.Nodup.of_map SinkBinding.id hnd
        obtain ⟨ihPre, ihNd, ihBs, ihA6, ihMin⟩ :=
          kahnLoop_invariant hg hnd bs.length g.deps
            (sortReady (bs.filter (fun b => (g.deps b.id).isEmpty))) []
            (fun x pid => ⟨fun h => ⟨h, List.not_mem_nil pid⟩, fun h => h.1⟩)
            (fun x => (buildGraph_nodup hg x).1)
            (sortReady_sorted _)
            (sortReady_nodup (List.Nodup.filter _ hbsnd))
            (by
              intro b
              rw [sortReady_mem, List.mem_filter]
              constructor
              · rintro ⟨h1, h2⟩
                exact ⟨h1, List.not_mem_nil b, List.isEmpty_iff.mp h2⟩
              · rintro ⟨h1, _, h3⟩
                exact ⟨h1, List.isEmpty_iff.mpr h3⟩)
            (fun i hi => absurd hi (Nat.not_lt_zero i))
            List.nodup_nil
            (fun b hb => absurd hb (List.not_mem_nil b))
        set O := kahnLoop bs g.dependents bs.length g.deps
          (sortReady (bs.filter (fun b => (g.deps b.id).isEmpty))) [] with hO
        have hOnodup : O.Nodup := List.Nodup.of_map SinkBinding.id ihNd
        have hperm : O.Perm bs :=
          (List.subperm_of_subset hOnodup (fun b hb => ihBs b hb)).perm_of_length_le
            (Nat.le_of_eq hlen.symm)
        have hlin : ∀ (i j : Nat) (hi : i < O.length) (hj : j < O.length),
            dependsOn bs (O.get ⟨i, hi⟩) (O.get ⟨j, hj⟩) → j < i := by
          intro i j hi hj hdep
          obtain ⟨hne, r, hr, hpm⟩ := hdep
          have hcbs : O.get ⟨i, hi⟩ ∈ bs := ihBs _ (List.get_mem O i hi)
          have hpbs : O.get ⟨j, hj⟩ ∈ bs := requestMatches_mem hpm
          have hpdep : (O.get ⟨j, hj⟩).id ∈ g.deps (O.get ⟨i, hi⟩).id :=
            (buildGraph_deps_mem hg _ _).mpr
              ⟨O.get ⟨i, hi⟩, hcbs, rfl, r, hr, O.get ⟨j, hj⟩, hpm, rfl, hne⟩
          have htk := ihA6 i hi _ hpdep
          rw [List.mem_map] at htk
          obtain ⟨q, hq, hqid⟩ := htk
          obtain ⟨n, hn⟩ := List.mem_iff_get.mp hq
          have hnlt : n.1 < i := Nat.lt_of_lt_of_le n.2
            (by rw [List.length_take]; exact Nat.min_le_left i O.length)
          have hnO : n.1 < O.length := Nat.lt_trans hnlt hi
          have hOn : O.get ⟨n.1, hnO⟩ = q := by
            rw [← hn]
            exact prefix_get (List.take_prefix i O) n.1 n.2 hnO
          have hq_bs : q ∈ bs := ihBs q (by
            rw [← hOn]
            exact List.get_mem O n.1 hnO)
          have hqp : q = O.get ⟨j, hj⟩ := id_inj_of_nodup hnd hq_bs hpbs hqid
          have hfin : (⟨n.1, hnO⟩ : Fin O.length) = ⟨j, hj⟩ :=
            (List.Nodup.get_inj_iff hOnodup).mp (by rw [hOn, hqp])
          have : n.1 = j := congrArg Fin.val hfin
          omega
        refine ⟨hperm, hlin, ?_, ?_⟩
        · intro i hi b hb
          rw [availableAt, List.mem_filter] at hb
          obtain ⟨hbbs, hpred⟩ := hb
          obtain ⟨hnt, hdeps⟩ := of_decide_eq_true hpred
          refine ihMin i (Nat.zero_le i) hi b hbbs hnt ?_
          intro pid hpid
          obtain ⟨c', hc', hbid, r, hr, p, hp, hpid2, hpne⟩ :=
            (buildGraph_deps_mem hg b.id pid).mp hpid
          have hcb : c' = b := id_inj_of_nodup hnd hc' hbbs hbid.symm
          rw [hcb] at hr hpne
          have hpbs : p ∈ bs := requestMatches_mem hp
          have hdep : dependsOn bs b p := ⟨hpne, r, hr, hp⟩
          have hptk : p ∈ O.take i := hdeps p hpbs hdep
          rw [List.mem_map]
          exact ⟨p, hptk, hpid2⟩
        · intro c hc
          have hstep : ∀ x y, (dependsOn bs x y ∧ x ∈ bs) →
              O.indexOf y < O.indexOf x := by
            rintro x y ⟨hdep, hxbs⟩
            obtain ⟨hne, r, hr, hm⟩ := hdep
            have hybs : y ∈ bs := requestMatches_mem hm
            have hxO : x ∈ O := hperm.mem_iff.mpr hxbs
            have hyO : y ∈ O := hperm.mem_iff.mpr hybs
            have hxlt : O.indexOf x < O.length := List.indexOf_lt_length.mpr hxO
            have hylt : O.indexOf y < O.length := List.indexOf_lt_length.mpr hyO
            refine hlin (O.indexOf x) (O.indexOf y) hxlt hylt ?_
            rw [List.indexOf_get hxlt, List.indexOf_get hylt]
            exact ⟨hne, r, hr, hm⟩
          have hmono : ∀ a b2, Relation.TransGen
              (fun x y => dependsOn bs x y ∧ x ∈ bs) a b2 →
              O.indexOf b2 < O.indexOf a := by
            intro a b2 h
            induction h with
            | single h1 => exact hstep _ _ h1
            | tail h1 h2 ih => exact Nat.lt_trans (hstep _ _ h2) ih
          exact absurd (hmono c c hc) (Nat.lt_irrefl _)

end Pipeline

/-- C2: for duplicate-free binding ids, a successful `_resolve_order` returns
a permutation of the bindings that is a linear extension of the declared
dependency graph (every producer precedes each of its consumers), and at
every step the emitted binding has the smallest original configured index
among the bindings that are ready at that step; and whenever the dependency
relation of a binding list has a cycle, order resolution fails with an error
instead of returning a partial order. -/
theorem c2_topological_order
    (bs ordered bs2 : List Pipeline.SinkBinding)
    (hnd : (bs.map Pipeline.SinkBinding.id).Nodup)
    (hok : Pipeline.resolveOrder bs = .ok ordered)
    (hnd2 : (bs2.map Pipeline.SinkBinding.id).Nodup)
    (hcyc : ∃ c, Relation.TransGen
      (fun x y => Pipeline.dependsOn bs2 x y ∧ x ∈ bs2) c c) :
    ordered.Perm bs ∧
    (∀ (i j : Nat) (hi : i < ordered.length) (hj : j < ordered.length),
      Pipeline.dependsOn bs (ordered.get ⟨i, hi⟩) (ordered.get ⟨j, hj⟩) →
        j < i) ∧
    (∀ (i : Nat) (hi : i < ordered.length),
      ∀ b ∈ Pipeline.availableAt bs ordered i,
        (ordered.get ⟨i, hi⟩).original_index ≤ b.original_index) ∧
    (∃ e, Pipeline.resolveOrder bs2 = .error e) := by
  obtain ⟨hperm, hlin, hmin, _⟩ := Pipeline.resolveOrder_spec hnd hok
  refine ⟨hperm, hlin, hmin, ?_⟩
  cases hres : Pipeline.resolveOrder bs2 with
  | error e => exact ⟨e, rfl⟩
  | ok l2 =>
    obtain ⟨c, hc⟩ := hcyc
    exact absurd hc ((Pipeline.resolveOrder_spec hnd2 hres).2.2.2 c)

theorem c2_topological_order_witness :
    c2ordW.Perm c2bs ∧
    (∀ (i j : Nat) (hi : i < c2ordW.length) (hj : j < c2ordW.length),
      Pipeline.dependsOn c2bs (c2ordW.get ⟨i, hi⟩) (c2ordW.get ⟨j, hj⟩) →
        j < i) ∧
    (∀ (i : Nat) (hi : i < c2ordW.length),
      ∀ b ∈ Pipeline.availableAt c2bs c2ordW i,
        (c2ordW.get ⟨i, hi⟩).original_index ≤ b.original_index) ∧
    (∃ e, Pipeline.resolveOrder c2bs2 = .error e) :=
  c2_topological_order c2bs c2ordW c2bs2 (by decide) rfl (by decide)
    ⟨c2q1, Relation.TransGen.head
      (show Pipeline.dependsOn c2bs2 c2q1 c2q2 ∧ c2q1 ∈ c2bs2 by decide)
      (Relation.TransGen.single
        (show Pipeline.dependsOn c2bs2 c2q2 c2q1 ∧ c2q2 ∈ c2bs2 by decide))⟩

